import Mathlib

/-!
Pixel-Perfect AI Art Converter: the image-to-grid colour reduction.

A shallow embedding of `src/processor.js` (`toHex`, `hexToRGB`, `colorDistance`,
`getRepresentativeColor`, `getRepresentativeColorWeighted`, `convertImage`,
`renderPixelArt`) and of the editor code of `src/script.js` (`saveHistory`, the
undo and redo listener, `floodFill`), with the properties of the colour
reducers, the cell geometry, the renderer, the history and the magic wand.

Conventions of the embedding.
* JavaScript numbers are exact rationals (`ℚ`); `Math.floor`, `Math.ceil` are
  `Int.floor`, `Int.ceil`, and `Math.round x` is `⌊x + 1/2⌋` (halves go up).
* Where the rounding of floating-point arithmetic matters to a statement, the
  definitions with the suffix `Fl` are used: the same code with a rounding
  function `fl` applied to every arithmetic result.
* The elements of a `Uint8ClampedArray` are `Fin 256`; they are cast to `ℕ`,
  `ℤ` or `ℚ` before any arithmetic.
* JavaScript strings are `String`; the helpers work on the list of characters.
* A JavaScript `Map` is an association list in insertion order.
* A result `none` of `getImageData`, `convertCell`, `convertImage` or
  `renderPixelArt` is a raised exception; a result `none` of a reducer is `null`.
* `Math.sqrt` is the real square root; a number that may be `NaN` is an `Option`.
* A loop without a bound of its own (`floodFill`) takes a bound on its number
  of iterations and reports when the bound is reached.
-/

namespace PixelArt

/-! ## Numbers and strings -/

/-- The function `Math.round`: the nearest integer, halves rounded towards `+∞`. -/
def jsRound (x : ℚ) : Int := ⌊x + 1 / 2⌋

/-- The call `Number.prototype.toString(16)` on an integer: lower-case digits, a minus
sign in front of a negative number. -/
def toString16 (num : Int) : List Char :=
  if num < 0 then '-' :: Nat.toDigits 16 num.natAbs else Nat.toDigits 16 num.toNat

/-- The call `String.prototype.padStart(targetLength, c)` for a one-character pad. -/
def padStart (s : List Char) (targetLength : Nat) (c : Char) : List Char :=
  List.replicate (targetLength - s.length) c ++ s

/-- The call `String.prototype.toUpperCase` (on the ASCII characters that occur). -/
def toUpperCase (s : List Char) : List Char := s.map Char.toUpper

/-- The function `toHex(num)`: `num.toString(16).padStart(2, "0").toUpperCase()`. -/
def toHex (num : Int) : String :=
  String.mk (toUpperCase (padStart (toString16 num) 2 '0'))

/-! ## Data model -/

/-- One `{r, g, b}` object of `cellPixels`: three elements read from the image
data, each a byte. -/
structure Pixel where
  r : Fin 256
  g : Fin 256
  b : Fin 256
deriving DecidableEq, Repr

/-- Four consecutive elements `r, g, b, a` of the `Uint8ClampedArray` returned
by `getImageData`. -/
structure RGBA where
  r : Fin 256
  g : Fin 256
  b : Fin 256
  a : Fin 256
deriving DecidableEq, Repr

/-- A colour object `{r, g, b}` computed by a reducer: integer channels. -/
structure RGB where
  r : Int
  g : Int
  b : Int
deriving DecidableEq, Repr

/-- The colour object holding the channels of a sampled pixel. -/
def Pixel.toRGB (p : Pixel) : RGB := ⟨(p.r.val : Int), (p.g.val : Int), (p.b.val : Int)⟩

/-- The `method` option: the five documented names, and any other string. -/
inductive Method where
  | average
  | neighbor
  | most
  | most_light
  | most_dark
  | other
deriving DecidableEq, Repr

/-- The squared-distance test of both reducers:
`dr * dr + dg * dg + db * db <= similarityThreshold * similarityThreshold`. -/
def withinThreshold (color rep : RGB) (similarityThreshold : Int) : Bool :=
  let dr := color.r - rep.r
  let dg := color.g - rep.g
  let db := color.b - rep.b
  decide (dr * dr + dg * dg + db * db ≤ similarityThreshold * similarityThreshold)

/-! ## `getRepresentativeColor` (method `most`) -/

/-- The packed key `(r << 16) | (g << 8) | b`. -/
def colorKey (p : Pixel) : Nat := (p.r.val <<< 16) ||| (p.g.val <<< 8) ||| p.b.val

/-- The colour `{ r: (key >> 16) & 0xFF, g: (key >> 8) & 0xFF, b: key & 0xFF }`. -/
def keyColor (key : Nat) : RGB :=
  ⟨((key >>> 16 &&& 0xFF : Nat) : Int), ((key >>> 8 &&& 0xFF : Nat) : Int),
    ((key &&& 0xFF : Nat) : Int)⟩

/-- An entry `{ key, count }` of `colorCounts` and of `colorEntries`. -/
structure Entry where
  key : Nat
  count : Nat
deriving DecidableEq, Repr

/-- The statement `colorCounts.set(colorKey, (colorCounts.get(colorKey) || 0) + 1)`
on a map kept in insertion order. -/
def mapIncrement : List Entry → Nat → List Entry
  | [], colorKey => [⟨colorKey, 1⟩]
  | e :: rest, colorKey =>
    if e.key = colorKey then ⟨e.key, e.count + 1⟩ :: rest else e :: mapIncrement rest colorKey

/-- The first loop of `getRepresentativeColor`: exact colour counts. -/
def countColors (cellPixels : List Pixel) : List Entry :=
  cellPixels.foldl (fun colorCounts p => mapIncrement colorCounts (colorKey p)) []

/-- Insertion of one entry into a list sorted by descending count, in front of
the first entry whose count is not greater. -/
def insertByCount (e : Entry) : List Entry → List Entry
  | [] => [e]
  | x :: xs => if x.count > e.count then x :: insertByCount e xs else e :: x :: xs

/-- The call `colorEntries.sort((a, b) => b.count - a.count)`: a stable sort by
descending count (entries of equal count keep their order). -/
def sortByCount (colorEntries : List Entry) : List Entry :=
  colorEntries.foldr insertByCount []

/-- A member `{ color, count }` of a cluster of `getRepresentativeColor`. -/
structure Member where
  color : RGB
  count : Nat
deriving DecidableEq, Repr

/-- A cluster `{ repColor, totalCount, members }` of `getRepresentativeColor`. -/
structure Cluster where
  repColor : RGB
  totalCount : Nat
  members : List Member
deriving DecidableEq, Repr

/-- The branch `if (matchedCluster) { ... }`: the count and the member are added
and the representative becomes the running weighted average. -/
def mergeInto (cluster : Cluster) (color : RGB) (count : Nat) : Cluster :=
  let t : ℚ := ((cluster.totalCount + count : Nat) : ℚ)
  let w : ℚ := (count : ℚ)
  { repColor :=
      ⟨jsRound (((cluster.repColor.r : ℚ) * (t - w) + (color.r : ℚ) * w) / t),
       jsRound (((cluster.repColor.g : ℚ) * (t - w) + (color.g : ℚ) * w) / t),
       jsRound (((cluster.repColor.b : ℚ) * (t - w) + (color.b : ℚ) * w) / t)⟩
    totalCount := cluster.totalCount + count
    members := cluster.members ++ [⟨color, count⟩] }

/-- One iteration of the grouping loop: the first cluster whose representative
is within the threshold absorbs the colour, otherwise a new cluster is pushed. -/
def addToClusters (similarityThreshold : Int) :
    List Cluster → RGB → Nat → List Cluster
  | [], color, count => [⟨⟨color.r, color.g, color.b⟩, count, [⟨color, count⟩]⟩]
  | cluster :: rest, color, count =>
    if withinThreshold color cluster.repColor similarityThreshold then
      mergeInto cluster color count :: rest
    else cluster :: addToClusters similarityThreshold rest color count

/-- The grouping loop over the sorted entries. -/
def buildClusters (similarityThreshold : Int) (colorEntries : List Entry) : List Cluster :=
  colorEntries.foldl
    (fun clusters entry =>
      addToClusters similarityThreshold clusters (keyColor entry.key) entry.count) []

/-- The scan for the cluster with the highest count, started at `clusters[0]`;
`none` stands for `undefined` (an empty `clusters`). -/
def dominantCluster : List Cluster → Option Cluster
  | [] => none
  | c0 :: rest =>
    some ((c0 :: rest).foldl
      (fun dominant cluster =>
        if cluster.totalCount > dominant.totalCount then cluster else dominant) c0)

/-- The scan for the most frequent member, started at `members[0]`;
`none` stands for an empty `members`. -/
def mostFrequentMember : List Member → Option RGB
  | [] => none
  | m0 :: rest =>
    some ((m0 :: rest).foldl
      (fun (best : RGB × Nat) entry =>
        if entry.count > best.2 then (entry.color, entry.count) else best)
      (m0.color, m0.count)).1

/-- The function `getRepresentativeColor(cellPixels, similarityThreshold)`; `none` is the
`null` returned for an empty `cellPixels`. The clusters of a non-empty input are
non-empty and so are their members, so the two scans never meet `undefined`. -/
def getRepresentativeColor (cellPixels : List Pixel) (similarityThreshold : Int) :
    Option RGB :=
  if cellPixels.length = 0 then none
  else
    let colorCounts := countColors cellPixels
    match colorCounts with
    | [only] => some (keyColor only.key)
    | _ =>
      let colorEntries := sortByCount colorCounts
      let clusters := buildClusters similarityThreshold colorEntries
      (dominantCluster clusters).bind fun dominant => mostFrequentMember dominant.members

/-! ## `getRepresentativeColorWeighted` (methods `most_light`, `most_dark`) -/

/-- The object `pixelColor = { r, g, b, weight }`. -/
structure WeightedPixel where
  r : Fin 256
  g : Fin 256
  b : Fin 256
  weight : ℚ
deriving DecidableEq

/-- A cluster `{ repColor, totalWeight, members }` of the weighted reducer. -/
structure WeightedCluster where
  repColor : RGB
  totalWeight : ℚ
  members : List WeightedPixel
deriving DecidableEq

/-- The value `brightness = 0.299 * r + 0.587 * g + 0.114 * b`. -/
def brightness (p : Pixel) : ℚ :=
  0.299 * (p.r.val : ℚ) + 0.587 * (p.g.val : ℚ) + 0.114 * (p.b.val : ℚ)

/-- The value `rawWeight` chosen by the method. -/
def rawWeight (method : Method) (p : Pixel) : ℚ :=
  if method = Method.most_light then brightness p / 255
  else if method = Method.most_dark then (255 - brightness p) / 255
  else 1

/-- The value `weight = 0.25 + 0.50 * rawWeight`. -/
def pixelWeight (method : Method) (p : Pixel) : ℚ := 0.25 + 0.50 * rawWeight method p

/-- The object `pixelColor = { r, g, b, weight }` built for a pixel. -/
def weigh (method : Method) (p : Pixel) : WeightedPixel := ⟨p.r, p.g, p.b, pixelWeight method p⟩

/-- The three sums `sumR, sumG, sumB` over the members of a cluster. -/
def weightedSums (members : List WeightedPixel) : ℚ × ℚ × ℚ :=
  members.foldl
    (fun (sums : ℚ × ℚ × ℚ) member =>
      (sums.1 + (member.r.val : ℚ) * member.weight,
       sums.2.1 + (member.g.val : ℚ) * member.weight,
       sums.2.2 + (member.b.val : ℚ) * member.weight)) (0, 0, 0)

/-- The branch `if (matchedCluster) { ... }` of the weighted reducer: the weight
and the member are added and the representative is recomputed from all members. -/
def mergeWeighted (cluster : WeightedCluster) (pixelColor : WeightedPixel) : WeightedCluster :=
  let totalWeight := cluster.totalWeight + pixelColor.weight
  let members := cluster.members ++ [pixelColor]
  let sums := weightedSums members
  { repColor :=
      ⟨jsRound (sums.1 / totalWeight), jsRound (sums.2.1 / totalWeight),
        jsRound (sums.2.2 / totalWeight)⟩
    totalWeight := totalWeight
    members := members }

/-- One iteration of the pixel loop of the weighted reducer. -/
def addToWeightedClusters (similarityThreshold : Int) :
    List WeightedCluster → WeightedPixel → List WeightedCluster
  | [], px => [⟨⟨(px.r.val : Int), (px.g.val : Int), (px.b.val : Int)⟩, px.weight, [px]⟩]
  | cluster :: rest, px =>
    if withinThreshold ⟨(px.r.val : Int), (px.g.val : Int), (px.b.val : Int)⟩
        cluster.repColor similarityThreshold then
      mergeWeighted cluster px :: rest
    else cluster :: addToWeightedClusters similarityThreshold rest px

/-- The pixel loop of the weighted reducer, in encounter order. -/
def buildWeightedClusters (method : Method) (similarityThreshold : Int)
    (cellPixels : List Pixel) : List WeightedCluster :=
  cellPixels.foldl
    (fun clusters p =>
      addToWeightedClusters similarityThreshold clusters (weigh method p)) []

/-- The scan for the cluster with the highest total weight, started at
`clusters[0]`; `none` stands for `undefined` (an empty `clusters`). -/
def dominantWeightedCluster : List WeightedCluster → Option WeightedCluster
  | [] => none
  | c0 :: rest =>
    some ((c0 :: rest).foldl
      (fun dominant cluster =>
        if cluster.totalWeight > dominant.totalWeight then cluster else dominant) c0)

/-- The function `getRepresentativeColorWeighted(cellPixels, method, similarityThreshold)`;
`none` is the `null` returned for an empty `cellPixels`. -/
def getRepresentativeColorWeighted (cellPixels : List Pixel) (method : Method)
    (similarityThreshold : Int) : Option RGB :=
  if cellPixels.length = 0 then none
  else
    (dominantWeightedCluster (buildWeightedClusters method similarityThreshold cellPixels)).map
      fun dominant => dominant.repColor

/-! ## `convertImage` -/

/-- The conversion options that `convertImage` reads. -/
structure Options where
  gridWidth : Nat
  gridHeight : Nat
  method : Method
  offsetX : ℚ
  offsetY : ℚ
  imageScale : ℚ
  canvasWidth : ℚ
  canvasHeight : ℚ

/-- The argument `imageDims = { width, height }`. -/
structure ImageDims where
  width : Int
  height : Int
deriving DecidableEq, Repr

/-- A readable pixel source: the object `ctx` of `convertImage`, given by the
RGBA value it holds at each integer position. -/
structure PixelSource where
  pixelAt : Int → Int → RGBA

/-- The call `ctx.getImageData(sx, sy, sw, sh).data`: the pixels of the rectangle
in row-major order, four array elements per pixel. `none` is the exception
raised for an empty rectangle; `convertImage` never passes a negative size, so
those are `none` here as well. -/
def PixelSource.getImageData (ctx : PixelSource) (sx sy sw sh : Int) : Option (List RGBA) :=
  if sw ≤ 0 ∨ sh ≤ 0 then none
  else
    some ((List.range sh.toNat).flatMap fun (dy : Nat) =>
      (List.range sw.toNat).map fun (dx : Nat) => ctx.pixelAt (sx + (dx : Int)) (sy + (dy : Int)))

/-- The rectangle `(rOx0, rOy0, rOx1, rOy1)` computed for a cell. -/
structure Rect where
  x0 : Int
  y0 : Int
  x1 : Int
  y1 : Int
deriving DecidableEq, Repr

/-- The source rectangle of cell `(i, j)`: both branches of `method === "neighbor"`. -/
def cellRect (imageDims : ImageDims) (o : Options) (j i : Nat) : Rect :=
  let cellWCanvas : ℚ := o.canvasWidth / (o.gridWidth : ℚ)
  let cellHCanvas : ℚ := o.canvasHeight / (o.gridHeight : ℚ)
  let cx0 : ℚ := (i : ℚ) * cellWCanvas
  let cy0 : ℚ := (j : ℚ) * cellHCanvas
  let cx1 : ℚ := cx0 + cellWCanvas
  let cy1 : ℚ := cy0 + cellHCanvas
  if o.method = Method.neighbor then
    let marginX : ℚ := cellWCanvas * 0.25
    let marginY : ℚ := cellHCanvas * 0.25
    let ecx0 : ℚ := (i : ℚ) * cellWCanvas - marginX
    let ecy0 : ℚ := (j : ℚ) * cellHCanvas - marginY
    let ecx1 : ℚ := ((i : ℚ) + 1) * cellWCanvas + marginX
    let ecy1 : ℚ := ((j : ℚ) + 1) * cellHCanvas + marginY
    let ox0 : ℚ := (ecx0 - o.offsetX) / o.imageScale
    let oy0 : ℚ := (ecy0 - o.offsetY) / o.imageScale
    let ox1 : ℚ := (ecx1 - o.offsetX) / o.imageScale
    let oy1 : ℚ := (ecy1 - o.offsetY) / o.imageScale
    { x0 := max 0 ⌊ox0⌋, y0 := max 0 ⌊oy0⌋,
      x1 := min imageDims.width ⌈ox1⌉, y1 := min imageDims.height ⌈oy1⌉ }
  else
    let ox0 : ℚ := (cx0 - o.offsetX) / o.imageScale
    let oy0 : ℚ := (cy0 - o.offsetY) / o.imageScale
    let ox1 : ℚ := (cx1 - o.offsetX) / o.imageScale
    let oy1 : ℚ := (cy1 - o.offsetY) / o.imageScale
    { x0 := max 0 ⌊ox0⌋, y0 := max 0 ⌊oy0⌋,
      x1 := min imageDims.width ⌈ox1⌉, y1 := min imageDims.height ⌈oy1⌉ }

/-- The loop variables `sumR, sumG, sumB, count, cellPixels` of one cell. -/
structure Sample where
  sumR : Nat
  sumG : Nat
  sumB : Nat
  count : Nat
  cellPixels : List Pixel
deriving DecidableEq, Repr

/-- One iteration of the loop over `imgData`. -/
def sampleStep (method : Method) (acc : Sample) (px : RGBA) : Sample :=
  if px.a = 0 then acc
  else if method = Method.average ∨ method = Method.neighbor then
    { acc with
      sumR := acc.sumR + px.r.val
      sumG := acc.sumG + px.g.val
      sumB := acc.sumB + px.b.val
      count := acc.count + 1 }
  else { acc with cellPixels := acc.cellPixels ++ [⟨px.r, px.g, px.b⟩] }

/-- The loop over `imgData`. -/
def samplePixels (method : Method) (imgData : List RGBA) : Sample :=
  imgData.foldl (sampleStep method) ⟨0, 0, 0, 0, []⟩

/-- The template string of the three `toHex` results behind a `#`. -/
def hexColor (r g b : Int) : String := "#" ++ toHex r ++ toHex g ++ toHex b

/-- The part of the cell body after the pixel loop: the colour written to
`pixelColors[j][i]`. -/
def reduceSample (method : Method) (s : Sample) : String :=
  if method = Method.average ∨ method = Method.neighbor then
    if s.count = 0 then "transparent"
    else
      let rAvg := jsRound ((s.sumR : ℚ) / (s.count : ℚ))
      let gAvg := jsRound ((s.sumG : ℚ) / (s.count : ℚ))
      let bAvg := jsRound ((s.sumB : ℚ) / (s.count : ℚ))
      hexColor rAvg gAvg bAvg
  else
    if s.cellPixels.length = 0 then "transparent"
    else
      let repColor :=
        if method = Method.most then getRepresentativeColor s.cellPixels 30
        else getRepresentativeColorWeighted s.cellPixels method 30
      match repColor with
      | none => "transparent"
      | some c => hexColor c.r c.g c.b

/-- The body of the two loops of `convertImage` for cell `(i, j)`; `none` when
`getImageData` raises. -/
def convertCell (ctx : PixelSource) (imageDims : ImageDims) (o : Options) (j i : Nat) :
    Option String :=
  let rect := cellRect imageDims o j i
  if rect.x1 ≤ rect.x0 ∨ rect.y1 ≤ rect.y0 then some "transparent"
  else
    (ctx.getImageData rect.x0 rect.y0 (rect.x1 - rect.x0) (rect.y1 - rect.y0)).map
      fun imgData => reduceSample o.method (samplePixels o.method imgData)

/-- All the results of a list of computations, or `none` if one of them raised. -/
def allSome {α : Type} : List (Option α) → Option (List α)
  | [] => some []
  | none :: _ => none
  | some a :: rest => (allSome rest).map fun as => a :: as

/-- The function `convertImage(ctx, imageDims, options)`: the grid of cell colours, row by
row; `none` when the conversion raises. The embedding is exact for a non-zero
`imageScale` (a division by zero is `0` here). -/
def convertImage (ctx : PixelSource) (imageDims : ImageDims) (o : Options) :
    Option (List (List String)) :=
  allSome ((List.range o.gridHeight).map fun j =>
    allSome ((List.range o.gridWidth).map fun i => convertCell ctx imageDims o j i))

/-! ## The drawing surface and `renderPixelArt` -/

/-- Modelled from the spec: the drawing surface is platform code outside the
repository. It is a bitmap of `width × height` RGBA pixels with a current fill
colour (`fillStyle`, black at creation); `data` is meaningful inside the bitmap. -/
structure Canvas where
  width : Nat
  height : Nat
  fillStyle : Pixel
  data : Int → Int → RGBA

/-- Modelled from the spec: a read of the surface gives the stored pixel inside
the bitmap and transparent black outside it. -/
def Canvas.toPixelSource (c : Canvas) : PixelSource :=
  ⟨fun x y =>
    if 0 ≤ x ∧ x < (c.width : Int) ∧ 0 ≤ y ∧ y < (c.height : Int) then c.data x y
    else ⟨0, 0, 0, 0⟩⟩

/-- Modelled from the spec: fills are hard-edged (section 4.4: no anti-aliasing,
no interpolation), so the rectangle `(x, y, w, h)` with `w, h ≥ 0` covers the
pixel `(px, py)` when the centre of the pixel lies in it. For a rectangle with
integer corners these are the pixels with `x ≤ px < x + w`, `y ≤ py < y + h`. -/
def covers (x y w h : ℚ) (px py : Int) : Bool :=
  decide (x ≤ (px : ℚ) + 1 / 2 ∧ (px : ℚ) + 1 / 2 < x + w
    ∧ y ≤ (py : ℚ) + 1 / 2 ∧ (py : ℚ) + 1 / 2 < y + h)

/-- Modelled from the spec: `ctx.clearRect(x, y, w, h)` makes the covered pixels
transparent black. -/
def Canvas.clearRect (c : Canvas) (x y w h : ℚ) : Canvas :=
  { c with data := fun px py => if covers x y w h px py then ⟨0, 0, 0, 0⟩ else c.data px py }

/-- Modelled from the spec: `ctx.fillRect(x, y, w, h)` gives the covered pixels
the fill colour with alpha 255. -/
def Canvas.fillRect (c : Canvas) (x y w h : ℚ) : Canvas :=
  { c with
    data := fun px py =>
      if covers x y w h px py then ⟨c.fillStyle.r, c.fillStyle.g, c.fillStyle.b, 255⟩
      else c.data px py }

/-- The value of a hexadecimal digit, in either case. -/
def hexDigitValue (c : Char) : Option (Fin 16) :=
  if '0' ≤ c ∧ c ≤ '9' then some (Fin.ofNat (c.toNat - '0'.toNat))
  else if 'A' ≤ c ∧ c ≤ 'F' then some (Fin.ofNat (c.toNat - 'A'.toNat + 10))
  else if 'a' ≤ c ∧ c ≤ 'f' then some (Fin.ofNat (c.toNat - 'a'.toNat + 10))
  else none

/-- The byte written by two hexadecimal digits. -/
def hexByte (hi lo : Fin 16) : Fin 256 := ⟨16 * hi.val + lo.val, by omega⟩

/-- Modelled from the spec: the colour that the surface reads from a string
`#RRGGBB`, the only colour form a grid holds; any other value is not a colour. -/
def parseHexColor (s : String) : Option Pixel :=
  match s.data with
  | ['#', r1, r0, g1, g0, b1, b0] =>
    match hexDigitValue r1, hexDigitValue r0, hexDigitValue g1, hexDigitValue g0,
      hexDigitValue b1, hexDigitValue b0 with
    | some vr1, some vr0, some vg1, some vg0, some vb1, some vb0 =>
      some ⟨hexByte vr1 vr0, hexByte vg1 vg0, hexByte vb1 vb0⟩
    | _, _, _, _, _, _ => none
  | _ => none

/-- Modelled from the spec: the assignment `ctx.fillStyle = color`. A value that
is not a colour (`none` is `undefined`) leaves the fill colour unchanged. -/
def Canvas.setFillStyle (c : Canvas) (color : Option String) : Canvas :=
  match color.bind parseHexColor with
  | some p => { c with fillStyle := p }
  | none => c

/-- The body of the inner loop of `renderPixelArt` for cell `(i, j)`;
`pixelColors[j][i]` is `none` (`undefined`) past the end of a row. -/
def renderCell (pixelColors : List (List String)) (cellW cellH : ℚ) (j : Nat) (ctx : Canvas)
    (i : Nat) : Canvas :=
  let color : Option String := pixelColors[j]?.bind fun row => row[i]?
  if color ≠ some "transparent" then
    (ctx.setFillStyle color).fillRect ((i : ℚ) * cellW) ((j : ℚ) * cellH) cellW cellH
  else ctx

/-- The function `renderPixelArt(pixelColors, ctx, options)`: the surface after the
call; `none` when `pixelColors[0].length` raises on an empty grid. -/
def renderPixelArt (pixelColors : List (List String)) (ctx : Canvas) (width height : ℚ) :
    Option Canvas :=
  match pixelColors with
  | [] => none
  | row0 :: _ =>
    let gridHeight := pixelColors.length
    let gridWidth := row0.length
    let cellW : ℚ := width / (gridWidth : ℚ)
    let cellH : ℚ := height / (gridHeight : ℚ)
    let cleared := ctx.clearRect 0 0 width height
    some ((List.range gridHeight).foldl
      (fun ctx j => (List.range gridWidth).foldl (renderCell pixelColors cellW cellH j) ctx)
      cleared)

/-! ## Vocabulary of the statements -/

/-- The pixels that the sampling loop keeps: those whose alpha is not `0`. -/
def opaquePixels (imgData : List RGBA) : List RGBA := imgData.filter fun px => px.a ≠ 0

/-- The `{r, g, b}` object pushed for a kept pixel. -/
def RGBA.toPixel (px : RGBA) : Pixel := ⟨px.r, px.g, px.b⟩

/-- The sum of one channel over a list of pixels. -/
def channelSum (f : RGBA → Fin 256) (l : List RGBA) : Nat := (l.map fun px => (f px).val).sum

/-- The squared RGB distance of two sampled pixels. -/
def distSq (p q : Pixel) : Int :=
  ((p.r.val : Int) - (q.r.val : Int)) * ((p.r.val : Int) - (q.r.val : Int))
    + ((p.g.val : Int) - (q.g.val : Int)) * ((p.g.val : Int) - (q.g.val : Int))
    + ((p.b.val : Int) - (q.b.val : Int)) * ((p.b.val : Int) - (q.b.val : Int))

/-- An upper-case hexadecimal digit. -/
def isUpperHexDigit (c : Char) : Bool := "0123456789ABCDEF".data.contains c

/-- A string `#RRGGBB` of six upper-case hexadecimal digits. -/
def isHexColor (s : String) : Bool :=
  match s.data with
  | [h, a, b, c, d, e, f] =>
    h == '#' && isUpperHexDigit a && isUpperHexDigit b && isUpperHexDigit c
      && isUpperHexDigit d && isUpperHexDigit e && isUpperHexDigit f
  | _ => false

/-- The weighted sum of one channel over the members of a cluster. -/
def weightedChannelSum (f : WeightedPixel → Fin 256) (members : List WeightedPixel) : ℚ :=
  (members.map fun m => ((f m).val : ℚ) * m.weight).sum

/-- The sum of the weights of the members of a cluster. -/
def totalWeightOf (members : List WeightedPixel) : ℚ := (members.map fun m => m.weight).sum

/-- The cluster determined by its list of members: the total weight is the sum
of the weights and the representative the rounded weighted mean per channel. -/
def clusterOf (members : List WeightedPixel) : WeightedCluster :=
  { repColor :=
      ⟨jsRound (weightedChannelSum WeightedPixel.r members / totalWeightOf members),
       jsRound (weightedChannelSum WeightedPixel.g members / totalWeightOf members),
       jsRound (weightedChannelSum WeightedPixel.b members / totalWeightOf members)⟩
    totalWeight := totalWeightOf members
    members := members }

/-- The pixels of a list lie in the box between `lo` and `hi`. -/
def InBox (lo hi : RGB) (l : List Pixel) : Prop :=
  ∀ p ∈ l, (lo.r ≤ (p.r.val : Int) ∧ (p.r.val : Int) ≤ hi.r)
    ∧ (lo.g ≤ (p.g.val : Int) ∧ (p.g.val : Int) ≤ hi.g)
    ∧ (lo.b ≤ (p.b.val : Int) ∧ (p.b.val : Int) ≤ hi.b)

/-- Two upper-case hexadecimal digits. -/
def isHexPair (s : String) : Bool :=
  match s.data with
  | [a, b] => isUpperHexDigit a && isUpperHexDigit b
  | _ => false

/-- The rounded blend of one channel of two pixels with weights `wd` and `wl`:
`round((wd * dc + wl * lc) / (wd + wl))`. -/
def blendChannel (wd wl : ℚ) (dc lc : Fin 256) : Int :=
  ⌊(wd * (dc.val : ℚ) + wl * (lc.val : ℚ)) / (wd + wl) + 1 / 2⌋

/-- The three channels of a colour lie in `0..255`. -/
def RGB.isByte (c : RGB) : Prop :=
  (0 ≤ c.r ∧ c.r ≤ 255) ∧ (0 ≤ c.g ∧ c.g ≤ 255) ∧ (0 ≤ c.b ∧ c.b ≤ 255)

/-- The pixel that a rendered cell shows: transparent black for `transparent`,
the opaque colour for a string `#RRGGBB`. -/
def cellPixel (color : String) : RGBA :=
  match parseHexColor color with
  | some p => ⟨p.r, p.g, p.b, 255⟩
  | none => ⟨0, 0, 0, 0⟩

/-- A blank surface of the given size. -/
def blankCanvas (width height : Nat) : Canvas := ⟨width, height, ⟨0, 0, 0⟩, fun _ _ => ⟨0, 0, 0, 0⟩⟩

/-- Two hexadecimal digits are read as a byte that `toHex` writes back as the
same two characters. -/
def hexPairOk (a b : Char) : Bool :=
  match hexDigitValue a, hexDigitValue b with
  | some va, some vb => toHex (((hexByte va vb).val : Nat) : Int) == String.mk [a, b]
  | _, _ => false

/-! ## Concrete inputs used by the statements -/

/-- An opaque black pixel. -/
def blackPx : RGBA := ⟨0, 0, 0, 255⟩

/-- An opaque white pixel. -/
def whitePx : RGBA := ⟨255, 255, 255, 255⟩

/-- The 2×2 opaque image whose top row is `#FF0000` and bottom row `#0000FF`;
outside the image a read gives transparent black. -/
def redBlueImage : PixelSource :=
  ⟨fun x y =>
    if 0 ≤ x ∧ x < 2 ∧ 0 ≤ y ∧ y < 2 then
      (if y = 0 then ⟨255, 0, 0, 255⟩ else ⟨0, 0, 255, 255⟩)
    else ⟨0, 0, 0, 0⟩⟩

/-- A pixel source that is transparent everywhere. -/
def emptyImage : PixelSource := ⟨fun _ _ => ⟨0, 0, 0, 0⟩⟩

/-- Two pixels that the sampling loop cannot tell apart: both have alpha `0`, or
both have a non-zero alpha and the same red, green and blue. -/
def alphaEquiv (p q : RGBA) : Prop :=
  (p.a = 0 ↔ q.a = 0) ∧ (p.a ≠ 0 → p.r = q.r ∧ p.g = q.g ∧ p.b = q.b)

/-- The offsets `(dx, dy)` of the pixels of a `w × h` rectangle in row-major order. -/
def rectCoords (w h : Nat) : List (Nat × Nat) :=
  (List.range h).flatMap fun (dy : Nat) => (List.range w).map fun (dx : Nat) => (dx, dy)

/-- The image `redBlueImage` with every alpha lowered to `7` inside the image and
with other colour values under the alpha `0` outside it. -/
def redBlueFaint : PixelSource :=
  ⟨fun x y =>
    if 0 ≤ x ∧ x < 2 ∧ 0 ≤ y ∧ y < 2 then
      (if y = 0 then ⟨255, 0, 0, 7⟩ else ⟨0, 0, 255, 7⟩)
    else ⟨9, 9, 9, 0⟩⟩

/-- The image `redBlueImage` surrounded by opaque white instead of transparent
black. -/
def redBlueOnWhite : PixelSource :=
  ⟨fun x y =>
    if 0 ≤ x ∧ x < 2 ∧ 0 ≤ y ∧ y < 2 then
      (if y = 0 then ⟨255, 0, 0, 255⟩ else ⟨0, 0, 255, 255⟩)
    else ⟨255, 255, 255, 255⟩⟩

/-- A surface of one pixel that holds opaque red. -/
def redCanvas : Canvas := ⟨1, 1, ⟨0, 0, 0⟩, fun _ _ => ⟨255, 0, 0, 255⟩⟩

/-! ## The downscale policy of the callers -/

/-- The pair `(targetWidth, targetHeight)` that `processImage` of `src/cli.js`
computes from `originalImg.width` and `originalImg.height` before it draws the
image on the source canvas. -/
def processImageTargetSize (originalWidth originalHeight : Nat) : Int × Int :=
  let maxSize : ℚ := 1024
  let targetWidth : ℚ := (originalWidth : ℚ)
  let targetHeight : ℚ := (originalHeight : ℚ)
  if targetWidth > maxSize ∨ targetHeight > maxSize then
    let scaleFactor : ℚ := min (maxSize / targetWidth) (maxSize / targetHeight)
    (jsRound (targetWidth * scaleFactor), jsRound (targetHeight * scaleFactor))
  else ((originalWidth : Int), (originalHeight : Int))

/-- The pair `(width, height)` that `loadAndDownscaleImage` of `src/script.js`
computes from `tempImg.width` and `tempImg.height` for the offscreen canvas. -/
def loadAndDownscaleImageSize (tempWidth tempHeight : Nat) : Int × Int :=
  let maxSize : ℚ := 1024
  let width : ℚ := (tempWidth : ℚ)
  let height : ℚ := (tempHeight : ℚ)
  if width > maxSize ∨ height > maxSize then
    let scaleFactor : ℚ := min (maxSize / width) (maxSize / height)
    (jsRound (width * scaleFactor), jsRound (height * scaleFactor))
  else ((tempWidth : Int), (tempHeight : Int))

/-- A pixel source that is opaque white everywhere. -/
def whiteImage : PixelSource := ⟨fun _ _ => ⟨255, 255, 255, 255⟩⟩

/-- A cluster of `getRepresentativeColor` is well formed for a property `P` of
members: it has a member, its total is the sum of the counts of its members, and
every member has the property. -/
def Cluster.WellFormed (P : Member → Prop) (cl : Cluster) : Prop :=
  cl.members ≠ [] ∧ cl.totalCount = (cl.members.map Member.count).sum ∧ ∀ m ∈ cl.members, P m

/-! ## Vocabulary for the refinement statements -/

/-- The incremental update of `getRepresentativeColor`, read with weights: one
channel of `round((rep * (T - w) + c * w) / T)`. -/
def incrementalChannel (rep : Int) (T w : ℚ) (c : Fin 256) : Int :=
  jsRound (((rep : ℚ) * (T - w) + (c.val : ℚ) * w) / T)

/-- The representative and the total weight that the incremental update gives
after a list of members is merged in order, the first member founding the
cluster; `none` for an empty list. -/
def incrementalCluster : List WeightedPixel → Option (RGB × ℚ)
  | [] => none
  | m :: rest =>
    some (rest.foldl
      (fun (acc : RGB × ℚ) px =>
        (⟨incrementalChannel acc.1.r (acc.2 + px.weight) px.weight px.r,
          incrementalChannel acc.1.g (acc.2 + px.weight) px.weight px.g,
          incrementalChannel acc.1.b (acc.2 + px.weight) px.weight px.b⟩,
         acc.2 + px.weight))
      (⟨(m.r.val : Int), (m.g.val : Int), (m.b.val : Int)⟩, m.weight))

/-- The simpler function of the claim: `getRepresentativeColor` with the final
scan replaced by `dominantCluster.members[0].color`. -/
def getRepresentativeColorFirst (cellPixels : List Pixel) (similarityThreshold : Int) :
    Option RGB :=
  if cellPixels.length = 0 then none
  else
    let colorCounts := countColors cellPixels
    match colorCounts with
    | [only] => some (keyColor only.key)
    | _ =>
      let colorEntries := sortByCount colorCounts
      let clusters := buildClusters similarityThreshold colorEntries
      (dominantCluster clusters).bind fun dominant =>
        dominant.members.head?.map fun m => m.color

/-- A cluster whose members are in non-increasing count order, all with a
count of at least `n`, and which has a member. -/
def Cluster.SortedAbove (n : Nat) (cl : Cluster) : Prop :=
  cl.members ≠ [] ∧ cl.members.Pairwise (fun a b => b.count ≤ a.count) ∧
    ∀ m ∈ cl.members, n ≤ m.count

/-! ## The editor: history of grid snapshots (`src/script.js`) -/

/-- The function `deepCopyPixels(pixels) = pixels.map(row => row.slice())`: a copy
of every row, the same grid as a value. -/
def deepCopyPixels (pixels : List (List String)) : List (List String) :=
  pixels.map fun row => row

/-- The variables of the editor that the history code reads and writes. The two
stacks are arrays in index order: `push` appends at the end and `pop` removes the
last element. -/
structure EditorState where
  currentStep : Nat
  pixelColors : List (List String)
  historyStack : List (List (List String))
  redoStack : List (List (List String))
deriving DecidableEq

/-- The function `saveHistory()`. -/
def saveHistory (s : EditorState) : EditorState :=
  { s with
    historyStack := s.historyStack ++ [deepCopyPixels s.pixelColors]
    redoStack := [] }

/-- The fields `ctrlKey` and `key` of a keyboard event. -/
structure KeyEvent where
  ctrlKey : Bool
  key : String
deriving DecidableEq

/-- The `keydown` listener for undo and redo, as a function on the editor
variables (`drawPixelArt` and `preventDefault` do not write them). The branches
`none` are not reached: `pop` and the read of the last element are guarded by the
tests on the lengths. -/
def keydown (e : KeyEvent) (s : EditorState) : EditorState :=
  if s.currentStep ≠ 3 then s
  else if e.ctrlKey && e.key == "z" then
    if s.historyStack.length > 1 then
      match s.historyStack.getLast? with
      | none => s
      | some popped =>
        let historyStack := s.historyStack.dropLast
        let redoStack := s.redoStack ++ [popped]
        match historyStack.getLast? with
        | none => s
        | some top =>
          { s with
            historyStack := historyStack
            redoStack := redoStack
            pixelColors := deepCopyPixels top }
    else s
  else if e.ctrlKey && e.key == "y" then
    if s.redoStack.length > 0 then
      match s.redoStack.getLast? with
      | none => s
      | some state =>
        { s with
          redoStack := s.redoStack.dropLast
          historyStack := s.historyStack ++ [deepCopyPixels state]
          pixelColors := deepCopyPixels state }
    else s
  else s

/-- The event of Ctrl+Z. -/
def ctrlZ : KeyEvent := ⟨true, "z"⟩

/-- The event of Ctrl+Y. -/
def ctrlY : KeyEvent := ⟨true, "y"⟩

/-- An editor state in step 3 with two snapshots in the history. -/
def twoSnapshots : EditorState :=
  ⟨3, [["#FF0000"]], [[["#00FF00"]], [["#FF0000"]]], [[["transparent"]]]⟩

/-! ## `hexToRGB` and `colorDistance` (`src/processor.js`) -/

/-- The characters that `parseInt` skips at the start of its input (white space
and line terminators). -/
def isStrWhiteSpaceChar (c : Char) : Bool :=
  let n := c.toNat
  decide (n = 9 ∨ n = 10 ∨ n = 11 ∨ n = 12 ∨ n = 13 ∨ n = 32 ∨ n = 160 ∨ n = 5760
    ∨ (8192 ≤ n ∧ n ≤ 8202) ∨ n = 8232 ∨ n = 8233 ∨ n = 8239 ∨ n = 8287 ∨ n = 12288
    ∨ n = 65279)

/-- The longest prefix of hexadecimal digits, as digit values. -/
def takeHexDigits : List Char → List (Fin 16)
  | [] => []
  | c :: rest =>
    match hexDigitValue c with
    | some v => v :: takeHexDigits rest
    | none => []

/-- The call `parseInt(s, 16)`: leading white space, an optional sign and an
optional `0x` or `0X` are skipped and the longest prefix of hexadecimal digits is
read; `none` is `NaN`, returned when there is no digit. -/
def parseInt16 (s : List Char) : Option Int :=
  let s1 := s.dropWhile isStrWhiteSpaceChar
  let signed : Int × List Char :=
    match s1 with
    | '-' :: r => (-1, r)
    | '+' :: r => (1, r)
    | _ => (1, s1)
  let s3 :=
    match signed.2 with
    | '0' :: 'x' :: r => r
    | '0' :: 'X' :: r => r
    | _ => signed.2
  let digits := takeHexDigits s3
  if digits = [] then none
  else some (signed.1 * digits.foldl (fun (acc : Int) d => 16 * acc + (d.val : Int)) 0)

/-- The call `hex.replace("#", "")`: the first `#` is removed. -/
def removeFirstHash : List Char → List Char
  | [] => []
  | c :: rest => if c = '#' then rest else c :: removeFirstHash rest

/-- The call `hex.substring(from, to)` for `from ≤ to`. -/
def substring (s : List Char) (i j : Nat) : List Char := (s.drop i).take (j - i)

/-- The object `{r, g, b}` returned by `hexToRGB`; `none` is `NaN`. -/
structure HexRGB where
  r : Option Int
  g : Option Int
  b : Option Int
deriving DecidableEq

/-- The function `hexToRGB(hex)`. -/
def hexToRGB (hex : String) : HexRGB :=
  let hex := removeFirstHash hex.data
  { r := parseInt16 (substring hex 0 2)
    g := parseInt16 (substring hex 2 4)
    b := parseInt16 (substring hex 4 6) }

/-- The argument of `Math.sqrt` in `colorDistance(hex1, hex2)`: the sum of the
three squared channel differences; `none` is `NaN`, the value when a channel of
either colour is `NaN`. -/
def colorDistanceSq (hex1 hex2 : String) : Option Int :=
  let c1 := hexToRGB hex1
  let c2 := hexToRGB hex2
  match c1.r, c1.g, c1.b, c2.r, c2.g, c2.b with
  | some r1, some g1, some b1, some r2, some g2, some b2 =>
    some ((r1 - r2) ^ 2 + (g1 - g2) ^ 2 + (b1 - b2) ^ 2)
  | _, _, _, _, _, _ => none

/-- The function `colorDistance(hex1, hex2)`, a real number; `none` is `NaN`. -/
noncomputable def colorDistance (hex1 hex2 : String) : Option ℝ :=
  (colorDistanceSq hex1 hex2).map fun (n : Int) => Real.sqrt ((n : Int) : ℝ)

/-- The test `colorDistance(hex1, hex2) > threshold` of `floodFill`, decided on
the argument of the square root: a comparison with `NaN` is false, a negative
threshold is below every distance, and otherwise the squares are compared. -/
def colorDistanceExceeds (hex1 hex2 : String) (threshold : Int) : Bool :=
  match colorDistanceSq hex1 hex2 with
  | none => false
  | some n => decide (threshold < 0 ∨ threshold * threshold < n)

/-- A hexadecimal digit of either case. -/
def isHexDigit (c : Char) : Bool := "0123456789ABCDEFabcdef".data.contains c

/-- A string `#RRGGBB`: a `#` and six hexadecimal digits of either case. -/
def isRRGGBB (s : String) : Bool :=
  match s.data with
  | [h, a, b, c, d, e, f] =>
    h == '#' && isHexDigit a && isHexDigit b && isHexDigit c
      && isHexDigit d && isHexDigit e && isHexDigit f
  | _ => false

/-- The check that `parseInt` of the two digits `a`, `b` at radix 16 is the byte
that they write. -/
def parsePairOk (a b : Char) : Bool :=
  match hexDigitValue a, hexDigitValue b with
  | some va, some vb => parseInt16 [a, b] == some (((hexByte va vb).val : Nat) : Int)
  | _, _ => false

/-! ## The magic wand: `floodFill` (`src/script.js`) -/

/-- An object `{ row, col }` of the stack of `floodFill`. -/
structure StackEntry where
  row : Int
  col : Int
deriving DecidableEq

/-- The read `pixelColors[row][col]` at integer indices; `none` when there is no
such row or no such element. -/
def getCell (pixelColors : List (List String)) (row col : Int) : Option String :=
  if 0 ≤ row ∧ 0 ≤ col then (pixelColors[row.toNat]?).bind fun r => r[col.toNat]? else none

/-- The write `pixelColors[row][col] = value` at an existing element. -/
def setCell (pixelColors : List (List String)) (row col : Int) (value : String) :
    List (List String) :=
  if 0 ≤ row ∧ 0 ≤ col then
    match pixelColors[row.toNat]? with
    | some r => pixelColors.set row.toNat (r.set col.toNat value)
    | none => pixelColors
  else pixelColors

/-- The variables of a run of `floodFill`: the grid, the stack with its top
first, and two counters that the code does not have: the number of calls of
`stack.push` and the cells written, in the order of the writes. -/
structure FloodState where
  pixelColors : List (List String)
  stack : List StackEntry
  pushes : Nat
  writes : List StackEntry
deriving DecidableEq

/-- The end of a run of the loop: it finished with a state, raised a
`TypeError` (a read outside the grid array), or the fuel ran out. -/
inductive FloodOutcome where
  | finished (s : FloodState)
  | raised
  | outOfFuel
deriving DecidableEq

/-- The body of the `while` loop of `floodFill` after `stack.pop()` returned
`e`; `none` is a `TypeError`. -/
def floodBody (gridWidth gridHeight : Nat) (targetColor replacementColor : String)
    (magicWandThreshold : Int) (e : StackEntry) (s : FloodState) : Option FloodState :=
  if e.row < 0 ∨ e.row ≥ (gridHeight : Int) ∨ e.col < 0 ∨ e.col ≥ (gridWidth : Int) then some s
  else
    match getCell s.pixelColors e.row e.col with
    | none => none
    | some currentColor =>
      if currentColor = "transparent" then some s
      else if colorDistanceExceeds currentColor targetColor magicWandThreshold then some s
      else
        some
          { pixelColors := setCell s.pixelColors e.row e.col replacementColor
            stack := ⟨e.row, e.col + 1⟩ :: ⟨e.row, e.col - 1⟩ :: ⟨e.row + 1, e.col⟩
              :: ⟨e.row - 1, e.col⟩ :: s.stack
            pushes := s.pushes + 4
            writes := s.writes ++ [e] }

/-- The loop `while (stack.length) { ... }` with a bound on the number of
iterations. -/
def floodLoop (gridWidth gridHeight : Nat) (targetColor replacementColor : String)
    (magicWandThreshold : Int) : Nat → FloodState → FloodOutcome
  | 0, s =>
    match s.stack with
    | [] => FloodOutcome.finished s
    | _ :: _ => FloodOutcome.outOfFuel
  | fuel + 1, s =>
    match s.stack with
    | [] => FloodOutcome.finished s
    | e :: rest =>
      match floodBody gridWidth gridHeight targetColor replacementColor magicWandThreshold e
          { s with stack := rest } with
      | none => FloodOutcome.raised
      | some s1 =>
        floodLoop gridWidth gridHeight targetColor replacementColor magicWandThreshold fuel s1

/-- The function `floodFill(startRow, startCol, targetColor, replacementColor)`
on the grid `pixelColors`, with the globals `gridWidth`, `gridHeight` and
`magicWandThreshold` and a bound `fuel` on the number of iterations. -/
def floodFill (gridWidth gridHeight : Nat) (pixelColors : List (List String))
    (magicWandThreshold : Int) (fuel : Nat) (startRow startCol : Int)
    (targetColor replacementColor : String) : FloodOutcome :=
  if targetColor = replacementColor then FloodOutcome.finished ⟨pixelColors, [], 0, []⟩
  else
    floodLoop gridWidth gridHeight targetColor replacementColor magicWandThreshold fuel
      ⟨pixelColors, [⟨startRow, startCol⟩], 1, []⟩

/-- A grid of `gridHeight` rows of `gridWidth` cells. -/
def Rectangular (gridWidth gridHeight : Nat) (pixelColors : List (List String)) : Prop :=
  pixelColors.length = gridHeight ∧ ∀ row ∈ pixelColors, row.length = gridWidth

/-- The four neighbours of a cell, in the order in which `floodFill` pops them. -/
def neighbours (e : StackEntry) : List StackEntry :=
  [⟨e.row, e.col + 1⟩, ⟨e.row, e.col - 1⟩, ⟨e.row + 1, e.col⟩, ⟨e.row - 1, e.col⟩]

/-- The cells reachable from the start cell by a 4-directional path of cells
with the property `P`, the start cell included only if it has the property. -/
inductive Reach (P : Int → Int → Prop) (startRow startCol : Int) : Int → Int → Prop where
  | start (h : P startRow startCol) : Reach P startRow startCol startRow startCol
  | step (e n : StackEntry) (h : Reach P startRow startCol e.row e.col)
      (hadj : n ∈ neighbours e) (hP : P n.row n.col) : Reach P startRow startCol n.row n.col

/-- A cell that `floodFill` would write: it is in the grid, it is not
`transparent`, and the test `colorDistance > magicWandThreshold` fails on it. -/
def Live (pixelColors : List (List String)) (targetColor : String) (magicWandThreshold : Int)
    (row col : Int) : Prop :=
  ∃ color, getCell pixelColors row col = some color ∧ color ≠ "transparent" ∧
    colorDistanceExceeds color targetColor magicWandThreshold = false

/-- An in-bounds, non-transparent cell within Euclidean RGB distance
`magicWandThreshold` of `targetColor`. -/
def WandCell (pixelColors : List (List String)) (targetColor : String)
    (magicWandThreshold : Int) (row col : Int) : Prop :=
  ∃ color, getCell pixelColors row col = some color ∧ color ≠ "transparent" ∧
    ∃ d, colorDistance color targetColor = some d ∧ d ≤ (magicWandThreshold : ℝ)

/-- The invariant of the loop of `floodFill` started at `(startRow, startCol)`
on the grid `g0`. -/
structure FloodInv (gridWidth gridHeight : Nat) (g0 : List (List String))
    (targetColor replacementColor : String) (magicWandThreshold : Int)
    (startRow startCol : Int) (s : FloodState) : Prop where
  rect : Rectangular gridWidth gridHeight s.pixelColors
  written : ∀ e ∈ s.writes,
    Live g0 targetColor magicWandThreshold e.row e.col ∧
    Reach (Live g0 targetColor magicWandThreshold) startRow startCol e.row e.col ∧
    getCell s.pixelColors e.row e.col = some replacementColor
  unwritten : ∀ e : StackEntry, e ∉ s.writes →
    getCell s.pixelColors e.row e.col = getCell g0 e.row e.col
  nodup : s.writes.Nodup
  stackReach : ∀ e ∈ s.stack, Live g0 targetColor magicWandThreshold e.row e.col →
    Reach (Live g0 targetColor magicWandThreshold) startRow startCol e.row e.col
  startSeen : (⟨startRow, startCol⟩ : StackEntry) ∈ s.stack ∨
    ¬ Live g0 targetColor magicWandThreshold startRow startCol ∨
    (⟨startRow, startCol⟩ : StackEntry) ∈ s.writes
  frontier : ∀ e ∈ s.writes, ∀ n ∈ neighbours e,
    n ∈ s.stack ∨ ¬ Live g0 targetColor magicWandThreshold n.row n.col ∨ n ∈ s.writes
  pushCount : s.pushes = 1 + 4 * s.writes.length

/-- A row of a red cell, a cell close to red, a blue cell and a red cell. -/
def wandGrid : List (List String) := [["#FF0000", "#fc0300", "#0000FF", "#FF0000"]]

/-! ## The same computations with rounded arithmetic

The definitions above compute with exact rationals. The program computes with
the floating-point numbers of JavaScript, where the result of every operation
and every decimal literal is rounded. The definitions below take the rounding
as a function `fl`: they are the same code with `fl` applied wherever the
program rounds. With `fl = id` they are the definitions above. Integers, the
sum `i + 1` of a loop index and one, and the binary fractions `0.25` and `0.50`
are not rounded. -/

/-- A rounding with relative error at most `u`: it keeps the order, it keeps
the numbers that it produces, and it moves a number by at most `u` times its
size. Exact arithmetic is `fl = id` with `u = 0`; rounding to nearest in binary64
has `u = 2^-53` where no result is subnormal or overflows. -/
structure Rounding (fl : ℚ → ℚ) (u : ℚ) : Prop where
  mono : ∀ x y, x ≤ y → fl x ≤ fl y
  idem : ∀ x, fl (fl x) = fl x
  err : ∀ x, |fl x - x| ≤ u * |x|

/-- The source rectangle of cell `(i, j)` as `convertImage` computes it, every
arithmetic result rounded by `fl`. -/
def cellRectFl (fl : ℚ → ℚ) (imageDims : ImageDims) (o : Options) (j i : Nat) : Rect :=
  let cellWCanvas : ℚ := fl (o.canvasWidth / (o.gridWidth : ℚ))
  let cellHCanvas : ℚ := fl (o.canvasHeight / (o.gridHeight : ℚ))
  let cx0 : ℚ := fl ((i : ℚ) * cellWCanvas)
  let cy0 : ℚ := fl ((j : ℚ) * cellHCanvas)
  let cx1 : ℚ := fl (cx0 + cellWCanvas)
  let cy1 : ℚ := fl (cy0 + cellHCanvas)
  if o.method = Method.neighbor then
    let marginX : ℚ := fl (cellWCanvas * 0.25)
    let marginY : ℚ := fl (cellHCanvas * 0.25)
    let ecx0 : ℚ := fl (fl ((i : ℚ) * cellWCanvas) - marginX)
    let ecy0 : ℚ := fl (fl ((j : ℚ) * cellHCanvas) - marginY)
    let ecx1 : ℚ := fl (fl (((i : ℚ) + 1) * cellWCanvas) + marginX)
    let ecy1 : ℚ := fl (fl (((j : ℚ) + 1) * cellHCanvas) + marginY)
    let ox0 : ℚ := fl (fl (ecx0 - o.offsetX) / o.imageScale)
    let oy0 : ℚ := fl (fl (ecy0 - o.offsetY) / o.imageScale)
    let ox1 : ℚ := fl (fl (ecx1 - o.offsetX) / o.imageScale)
    let oy1 : ℚ := fl (fl (ecy1 - o.offsetY) / o.imageScale)
    { x0 := max 0 ⌊ox0⌋, y0 := max 0 ⌊oy0⌋,
      x1 := min imageDims.width ⌈ox1⌉, y1 := min imageDims.height ⌈oy1⌉ }
  else
    let ox0 : ℚ := fl (fl (cx0 - o.offsetX) / o.imageScale)
    let oy0 : ℚ := fl (fl (cy0 - o.offsetY) / o.imageScale)
    let ox1 : ℚ := fl (fl (cx1 - o.offsetX) / o.imageScale)
    let oy1 : ℚ := fl (fl (cy1 - o.offsetY) / o.imageScale)
    { x0 := max 0 ⌊ox0⌋, y0 := max 0 ⌊oy0⌋,
      x1 := min imageDims.width ⌈ox1⌉, y1 := min imageDims.height ⌈oy1⌉ }

/-- The floor, ceiling and clamp of a rectangle of the canvas, mapped to image
coordinates with arithmetic rounded by `fl`. -/
def sampledRect (fl : ℚ → ℚ) (imageDims : ImageDims) (o : Options) (x0 y0 x1 y1 : ℚ) : Rect :=
  { x0 := max 0 ⌊fl (fl (x0 - o.offsetX) / o.imageScale)⌋
    y0 := max 0 ⌊fl (fl (y0 - o.offsetY) / o.imageScale)⌋
    x1 := min imageDims.width ⌈fl (fl (x1 - o.offsetX) / o.imageScale)⌉
    y1 := min imageDims.height ⌈fl (fl (y1 - o.offsetY) / o.imageScale)⌉ }

/-- The value `brightness = 0.299 * r + 0.587 * g + 0.114 * b`, rounded by `fl`. -/
def brightnessFl (fl : ℚ → ℚ) (p : Pixel) : ℚ :=
  fl (fl (fl (fl 0.299 * (p.r.val : ℚ)) + fl (fl 0.587 * (p.g.val : ℚ)))
    + fl (fl 0.114 * (p.b.val : ℚ)))

/-- The value `rawWeight` chosen by the method, rounded by `fl`. -/
def rawWeightFl (fl : ℚ → ℚ) (method : Method) (p : Pixel) : ℚ :=
  if method = Method.most_light then fl (brightnessFl fl p / 255)
  else if method = Method.most_dark then fl (fl (255 - brightnessFl fl p) / 255)
  else 1

/-- The value `weight = 0.25 + 0.50 * rawWeight`, rounded by `fl`. -/
def pixelWeightFl (fl : ℚ → ℚ) (method : Method) (p : Pixel) : ℚ :=
  fl (0.25 + fl (0.50 * rawWeightFl fl method p))

/-- The object `pixelColor = { r, g, b, weight }`, the weight rounded by `fl`. -/
def weighFl (fl : ℚ → ℚ) (method : Method) (p : Pixel) : WeightedPixel :=
  ⟨p.r, p.g, p.b, pixelWeightFl fl method p⟩

/-- The three sums `sumR, sumG, sumB` over the members of a cluster, every
product and every addition rounded by `fl`. -/
def weightedSumsFl (fl : ℚ → ℚ) (members : List WeightedPixel) : ℚ × ℚ × ℚ :=
  members.foldl
    (fun (sums : ℚ × ℚ × ℚ) member =>
      (fl (sums.1 + fl ((member.r.val : ℚ) * member.weight)),
       fl (sums.2.1 + fl ((member.g.val : ℚ) * member.weight)),
       fl (sums.2.2 + fl ((member.b.val : ℚ) * member.weight)))) (0, 0, 0)

/-- The branch `if (matchedCluster) { ... }` of the weighted reducer with
arithmetic rounded by `fl`. -/
def mergeWeightedFl (fl : ℚ → ℚ) (cluster : WeightedCluster) (pixelColor : WeightedPixel) :
    WeightedCluster :=
  let totalWeight := fl (cluster.totalWeight + pixelColor.weight)
  let members := cluster.members ++ [pixelColor]
  let sums := weightedSumsFl fl members
  { repColor :=
      ⟨jsRound (fl (sums.1 / totalWeight)), jsRound (fl (sums.2.1 / totalWeight)),
        jsRound (fl (sums.2.2 / totalWeight))⟩
    totalWeight := totalWeight
    members := members }

/-- One iteration of the pixel loop of the weighted reducer with arithmetic
rounded by `fl`. -/
def addToWeightedClustersFl (fl : ℚ → ℚ) (similarityThreshold : Int) :
    List WeightedCluster → WeightedPixel → List WeightedCluster
  | [], px => [⟨⟨(px.r.val : Int), (px.g.val : Int), (px.b.val : Int)⟩, px.weight, [px]⟩]
  | cluster :: rest, px =>
    if withinThreshold ⟨(px.r.val : Int), (px.g.val : Int), (px.b.val : Int)⟩
        cluster.repColor similarityThreshold then
      mergeWeightedFl fl cluster px :: rest
    else cluster :: addToWeightedClustersFl fl similarityThreshold rest px

/-- The pixel loop of the weighted reducer with arithmetic rounded by `fl`. -/
def buildWeightedClustersFl (fl : ℚ → ℚ) (method : Method) (similarityThreshold : Int)
    (cellPixels : List Pixel) : List WeightedCluster :=
  cellPixels.foldl
    (fun clusters p =>
      addToWeightedClustersFl fl similarityThreshold clusters (weighFl fl method p)) []

/-- The running total `totalWeight` of a cluster with the given members: the
weight of the first member, then one rounded addition for each further member. -/
def totalWeightFl (fl : ℚ → ℚ) : List WeightedPixel → ℚ
  | [] => 0
  | m :: rest => rest.foldl (fun total member => fl (total + member.weight)) m.weight

/-- The representative of a cluster with the given members: the colour of the
member of a cluster of one, and otherwise the three rounded quotients of the
sums over all members by the total weight. -/
def repColorFl (fl : ℚ → ℚ) : List WeightedPixel → RGB
  | [px] => ⟨(px.r.val : Int), (px.g.val : Int), (px.b.val : Int)⟩
  | members =>
    ⟨jsRound (fl ((weightedSumsFl fl members).1 / totalWeightFl fl members)),
     jsRound (fl ((weightedSumsFl fl members).2.1 / totalWeightFl fl members)),
     jsRound (fl ((weightedSumsFl fl members).2.2 / totalWeightFl fl members))⟩

/-- The cluster determined by its list of members in arithmetic rounded by `fl`. -/
def clusterOfFl (fl : ℚ → ℚ) (members : List WeightedPixel) : WeightedCluster :=
  { repColor := repColorFl fl members
    totalWeight := totalWeightFl fl members
    members := members }

/-- One channel of the incremental update applied to the unrounded average
`sum / total` of the members so far: `(m * (T - w) + c * w) / T` with `T` the new
total weight, in exact arithmetic. -/
def unroundedIncremental (f : WeightedPixel → Fin 256) (members : List WeightedPixel)
    (px : WeightedPixel) : ℚ :=
  ((weightedChannelSum f members / totalWeightOf members) *
      ((totalWeightOf members + px.weight) - px.weight) + ((f px).val : ℚ) * px.weight)
    / (totalWeightOf members + px.weight)

end PixelArt

namespace PixelArt

/-! ## The sampling loop -/

theorem foldl_sampleStep_average (method : Method)
    (hm : method = Method.average ∨ method = Method.neighbor) (imgData : List RGBA)
    (acc : Sample) :
    imgData.foldl (sampleStep method) acc =
      ⟨acc.sumR + channelSum RGBA.r (opaquePixels imgData),
       acc.sumG + channelSum RGBA.g (opaquePixels imgData),
       acc.sumB + channelSum RGBA.b (opaquePixels imgData),
       acc.count + (opaquePixels imgData).length, acc.cellPixels⟩ := by
  induction imgData generalizing acc with
  | nil => simp [opaquePixels, channelSum]
  | cons px rest ih =>
    rw [List.foldl_cons, ih]
    by_cases ha : px.a = 0
    · simp [sampleStep, ha, opaquePixels, channelSum]
    · simp [sampleStep, ha, hm, opaquePixels, channelSum, List.filter_cons]
      omega

theorem foldl_sampleStep_cluster (method : Method)
    (hm : ¬ (method = Method.average ∨ method = Method.neighbor)) (imgData : List RGBA)
    (acc : Sample) :
    imgData.foldl (sampleStep method) acc =
      { acc with cellPixels := acc.cellPixels ++ (opaquePixels imgData).map RGBA.toPixel } := by
  induction imgData generalizing acc with
  | nil => simp [opaquePixels]
  | cons px rest ih =>
    rw [List.foldl_cons, ih]
    by_cases ha : px.a = 0
    · simp [sampleStep, ha, opaquePixels]
    · simp [sampleStep, ha, hm, opaquePixels, List.filter_cons, RGBA.toPixel]

theorem samplePixels_average (method : Method)
    (hm : method = Method.average ∨ method = Method.neighbor) (imgData : List RGBA) :
    samplePixels method imgData =
      ⟨channelSum RGBA.r (opaquePixels imgData), channelSum RGBA.g (opaquePixels imgData),
       channelSum RGBA.b (opaquePixels imgData), (opaquePixels imgData).length, []⟩ := by
  simp [samplePixels, foldl_sampleStep_average method hm]

theorem samplePixels_cluster (method : Method)
    (hm : ¬ (method = Method.average ∨ method = Method.neighbor)) (imgData : List RGBA) :
    samplePixels method imgData =
      ⟨0, 0, 0, 0, (opaquePixels imgData).map RGBA.toPixel⟩ := by
  simp [samplePixels, foldl_sampleStep_cluster method hm]

theorem reduceSample_of_no_opaque (method : Method) (imgData : List RGBA)
    (h : opaquePixels imgData = []) :
    reduceSample method (samplePixels method imgData) = "transparent" := by
  by_cases hm : method = Method.average ∨ method = Method.neighbor
  · rw [samplePixels_average method hm, h]
    simp [reduceSample, hm]
  · rw [samplePixels_cluster method hm, h]
    simp [reduceSample, hm]

theorem mem_getImageData {ctx : PixelSource} {sx sy sw sh : Int} {imgData : List RGBA}
    (h : ctx.getImageData sx sy sw sh = some imgData) {px : RGBA} (hpx : px ∈ imgData) :
    ∃ x y : Int, sx ≤ x ∧ x < sx + sw ∧ sy ≤ y ∧ y < sy + sh ∧ px = ctx.pixelAt x y := by
  unfold PixelSource.getImageData at h
  split at h
  · simp at h
  · rename_i hpos
    simp only [Option.some.injEq] at h
    subst h
    simp only [List.mem_flatMap, List.mem_map, List.mem_range] at hpx
    obtain ⟨dy, hdy, dx, hdx, rfl⟩ := hpx
    refine ⟨sx + dx, sy + dy, ?_, ?_, ?_, ?_, rfl⟩ <;> omega

theorem getImageData_eq_some (ctx : PixelSource) (sx sy sw sh : Int) (hw : 0 < sw)
    (hh : 0 < sh) : ∃ imgData, ctx.getImageData sx sy sw sh = some imgData := by
  unfold PixelSource.getImageData
  rw [if_neg (by omega)]
  exact ⟨_, rfl⟩

/-! ## Cells without an opaque pixel -/

/-- C1: for every method, a cell `(i, j)` of the grid (with a positive
`imageScale`) whose sampled rectangle holds no pixel with alpha above `0`, an
empty rectangle included, gets the colour `transparent`. -/
theorem convertCell_transparent_of_no_opaque (ctx : PixelSource) (imageDims : ImageDims)
    (o : Options) (j i : Nat) (_hi : i < o.gridWidth) (_hj : j < o.gridHeight)
    (_hscale : 0 < o.imageScale)
    (h : ∀ x y : Int, (cellRect imageDims o j i).x0 ≤ x → x < (cellRect imageDims o j i).x1 →
      (cellRect imageDims o j i).y0 ≤ y → y < (cellRect imageDims o j i).y1 →
      (ctx.pixelAt x y).a = 0) :
    convertCell ctx imageDims o j i = some "transparent" := by
  unfold convertCell
  simp only
  split
  · rfl
  · rename_i hrect
    obtain ⟨imgData, hdata⟩ := getImageData_eq_some ctx (cellRect imageDims o j i).x0
      (cellRect imageDims o j i).y0
      ((cellRect imageDims o j i).x1 - (cellRect imageDims o j i).x0)
      ((cellRect imageDims o j i).y1 - (cellRect imageDims o j i).y0) (by omega) (by omega)
    rw [hdata, Option.map_some']
    congr 1
    apply reduceSample_of_no_opaque
    unfold opaquePixels
    rw [List.filter_eq_nil_iff]
    intro px hpx
    obtain ⟨x, y, hx0, hx1, hy0, hy1, rfl⟩ := mem_getImageData hdata hpx
    simp [h x y hx0 (by omega) hy0 (by omega)]

theorem convertCell_transparent_of_no_opaque_witness :
    convertCell emptyImage ⟨2, 2⟩ ⟨1, 1, Method.most, 0, 0, 1, 2, 2⟩ 0 0 = some "transparent" :=
  convertCell_transparent_of_no_opaque emptyImage ⟨2, 2⟩ ⟨1, 1, Method.most, 0, 0, 1, 2, 2⟩ 0 0
    (by decide) (by decide) (by decide!) (fun _ _ _ _ _ _ => rfl)

/-! ## The two averaging methods -/

/-- C3: for `average` and `neighbor`, a cell with at least one opaque pixel gets
in each channel `⌊sum / count + 1/2⌋` over its opaque pixels; three black
pixels and one white pixel give `#404040`. -/
theorem average_is_rounded_mean :
    (∀ (method : Method) (imgData : List RGBA),
      method = Method.average ∨ method = Method.neighbor → opaquePixels imgData ≠ [] →
      reduceSample method (samplePixels method imgData) =
        hexColor
          ⌊(channelSum RGBA.r (opaquePixels imgData) : ℚ) / ((opaquePixels imgData).length : ℚ)
            + 1 / 2⌋
          ⌊(channelSum RGBA.g (opaquePixels imgData) : ℚ) / ((opaquePixels imgData).length : ℚ)
            + 1 / 2⌋
          ⌊(channelSum RGBA.b (opaquePixels imgData) : ℚ) / ((opaquePixels imgData).length : ℚ)
            + 1 / 2⌋) ∧
    (∀ method : Method, method = Method.average ∨ method = Method.neighbor →
      reduceSample method (samplePixels method [blackPx, blackPx, blackPx, whitePx])
        = "#404040") := by
  constructor
  · intro method imgData hm hne
    rw [samplePixels_average method hm]
    have hlen : (opaquePixels imgData).length ≠ 0 := by
      simpa [List.length_eq_zero] using hne
    simp [reduceSample, hm, hlen, jsRound]
  · intro method hm
    rcases hm with rfl | rfl <;> decide!

theorem average_is_rounded_mean_witness :
    reduceSample Method.average (samplePixels Method.average [blackPx, whitePx]) =
        hexColor
          ⌊(channelSum RGBA.r (opaquePixels [blackPx, whitePx]) : ℚ)
            / ((opaquePixels [blackPx, whitePx]).length : ℚ) + 1 / 2⌋
          ⌊(channelSum RGBA.g (opaquePixels [blackPx, whitePx]) : ℚ)
            / ((opaquePixels [blackPx, whitePx]).length : ℚ) + 1 / 2⌋
          ⌊(channelSum RGBA.b (opaquePixels [blackPx, whitePx]) : ℚ)
            / ((opaquePixels [blackPx, whitePx]).length : ℚ) + 1 / 2⌋ ∧
      reduceSample Method.neighbor
        (samplePixels Method.neighbor [blackPx, blackPx, blackPx, whitePx]) = "#404040" :=
  ⟨average_is_rounded_mean.1 Method.average [blackPx, whitePx] (Or.inl rfl) (by decide),
    average_is_rounded_mean.2 Method.neighbor (Or.inr rfl)⟩

/-! ## Geometry -/

/-- C7: with `imageScale = 2`, no offset and a canvas of four units per cell,
every method but `neighbor` maps cell `(i, j)` to `[2i, 2i+2] × [2j, 2j+2]`
clamped to the image, and on an image of at least `2·gridWidth` by
`2·gridHeight` the sampled rectangle is exactly that one, of width and height 2. -/
theorem cellRect_scale_two (imageDims : ImageDims) (gridWidth gridHeight : Nat)
    (method : Method) (hm : method ≠ Method.neighbor) (j i : Nat) (hi : i < gridWidth)
    (hj : j < gridHeight) :
    cellRect imageDims
        ⟨gridWidth, gridHeight, method, 0, 0, 2, 4 * (gridWidth : ℚ), 4 * (gridHeight : ℚ)⟩ j i
      = ⟨2 * (i : Int), 2 * (j : Int), min imageDims.width (2 * (i : Int) + 2),
          min imageDims.height (2 * (j : Int) + 2)⟩ ∧
    (2 * (gridWidth : Int) ≤ imageDims.width → 2 * (gridHeight : Int) ≤ imageDims.height →
      cellRect imageDims
          ⟨gridWidth, gridHeight, method, 0, 0, 2, 4 * (gridWidth : ℚ), 4 * (gridHeight : ℚ)⟩ j i
        = ⟨2 * (i : Int), 2 * (j : Int), 2 * (i : Int) + 2, 2 * (j : Int) + 2⟩ ∧
      (2 * (i : Int) + 2) - 2 * (i : Int) = 2 ∧ (2 * (j : Int) + 2) - 2 * (j : Int) = 2) := by
  have hgw : (gridWidth : ℚ) ≠ 0 := by
    have : gridWidth ≠ 0 := by omega
    exact_mod_cast this
  have hgh : (gridHeight : ℚ) ≠ 0 := by
    have : gridHeight ≠ 0 := by omega
    exact_mod_cast this
  have hx0 : ((i : ℚ) * (4 * (gridWidth : ℚ) / (gridWidth : ℚ)) - 0) / 2
      = ((2 * (i : Int) : Int) : ℚ) := by
    field_simp; ring
  have hx1 : ((i : ℚ) * (4 * (gridWidth : ℚ) / (gridWidth : ℚ))
      + 4 * (gridWidth : ℚ) / (gridWidth : ℚ) - 0) / 2 = ((2 * (i : Int) + 2 : Int) : ℚ) := by
    field_simp; ring
  have hy0 : ((j : ℚ) * (4 * (gridHeight : ℚ) / (gridHeight : ℚ)) - 0) / 2
      = ((2 * (j : Int) : Int) : ℚ) := by
    field_simp; ring
  have hy1 : ((j : ℚ) * (4 * (gridHeight : ℚ) / (gridHeight : ℚ))
      + 4 * (gridHeight : ℚ) / (gridHeight : ℚ) - 0) / 2 = ((2 * (j : Int) + 2 : Int) : ℚ) := by
    field_simp; ring
  have key : cellRect imageDims
        ⟨gridWidth, gridHeight, method, 0, 0, 2, 4 * (gridWidth : ℚ), 4 * (gridHeight : ℚ)⟩ j i
      = ⟨2 * (i : Int), 2 * (j : Int), min imageDims.width (2 * (i : Int) + 2),
          min imageDims.height (2 * (j : Int) + 2)⟩ := by
    unfold cellRect
    simp only [if_neg hm]
    rw [hx0, hx1, hy0, hy1, Int.floor_intCast, Int.floor_intCast, Int.ceil_intCast,
      Int.ceil_intCast]
    congr 1
  refine ⟨key, fun hw hh => ⟨?_, by omega, by omega⟩⟩
  rw [key]
  congr 1 <;> omega

theorem cellRect_scale_two_witness :
    cellRect ⟨6, 4⟩ ⟨3, 2, Method.average, 0, 0, 2, 4 * ((3 : Nat) : ℚ), 4 * ((2 : Nat) : ℚ)⟩ 1 2
      = ⟨2 * ((2 : Nat) : Int), 2 * ((1 : Nat) : Int), 2 * ((2 : Nat) : Int) + 2,
          2 * ((1 : Nat) : Int) + 2⟩ :=
  ((cellRect_scale_two ⟨6, 4⟩ 3 2 Method.average (by decide) 1 2 (by decide) (by decide)).2
    (by decide) (by decide)).1

/-! ## End to end -/

/-- C9: the 2×2 image with a red top row and a blue bottom row, converted to a
1×2 grid with `average`, no offset, scale 1 and a 2×2 canvas, gives
`[["#FF0000"], ["#0000FF"]]`. -/
theorem convertImage_red_blue :
    convertImage redBlueImage ⟨2, 2⟩ ⟨1, 2, Method.average, 0, 0, 1, 2, 2⟩
      = some [["#FF0000"], ["#0000FF"]] := by
  decide!

/-! ## Packed keys and exact colour counts -/

theorem colorKey_eq (p : Pixel) :
    colorKey p = p.r.val * 65536 + p.g.val * 256 + p.b.val := by
  have hg := p.g.isLt
  have hb := p.b.isLt
  have h1 : p.g.val <<< 8 ||| p.b.val = 2 ^ 8 * p.g.val + p.b.val := by
    rw [Nat.shiftLeft_eq, Nat.mul_comm, Nat.mul_add_lt_is_or (by omega : p.b.val < 2 ^ 8)]
  have h2 : p.r.val <<< 16 ||| (2 ^ 8 * p.g.val + p.b.val)
      = 2 ^ 16 * p.r.val + (2 ^ 8 * p.g.val + p.b.val) := by
    rw [Nat.shiftLeft_eq, Nat.mul_comm,
      Nat.mul_add_lt_is_or (by omega : 2 ^ 8 * p.g.val + p.b.val < 2 ^ 16)]
  unfold colorKey
  rw [Nat.lor_assoc, h1, h2]
  omega

theorem and_255 (k : Nat) : k &&& 255 = k % 256 := Nat.and_pow_two_sub_one_eq_mod k 8

theorem keyColor_colorKey (p : Pixel) : keyColor (colorKey p) = p.toRGB := by
  have hr := p.r.isLt
  have hg := p.g.isLt
  have hb := p.b.isLt
  unfold keyColor Pixel.toRGB
  rw [colorKey_eq, Nat.shiftRight_eq_div_pow, Nat.shiftRight_eq_div_pow, and_255, and_255,
    and_255]
  congr 2 <;> omega

theorem Pixel.toRGB_injective {p q : Pixel} (h : p.toRGB = q.toRGB) : p = q := by
  obtain ⟨pr, pg, pb⟩ := p
  obtain ⟨qr, qg, qb⟩ := q
  simp only [Pixel.toRGB, RGB.mk.injEq, Nat.cast_inj] at h
  obtain ⟨h1, h2, h3⟩ := h
  rw [Fin.ext h1, Fin.ext h2, Fin.ext h3]

theorem colorKey_injective {p q : Pixel} (h : colorKey p = colorKey q) : p = q :=
  Pixel.toRGB_injective (by rw [← keyColor_colorKey, ← keyColor_colorKey, h])

theorem keyColor_channels (k : Nat) :
    (0 ≤ (keyColor k).r ∧ (keyColor k).r ≤ 255) ∧ (0 ≤ (keyColor k).g ∧ (keyColor k).g ≤ 255)
      ∧ (0 ≤ (keyColor k).b ∧ (keyColor k).b ≤ 255) := by
  unfold keyColor
  simp only [and_255]
  refine ⟨⟨?_, ?_⟩, ⟨?_, ?_⟩, ⟨?_, ?_⟩⟩ <;> omega

theorem withinThreshold_toRGB (p q : Pixel) (t : Int) :
    withinThreshold p.toRGB q.toRGB t = decide (distSq p q ≤ t * t) := rfl

theorem distSq_comm (p q : Pixel) : distSq p q = distSq q p := by
  unfold distSq; ring

theorem distSq_self (p : Pixel) : distSq p p = 0 := by
  unfold distSq; ring

theorem countColors_append (l : List Pixel) (p : Pixel) :
    countColors (l ++ [p]) = mapIncrement (countColors l) (colorKey p) := by
  simp [countColors, List.foldl_append]

theorem countColors_two (A B : Pixel) (hAB : A ≠ B) (l : List Pixel)
    (hl : ∀ p ∈ l, p = A ∨ p = B) :
    (l.count A = 0 ∧ l.count B = 0 ∧ countColors l = []) ∨
    (0 < l.count A ∧ l.count B = 0 ∧ countColors l = [⟨colorKey A, l.count A⟩]) ∨
    (l.count A = 0 ∧ 0 < l.count B ∧ countColors l = [⟨colorKey B, l.count B⟩]) ∨
    (0 < l.count A ∧ 0 < l.count B ∧
      (countColors l = [⟨colorKey A, l.count A⟩, ⟨colorKey B, l.count B⟩] ∨
        countColors l = [⟨colorKey B, l.count B⟩, ⟨colorKey A, l.count A⟩])) := by
  have hk : colorKey A ≠ colorKey B := fun h => hAB (colorKey_injective h)
  have hk2 : colorKey B ≠ colorKey A := fun h => hk h.symm
  have hBA : B ≠ A := fun h => hAB h.symm
  induction l using List.reverseRecOn with
  | nil => left; simp [countColors]
  | append_singleton l p ih =>
    have ih2 := ih (fun q hq => hl q (List.mem_append_left _ hq))
    rw [countColors_append]
    rcases hl p (by simp) with rfl | rfl
    · simp only [List.count_append, List.count_singleton, beq_self_eq_true, if_true,
        beq_iff_eq, hAB, hBA, if_false]
      rcases ih2 with ⟨h1, h2, h3⟩ | ⟨h1, h2, h3⟩ | ⟨h1, h2, h3⟩ | ⟨h1, h2, h3 | h3⟩
      · right; left
        simp [h1, h2, h3, mapIncrement]
      · right; left
        simp [h2, h3, mapIncrement]
      · right; right; right
        refine ⟨by omega, by omega, Or.inr ?_⟩
        simp [h1, h3, mapIncrement, hk2]
      · right; right; right
        refine ⟨by omega, by omega, Or.inl ?_⟩
        simp [h3, mapIncrement]
      · right; right; right
        refine ⟨by omega, by omega, Or.inr ?_⟩
        simp [h3, mapIncrement, hk2]
    · simp only [List.count_append, List.count_singleton, beq_self_eq_true, if_true,
        beq_iff_eq, hAB, hBA, if_false]
      rcases ih2 with ⟨h1, h2, h3⟩ | ⟨h1, h2, h3⟩ | ⟨h1, h2, h3⟩ | ⟨h1, h2, h3 | h3⟩
      · right; right; left
        simp [h1, h2, h3, mapIncrement]
      · right; right; right
        refine ⟨by omega, by omega, Or.inl ?_⟩
        simp [h2, h3, mapIncrement, hk]
      · right; right; left
        simp [h1, h3, mapIncrement]
      · right; right; right
        refine ⟨by omega, by omega, Or.inl ?_⟩
        simp [h3, mapIncrement, hk]
      · right; right; right
        refine ⟨by omega, by omega, Or.inr ?_⟩
        simp [h3, mapIncrement]

/-! ## Method `most` on two colours -/

theorem sortByCount_pair_of_lt (x y : Entry) (h : y.count < x.count) :
    sortByCount [x, y] = [x, y] ∧ sortByCount [y, x] = [x, y] := by
  constructor
  · simp [sortByCount, insertByCount]
    omega
  · simp [sortByCount, insertByCount, h]

theorem sortByCount_pair (x y : Entry) :
    sortByCount [x, y] = [x, y] ∨ sortByCount [x, y] = [y, x] := by
  by_cases h : y.count > x.count
  · right; simp [sortByCount, insertByCount, h]
  · left; simp [sortByCount, insertByCount, h]

theorem buildClusters_pair (t : Int) (x y : Entry) :
    buildClusters t [x, y] =
      if withinThreshold (keyColor y.key) (keyColor x.key) t then
        [mergeInto ⟨keyColor x.key, x.count, [⟨keyColor x.key, x.count⟩]⟩ (keyColor y.key)
          y.count]
      else
        [⟨keyColor x.key, x.count, [⟨keyColor x.key, x.count⟩]⟩,
         ⟨keyColor y.key, y.count, [⟨keyColor y.key, y.count⟩]⟩] := by
  simp only [buildClusters, List.foldl_cons, List.foldl_nil, addToClusters]

theorem ne_of_distSq_pos {A B : Pixel} {t : Int} (h : t < distSq A B) (ht : 0 ≤ t) : A ≠ B := by
  rintro rfl
  rw [distSq_self] at h
  omega

/-- C4: when two colours `A` and `B` are more than 30 apart and the cell holds
only copies of them, in any order, with more copies of `A` than of `B` and at
least one `B`, method `most` returns `A` itself. -/
theorem most_returns_majority (A B : Pixel) (hd : 900 < distSq A B) (l : List Pixel)
    (hl : ∀ p ∈ l, p = A ∨ p = B) (hb : 1 ≤ l.count B) (hab : l.count B < l.count A) :
    getRepresentativeColor l 30 = some A.toRGB := by
  have hAB : A ≠ B := ne_of_distSq_pos hd (by decide)
  have hlen : l.length ≠ 0 := by
    intro h0
    rw [List.length_eq_zero] at h0
    subst h0
    simp at hb
  have hw : withinThreshold B.toRGB A.toRGB 30 = false := by
    rw [withinThreshold_toRGB, distSq_comm]
    simp only [decide_eq_false_iff_not]
    omega
  have hsorted : sortByCount (countColors l)
      = [⟨colorKey A, l.count A⟩, ⟨colorKey B, l.count B⟩] ∧
      ∀ e, countColors l ≠ [e] := by
    rcases countColors_two A B hAB l hl with ⟨h1, _, _⟩ | ⟨_, h2, _⟩ | ⟨h1, _, _⟩ |
      ⟨_, _, h3 | h3⟩
    · omega
    · omega
    · omega
    · rw [h3]
      exact ⟨(sortByCount_pair_of_lt ⟨colorKey A, l.count A⟩ ⟨colorKey B, l.count B⟩ hab).1,
        by simp⟩
    · rw [h3]
      exact ⟨(sortByCount_pair_of_lt ⟨colorKey A, l.count A⟩ ⟨colorKey B, l.count B⟩ hab).2,
        by simp⟩
  unfold getRepresentativeColor
  rw [if_neg hlen]
  simp only
  split
  · rename_i only hone
    exact absurd hone (hsorted.2 only)
  · rw [hsorted.1, buildClusters_pair]
    simp only [keyColor_colorKey, hw]
    have hnot : ¬ l.count A < l.count B := by omega
    simp [dominantCluster, mostFrequentMember, hnot]

theorem most_returns_majority_witness :
    getRepresentativeColor
        [⟨0, 0, 0⟩, ⟨0, 0, 0⟩, ⟨0, 0, 0⟩, ⟨0, 0, 0⟩, ⟨0, 0, 0⟩, ⟨40, 0, 0⟩, ⟨0, 0, 0⟩, ⟨0, 0, 0⟩,
          ⟨0, 0, 0⟩, ⟨0, 0, 0⟩, ⟨0, 0, 0⟩] 30
      = some (Pixel.toRGB ⟨0, 0, 0⟩) :=
  most_returns_majority ⟨0, 0, 0⟩ ⟨40, 0, 0⟩ (by decide) _ (by decide) (by decide) (by decide)

/-! ## Rounding -/

theorem jsRound_intCast (n : Int) : jsRound (n : ℚ) = n := by
  unfold jsRound
  rw [Int.floor_eq_iff]
  constructor <;> linarith

theorem jsRound_bounds {x : ℚ} {lo hi : Int} (h1 : (lo : ℚ) ≤ x) (h2 : x ≤ (hi : ℚ)) :
    lo ≤ jsRound x ∧ jsRound x ≤ hi := by
  unfold jsRound
  constructor
  · rw [Int.le_floor]
    linarith
  · have : ⌊x + 1 / 2⌋ < hi + 1 := by
      rw [Int.floor_lt]
      push_cast
      linarith
    omega

/-! ## Weights and weighted means -/

theorem brightness_bounds (p : Pixel) : 0 ≤ brightness p ∧ brightness p ≤ 255 := by
  have hr : ((p.r.val : ℕ) : ℚ) ≤ 255 := by
    have := p.r.isLt
    exact_mod_cast (by omega : p.r.val ≤ 255)
  have hg : ((p.g.val : ℕ) : ℚ) ≤ 255 := by
    have := p.g.isLt
    exact_mod_cast (by omega : p.g.val ≤ 255)
  have hb : ((p.b.val : ℕ) : ℚ) ≤ 255 := by
    have := p.b.isLt
    exact_mod_cast (by omega : p.b.val ≤ 255)
  have hr0 : (0 : ℚ) ≤ ((p.r.val : ℕ) : ℚ) := Nat.cast_nonneg _
  have hg0 : (0 : ℚ) ≤ ((p.g.val : ℕ) : ℚ) := Nat.cast_nonneg _
  have hb0 : (0 : ℚ) ≤ ((p.b.val : ℕ) : ℚ) := Nat.cast_nonneg _
  unfold brightness
  constructor
  · norm_num
    linarith
  · norm_num
    linarith

theorem pixelWeight_bounds (method : Method) (p : Pixel) :
    1 / 4 ≤ pixelWeight method p ∧ pixelWeight method p ≤ 3 / 4 := by
  obtain ⟨h0, h1⟩ := brightness_bounds p
  unfold pixelWeight rawWeight
  split
  · constructor
    · norm_num
      linarith
    · norm_num
      linarith
  · split
    · constructor
      · norm_num
        linarith
      · norm_num
        linarith
    · norm_num

theorem pixelWeight_pos (method : Method) (p : Pixel) : 0 < pixelWeight method p := by
  have := (pixelWeight_bounds method p).1
  linarith

theorem foldl_weightedSums (members : List WeightedPixel) (a b c : ℚ) :
    members.foldl
      (fun (sums : ℚ × ℚ × ℚ) member =>
        (sums.1 + (member.r.val : ℚ) * member.weight,
         sums.2.1 + (member.g.val : ℚ) * member.weight,
         sums.2.2 + (member.b.val : ℚ) * member.weight)) (a, b, c)
      = (a + weightedChannelSum WeightedPixel.r members,
         b + weightedChannelSum WeightedPixel.g members,
         c + weightedChannelSum WeightedPixel.b members) := by
  induction members generalizing a b c with
  | nil => simp [weightedChannelSum]
  | cons m rest ih =>
    rw [List.foldl_cons, ih]
    simp only [weightedChannelSum, List.map_cons, List.sum_cons]
    congr 1
    · ring
    · congr 1 <;> ring

theorem weightedSums_eq (members : List WeightedPixel) :
    weightedSums members =
      (weightedChannelSum WeightedPixel.r members, weightedChannelSum WeightedPixel.g members,
        weightedChannelSum WeightedPixel.b members) := by
  unfold weightedSums
  rw [foldl_weightedSums]
  simp

theorem totalWeightOf_append (ms : List WeightedPixel) (px : WeightedPixel) :
    totalWeightOf (ms ++ [px]) = totalWeightOf ms + px.weight := by
  simp [totalWeightOf]

theorem mergeWeighted_clusterOf (ms : List WeightedPixel) (px : WeightedPixel) :
    mergeWeighted (clusterOf ms) px = clusterOf (ms ++ [px]) := by
  unfold mergeWeighted
  simp only [clusterOf, weightedSums_eq, totalWeightOf_append]

theorem totalWeightOf_pos {ms : List WeightedPixel} (hne : ms ≠ [])
    (hpos : ∀ m ∈ ms, 0 < m.weight) : 0 < totalWeightOf ms := by
  induction ms with
  | nil => exact absurd rfl hne
  | cons m rest ih =>
    simp only [totalWeightOf, List.map_cons, List.sum_cons]
    have hm := hpos m (by simp)
    by_cases hr : rest = []
    · subst hr
      simpa using hm
    · have := ih hr (fun x hx => hpos x (by simp [hx]))
      unfold totalWeightOf at this
      linarith

theorem weightedChannelSum_bounds (f : WeightedPixel → Fin 256) (ms : List WeightedPixel)
    (hpos : ∀ m ∈ ms, 0 < m.weight) (lo hi : Int)
    (hb : ∀ m ∈ ms, lo ≤ ((f m).val : Int) ∧ ((f m).val : Int) ≤ hi) :
    (lo : ℚ) * totalWeightOf ms ≤ weightedChannelSum f ms ∧
      weightedChannelSum f ms ≤ (hi : ℚ) * totalWeightOf ms := by
  induction ms with
  | nil => simp [totalWeightOf, weightedChannelSum]
  | cons m rest ih =>
    obtain ⟨ih1, ih2⟩ := ih (fun x hx => hpos x (by simp [hx])) (fun x hx => hb x (by simp [hx]))
    have hm := hpos m (by simp)
    obtain ⟨b1, b2⟩ := hb m (by simp)
    have c1 : (lo : ℚ) ≤ (((f m).val : ℕ) : ℚ) := by exact_mod_cast b1
    have c2 : (((f m).val : ℕ) : ℚ) ≤ (hi : ℚ) := by exact_mod_cast b2
    simp only [totalWeightOf, weightedChannelSum, List.map_cons, List.sum_cons] at *
    constructor
    · nlinarith [mul_le_mul_of_nonneg_right c1 hm.le]
    · nlinarith [mul_le_mul_of_nonneg_right c2 hm.le]

theorem weightedMean_bounds (f : WeightedPixel → Fin 256) (ms : List WeightedPixel)
    (hne : ms ≠ []) (hpos : ∀ m ∈ ms, 0 < m.weight) (lo hi : Int)
    (hb : ∀ m ∈ ms, lo ≤ ((f m).val : Int) ∧ ((f m).val : Int) ≤ hi) :
    lo ≤ jsRound (weightedChannelSum f ms / totalWeightOf ms) ∧
      jsRound (weightedChannelSum f ms / totalWeightOf ms) ≤ hi := by
  have hW := totalWeightOf_pos hne hpos
  obtain ⟨h1, h2⟩ := weightedChannelSum_bounds f ms hpos lo hi hb
  apply jsRound_bounds
  · rw [le_div_iff₀ hW]
    exact h1
  · rw [div_le_iff₀ hW]
    exact h2

theorem newCluster_eq_clusterOf (px : WeightedPixel) (hpos : 0 < px.weight) :
    (⟨⟨(px.r.val : Int), (px.g.val : Int), (px.b.val : Int)⟩, px.weight, [px]⟩ : WeightedCluster)
      = clusterOf [px] := by
  have hw : px.weight ≠ 0 := ne_of_gt hpos
  have h : ∀ n : ℕ, jsRound ((n : ℚ) * px.weight / px.weight) = (n : Int) := by
    intro n
    rw [mul_div_assoc, div_self hw, mul_one]
    exact_mod_cast jsRound_intCast (n : Int)
  simp [clusterOf, totalWeightOf, weightedChannelSum, h]

/-! ## The weighted reducer on pixels that are close together -/

theorem buildWeightedClusters_append (method : Method) (t : Int) (l : List Pixel) (p : Pixel) :
    buildWeightedClusters method t (l ++ [p])
      = addToWeightedClusters t (buildWeightedClusters method t l) (weigh method p) := by
  simp [buildWeightedClusters, List.foldl_append]

theorem sq_diff_le_of_box {x y lo hi : Int} (hx : lo ≤ x ∧ x ≤ hi) (hy : lo ≤ y ∧ y ≤ hi) :
    (x - y) * (x - y) ≤ (hi - lo) * (hi - lo) := by
  have h1 : 0 ≤ hi - lo - x + y := by omega
  have h2 : 0 ≤ hi - lo + x - y := by omega
  nlinarith [mul_nonneg h1 h2]

theorem weigh_pos (method : Method) (l : List Pixel) :
    ∀ m ∈ l.map (weigh method), 0 < m.weight := by
  intro m hm
  obtain ⟨q, _, rfl⟩ := List.mem_map.mp hm
  exact pixelWeight_pos method q

theorem clusterOf_rep_inBox (method : Method) (lo hi : RGB) (l : List Pixel) (hne : l ≠ [])
    (hl : InBox lo hi l) :
    (lo.r ≤ (clusterOf (l.map (weigh method))).repColor.r
        ∧ (clusterOf (l.map (weigh method))).repColor.r ≤ hi.r)
      ∧ (lo.g ≤ (clusterOf (l.map (weigh method))).repColor.g
        ∧ (clusterOf (l.map (weigh method))).repColor.g ≤ hi.g)
      ∧ (lo.b ≤ (clusterOf (l.map (weigh method))).repColor.b
        ∧ (clusterOf (l.map (weigh method))).repColor.b ≤ hi.b) := by
  have hne2 : l.map (weigh method) ≠ [] := by simpa using hne
  have hpos := weigh_pos method l
  refine ⟨?_, ?_, ?_⟩
  · apply weightedMean_bounds WeightedPixel.r _ hne2 hpos
    intro m hm
    obtain ⟨q, hq, rfl⟩ := List.mem_map.mp hm
    exact (hl q hq).1
  · apply weightedMean_bounds WeightedPixel.g _ hne2 hpos
    intro m hm
    obtain ⟨q, hq, rfl⟩ := List.mem_map.mp hm
    exact (hl q hq).2.1
  · apply weightedMean_bounds WeightedPixel.b _ hne2 hpos
    intro m hm
    obtain ⟨q, hq, rfl⟩ := List.mem_map.mp hm
    exact (hl q hq).2.2

theorem buildWeightedClusters_box (method : Method) (t : Int) (lo hi : RGB)
    (hbox : (hi.r - lo.r) * (hi.r - lo.r) + (hi.g - lo.g) * (hi.g - lo.g)
      + (hi.b - lo.b) * (hi.b - lo.b) ≤ t * t)
    (l : List Pixel) (hne : l ≠ []) (hl : InBox lo hi l) :
    buildWeightedClusters method t l = [clusterOf (l.map (weigh method))] := by
  induction l using List.reverseRecOn with
  | nil => exact absurd rfl hne
  | append_singleton l p ih =>
    rw [buildWeightedClusters_append]
    by_cases hnil : l = []
    · subst hnil
      simp only [buildWeightedClusters, List.foldl_nil, addToWeightedClusters, List.nil_append,
        List.map_cons, List.map_nil]
      rw [newCluster_eq_clusterOf _ (pixelWeight_pos method p)]
    · have hl2 : InBox lo hi l := fun q hq => hl q (List.mem_append_left _ hq)
      rw [ih hnil hl2]
      obtain ⟨hr, hg, hb⟩ := clusterOf_rep_inBox method lo hi l hnil hl2
      obtain ⟨pr, pg, pb⟩ := hl p (by simp)
      have hw : withinThreshold
          ⟨((weigh method p).r.val : Int), ((weigh method p).g.val : Int),
            ((weigh method p).b.val : Int)⟩
          (clusterOf (l.map (weigh method))).repColor t = true := by
        unfold withinThreshold
        simp only [decide_eq_true_eq]
        have e1 := sq_diff_le_of_box pr hr
        have e2 := sq_diff_le_of_box pg hg
        have e3 := sq_diff_le_of_box pb hb
        simp only [weigh]
        linarith
      simp only [addToWeightedClusters, hw, if_true, mergeWeighted_clusterOf, List.map_append,
        List.map_cons, List.map_nil]

/-! ## The output format -/

set_option maxRecDepth 100000 in
theorem toHex_byte_fin : ∀ n : Fin 256, isHexPair (toHex (n.val : Int)) = true := by
  decide!

theorem toHex_byte {n : Int} (h0 : 0 ≤ n) (h1 : n ≤ 255) : isHexPair (toHex n) = true := by
  have := toHex_byte_fin ⟨n.toNat, by omega⟩
  simpa [Int.toNat_of_nonneg h0] using this

theorem hexColor_isHexColor {r g b : Int} (hr : 0 ≤ r ∧ r ≤ 255) (hg : 0 ≤ g ∧ g ≤ 255)
    (hb : 0 ≤ b ∧ b ≤ 255) : isHexColor (hexColor r g b) = true := by
  have h1 := toHex_byte hr.1 hr.2
  have h2 := toHex_byte hg.1 hg.2
  have h3 := toHex_byte hb.1 hb.2
  unfold isHexPair at h1 h2 h3
  unfold hexColor isHexColor
  simp only [String.data_append]
  split at h1 <;> try simp at h1
  split at h2 <;> try simp at h2
  split at h3 <;> try simp at h3
  rename_i a1 b1 e1 _ a2 b2 e2 _ a3 b3 e3
  rw [e1, e2, e3]
  simp [h1, h2, h3]

/-! ## Uniform cells -/

theorem getRepresentativeColorWeighted_box (method : Method) (t : Int) (lo hi : RGB)
    (hbox : (hi.r - lo.r) * (hi.r - lo.r) + (hi.g - lo.g) * (hi.g - lo.g)
      + (hi.b - lo.b) * (hi.b - lo.b) ≤ t * t)
    (l : List Pixel) (hne : l ≠ []) (hl : InBox lo hi l) :
    getRepresentativeColorWeighted l method t
      = some (clusterOf (l.map (weigh method))).repColor := by
  unfold getRepresentativeColorWeighted
  have hlen : l.length ≠ 0 := by simpa [List.length_eq_zero] using hne
  rw [if_neg hlen, buildWeightedClusters_box method t lo hi hbox l hne hl]
  simp [dominantWeightedCluster]

theorem getRepresentativeColorWeighted_uniform (method : Method) (c : Pixel) (l : List Pixel)
    (hne : l ≠ []) (h : ∀ p ∈ l, p = c) :
    getRepresentativeColorWeighted l method 30 = some c.toRGB := by
  have hbox : InBox c.toRGB c.toRGB l := by
    intro p hp
    rw [h p hp]
    simp [Pixel.toRGB]
  rw [getRepresentativeColorWeighted_box method 30 c.toRGB c.toRGB (by simp) l hne hbox]
  obtain ⟨⟨r1, r2⟩, ⟨g1, g2⟩, ⟨b1, b2⟩⟩ := clusterOf_rep_inBox method c.toRGB c.toRGB l hne hbox
  generalize (clusterOf (l.map (weigh method))).repColor = rep at *
  obtain ⟨r, g, b⟩ := rep
  simp only [Pixel.toRGB, Option.some.injEq, RGB.mk.injEq] at *
  omega

theorem getRepresentativeColor_uniform (c : Pixel) (l : List Pixel) (hne : l ≠ [])
    (h : ∀ p ∈ l, p = c) (t : Int) : getRepresentativeColor l t = some c.toRGB := by
  have hlen : l.length ≠ 0 := by simpa [List.length_eq_zero] using hne
  have hother : c ≠ ⟨c.r + 1, c.g, c.b⟩ := by
    intro hc
    have := congrArg Pixel.r hc
    simp at this
  have hcount : 0 < l.count c := by
    obtain ⟨x, rest⟩ := List.exists_cons_of_ne_nil hne
    obtain ⟨rest, rfl⟩ := rest
    rw [h x (by simp)]
    simp
  have hcc : countColors l = [⟨colorKey c, l.count c⟩] := by
    rcases countColors_two c ⟨c.r + 1, c.g, c.b⟩ hother l (fun p hp => Or.inl (h p hp)) with
      ⟨h1, _, _⟩ | ⟨_, _, h3⟩ | ⟨h1, _, _⟩ | ⟨_, h2, _⟩
    · omega
    · exact h3
    · omega
    · exfalso
      rw [List.count_pos_iff] at h2
      exact hother (h _ h2).symm
  unfold getRepresentativeColor
  rw [if_neg hlen, hcc]
  simp [keyColor_colorKey]

theorem channelSum_uniform (f : RGBA → Fin 256) (v : Fin 256) (l : List RGBA)
    (h : ∀ px ∈ l, f px = v) : channelSum f l = l.length * v.val := by
  induction l with
  | nil => simp [channelSum]
  | cons px rest ih =>
    have ih2 := ih (fun q hq => h q (by simp [hq]))
    unfold channelSum at *
    simp only [List.map_cons, List.sum_cons, List.length_cons, ih2, h px (by simp)]
    ring

theorem jsRound_mul_div (n v : Nat) (hn : n ≠ 0) :
    jsRound (((n * v : Nat) : ℚ) / (n : ℚ)) = (v : Int) := by
  have hn2 : (n : ℚ) ≠ 0 := by exact_mod_cast hn
  have : ((n * v : Nat) : ℚ) / (n : ℚ) = ((v : Int) : ℚ) := by
    push_cast
    field_simp
  rw [this, jsRound_intCast]

theorem reduceSample_uniform (method : Method) (c : Pixel) (imgData : List RGBA)
    (hne : imgData ≠ []) (h : ∀ px ∈ imgData, px.a ≠ 0 ∧ px.toPixel = c) :
    reduceSample method (samplePixels method imgData)
        = hexColor (c.r.val : Int) (c.g.val : Int) (c.b.val : Int) := by
  have hop : opaquePixels imgData = imgData := by
    unfold opaquePixels
    rw [List.filter_eq_self]
    intro px hpx
    simpa using (h px hpx).1
  have hlen : imgData.length ≠ 0 := by simpa [List.length_eq_zero] using hne
  by_cases hm : method = Method.average ∨ method = Method.neighbor
  · rw [samplePixels_average method hm, hop,
      channelSum_uniform RGBA.r c.r imgData (fun px hpx => by rw [← (h px hpx).2]; rfl),
      channelSum_uniform RGBA.g c.g imgData (fun px hpx => by rw [← (h px hpx).2]; rfl),
      channelSum_uniform RGBA.b c.b imgData (fun px hpx => by rw [← (h px hpx).2]; rfl)]
    simp only [reduceSample, hm, if_true, if_neg hlen]
    rw [jsRound_mul_div _ _ hlen, jsRound_mul_div _ _ hlen, jsRound_mul_div _ _ hlen]
  · rw [samplePixels_cluster method hm, hop]
    have hne2 : imgData.map RGBA.toPixel ≠ [] := by simpa using hne
    have hlen2 : (imgData.map RGBA.toPixel).length ≠ 0 := by simpa using hlen
    have hall : ∀ p ∈ imgData.map RGBA.toPixel, p = c := by
      intro p hp
      obtain ⟨px, hpx, rfl⟩ := List.mem_map.mp hp
      exact (h px hpx).2
    simp only [reduceSample, hm, if_false, if_neg hlen2]
    rw [getRepresentativeColor_uniform c _ hne2 hall,
      getRepresentativeColorWeighted_uniform method c _ hne2 hall, ite_self]
    rfl

/-- C2: when every sampled pixel of a cell is opaque and has the same (r, g, b),
every method gives that colour, written `#RRGGBB`. -/
theorem uniform_cell_colour (method : Method) (c : Pixel) (imgData : List RGBA)
    (hne : imgData ≠ []) (h : ∀ px ∈ imgData, px.a ≠ 0 ∧ px.toPixel = c) :
    reduceSample method (samplePixels method imgData)
        = hexColor (c.r.val : Int) (c.g.val : Int) (c.b.val : Int) ∧
      isHexColor (hexColor (c.r.val : Int) (c.g.val : Int) (c.b.val : Int)) = true :=
  ⟨reduceSample_uniform method c imgData hne h,
    hexColor_isHexColor ⟨by omega, by omega⟩ ⟨by omega, by omega⟩ ⟨by omega, by omega⟩⟩

theorem uniform_cell_colour_witness :
    reduceSample Method.most_dark
        (samplePixels Method.most_dark [⟨18, 52, 86, 255⟩, ⟨18, 52, 86, 7⟩])
        = hexColor ((18 : Fin 256).val : Int) ((52 : Fin 256).val : Int)
            ((86 : Fin 256).val : Int) ∧
      isHexColor (hexColor ((18 : Fin 256).val : Int) ((52 : Fin 256).val : Int)
        ((86 : Fin 256).val : Int)) = true :=
  uniform_cell_colour Method.most_dark ⟨18, 52, 86⟩ [⟨18, 52, 86, 255⟩, ⟨18, 52, 86, 7⟩]
    (by decide) (by decide)

/-! ## The clustering threshold -/

theorem clusterOf_rep_uniform (method : Method) (c : Pixel) (l : List Pixel) (hne : l ≠ [])
    (h : ∀ p ∈ l, p = c) : (clusterOf (l.map (weigh method))).repColor = c.toRGB := by
  have hbox : InBox c.toRGB c.toRGB l := by
    intro p hp
    rw [h p hp]
    simp [Pixel.toRGB]
  obtain ⟨⟨r1, r2⟩, ⟨g1, g2⟩, ⟨b1, b2⟩⟩ := clusterOf_rep_inBox method c.toRGB c.toRGB l hne hbox
  generalize (clusterOf (l.map (weigh method))).repColor = rep at *
  obtain ⟨r, g, b⟩ := rep
  simp only [Pixel.toRGB, RGB.mk.injEq] at *
  omega

theorem withinThreshold_weigh (method : Method) (p q : Pixel) (t : Int) :
    withinThreshold
        ⟨((weigh method p).r.val : Int), ((weigh method p).g.val : Int),
          ((weigh method p).b.val : Int)⟩ q.toRGB t
      = decide (distSq p q ≤ t * t) := rfl

theorem buildWeightedClusters_far (method : Method) (t : Int) (ht : 0 ≤ t) (X Y : Pixel)
    (hd : t * t < distSq X Y) (l : List Pixel) (hl : ∀ p ∈ l, p = X ∨ p = Y) :
    buildWeightedClusters method t (X :: l) =
      clusterOf (((X :: l).filter fun p => decide (p = X)).map (weigh method)) ::
        (if Y ∈ l then [clusterOf ((l.filter fun p => decide (p = Y)).map (weigh method))]
          else []) := by
  have hXY : X ≠ Y := ne_of_distSq_pos hd (mul_nonneg ht ht)
  have hYX : Y ≠ X := fun h => hXY h.symm
  have ht2 : 0 ≤ t * t := mul_nonneg ht ht
  induction l using List.reverseRecOn with
  | nil =>
    simp only [buildWeightedClusters, List.foldl_cons, List.foldl_nil, addToWeightedClusters,
      List.filter_cons, decide_True, if_true, List.filter_nil, List.map_cons, List.map_nil,
      List.not_mem_nil, if_false]
    rw [newCluster_eq_clusterOf _ (pixelWeight_pos method X)]
  | append_singleton l p ih =>
    have ih2 := ih (fun q hq => hl q (List.mem_append_left _ hq))
    rw [← List.cons_append, buildWeightedClusters_append, ih2]
    have hrep1 : (clusterOf (((X :: l).filter fun p => decide (p = X)).map
        (weigh method))).repColor = X.toRGB := by
      apply clusterOf_rep_uniform
      · simp [List.filter_cons]
      · intro q hq
        simpa using (List.mem_filter.mp hq).2
    rcases hl p (by simp) with rfl | rfl
    · have hw : decide (distSq p p ≤ t * t) = true := by
        rw [distSq_self]
        simpa using ht2
      simp only [addToWeightedClusters, hrep1, withinThreshold_weigh, hw, if_true,
        mergeWeighted_clusterOf]
      simp [List.filter_cons, List.filter_append, hXY, hYX]
    · have hw : decide (distSq p X ≤ t * t) = false := by
        rw [distSq_comm]
        simp only [decide_eq_false_iff_not]
        omega
      simp only [addToWeightedClusters, hrep1, withinThreshold_weigh, hw]
      by_cases hmem : p ∈ l
      · have hrep2 : (clusterOf ((l.filter fun q => decide (q = p)).map
            (weigh method))).repColor = p.toRGB := by
          apply clusterOf_rep_uniform
          · intro hnil
            rw [List.filter_eq_nil_iff] at hnil
            simpa using hnil p hmem
          · intro q hq
            simpa using (List.mem_filter.mp hq).2
        have hw2 : decide (distSq p p ≤ t * t) = true := by
          rw [distSq_self]
          simpa using ht2
        simp only [hmem, if_true, addToWeightedClusters, hrep2, withinThreshold_weigh, hw2,
          mergeWeighted_clusterOf]
        simp [List.filter_cons, List.filter_append, hYX]
      · have hnil : (l.filter fun q => decide (q = p)) = [] := by
          rw [List.filter_eq_nil_iff]
          intro q hq
          simp only [decide_eq_true_eq]
          rintro rfl
          exact hmem hq
        simp only [hmem, if_false, addToWeightedClusters]
        rw [newCluster_eq_clusterOf _ (pixelWeight_pos method p)]
        simp [List.filter_cons, List.filter_append, hYX, hnil]

theorem sq_max_sub_min (a b : Int) :
    (max a b - min a b) * (max a b - min a b) = (a - b) * (a - b) := by
  rcases le_total a b with h | h
  · rw [max_eq_right h, min_eq_left h]; ring
  · rw [max_eq_left h, min_eq_right h]

theorem inBox_pair (A B : Pixel) (l : List Pixel) (hl : ∀ p ∈ l, p = A ∨ p = B) :
    InBox
      ⟨min (A.r.val : Int) (B.r.val : Int), min (A.g.val : Int) (B.g.val : Int),
        min (A.b.val : Int) (B.b.val : Int)⟩
      ⟨max (A.r.val : Int) (B.r.val : Int), max (A.g.val : Int) (B.g.val : Int),
        max (A.b.val : Int) (B.b.val : Int)⟩ l := by
  intro p hp
  rcases hl p hp with rfl | rfl <;> simp

theorem buildWeightedClusters_near (method : Method) (t : Int) (A B : Pixel)
    (hd : distSq A B ≤ t * t) (l : List Pixel) (hne : l ≠ [])
    (hl : ∀ p ∈ l, p = A ∨ p = B) :
    buildWeightedClusters method t l = [clusterOf (l.map (weigh method))] := by
  apply buildWeightedClusters_box method t _ _ _ l hne (inBox_pair A B l hl)
  simp only [sq_max_sub_min]
  exact hd

/-- C6: on a cell with exactly two distinct colours, both clustering reducers
(threshold 30) build one cluster when the squared distance of the colours is at
most 900 and two clusters when it is 901 or more; and a colour joins a cluster
with a single member exactly when its squared distance to it is at most 900. -/
theorem cluster_boundary :
    (∀ (A B : Pixel) (l : List Pixel), A ≠ B → A ∈ l → B ∈ l → (∀ p ∈ l, p = A ∨ p = B) →
      ((buildClusters 30 (sortByCount (countColors l))).length
          = if distSq A B ≤ 900 then 1 else 2) ∧
      (∀ method : Method,
        (buildWeightedClusters method 30 l).length = if distSq A B ≤ 900 then 1 else 2)) ∧
    (∀ (A B : Pixel) (n m : Nat),
      (addToClusters 30 [⟨A.toRGB, n, [⟨A.toRGB, n⟩]⟩] B.toRGB m).length = 1
        ↔ distSq B A ≤ 900) ∧
    (∀ (method : Method) (A B : Pixel),
      (addToWeightedClusters 30 [⟨A.toRGB, (weigh method A).weight, [weigh method A]⟩]
        (weigh method B)).length = 1 ↔ distSq B A ≤ 900) := by
  refine ⟨?_, ?_, ?_⟩
  · intro A B l hAB hA hB hl
    have hBA : B ≠ A := fun h => hAB h.symm
    constructor
    · have hcA : 0 < l.count A := List.count_pos_iff.mpr hA
      have hcB : 0 < l.count B := List.count_pos_iff.mpr hB
      have key : ∀ x y : Entry,
          (x.key = colorKey A ∧ y.key = colorKey B) ∨ (x.key = colorKey B ∧ y.key = colorKey A) →
          (buildClusters 30 [x, y]).length = if distSq A B ≤ 900 then 1 else 2 := by
        intro x y hxy
        rw [buildClusters_pair]
        rcases hxy with ⟨hx, hy⟩ | ⟨hx, hy⟩
        · rw [hx, hy, keyColor_colorKey, keyColor_colorKey, withinThreshold_toRGB,
            distSq_comm]
          by_cases h : distSq A B ≤ 900
          · simp [h]
          · simp [h]
        · rw [hx, hy, keyColor_colorKey, keyColor_colorKey, withinThreshold_toRGB]
          by_cases h : distSq A B ≤ 900
          · simp [h]
          · simp [h]
      rcases countColors_two A B hAB l hl with ⟨h1, _, _⟩ | ⟨_, h2, _⟩ | ⟨h1, _, _⟩ |
        ⟨_, _, h3 | h3⟩
      · omega
      · omega
      · omega
      · rw [h3]
        rcases sortByCount_pair ⟨colorKey A, l.count A⟩ ⟨colorKey B, l.count B⟩ with e | e
        · rw [e]; exact key _ _ (Or.inl ⟨rfl, rfl⟩)
        · rw [e]; exact key _ _ (Or.inr ⟨rfl, rfl⟩)
      · rw [h3]
        rcases sortByCount_pair ⟨colorKey B, l.count B⟩ ⟨colorKey A, l.count A⟩ with e | e
        · rw [e]; exact key _ _ (Or.inr ⟨rfl, rfl⟩)
        · rw [e]; exact key _ _ (Or.inl ⟨rfl, rfl⟩)
    · intro method
      by_cases h : distSq A B ≤ 900
      · rw [if_pos h, buildWeightedClusters_near method 30 A B (by simpa using h) l
          (List.ne_nil_of_mem hA) hl]
        rfl
      · rw [if_neg h]
        obtain ⟨X, rest, rfl⟩ := List.exists_cons_of_ne_nil (List.ne_nil_of_mem hA)
        have hrest : ∀ p ∈ rest, p = A ∨ p = B := fun p hp => hl p (by simp [hp])
        rcases hl X (by simp) with rfl | rfl
        · have hB2 : B ∈ rest := by
            rcases List.mem_cons.mp hB with e | e
            · exact absurd e hBA
            · exact e
          rw [buildWeightedClusters_far method 30 (by decide) X B (by omega) rest hrest]
          simp [hB2]
        · have hA2 : A ∈ rest := by
            rcases List.mem_cons.mp hA with e | e
            · exact absurd e hAB
            · exact e
          rw [buildWeightedClusters_far method 30 (by decide) X A
            (by rw [distSq_comm]; omega) rest (fun p hp => (hrest p hp).symm)]
          simp [hA2]
  · intro A B n m
    simp only [addToClusters, withinThreshold_toRGB]
    by_cases h : distSq B A ≤ 900
    · simp [h]
    · simp [h]
  · intro method A B
    simp only [addToWeightedClusters, withinThreshold_weigh]
    by_cases h : distSq B A ≤ 900
    · simp [h]
    · simp [h]

theorem cluster_boundary_witness :
    ((buildClusters 30 (sortByCount (countColors [⟨0, 0, 0⟩, ⟨30, 0, 0⟩, ⟨0, 0, 0⟩]))).length
        = (if distSq ⟨0, 0, 0⟩ ⟨30, 0, 0⟩ ≤ 900 then 1 else 2) ∧
      (∀ method : Method,
        (buildWeightedClusters method 30 [⟨0, 0, 0⟩, ⟨30, 0, 0⟩, ⟨0, 0, 0⟩]).length
          = if distSq ⟨0, 0, 0⟩ ⟨30, 0, 0⟩ ≤ 900 then 1 else 2)) ∧
    ((buildClusters 30 (sortByCount (countColors [⟨0, 0, 0⟩, ⟨30, 1, 0⟩, ⟨0, 0, 0⟩]))).length
        = (if distSq ⟨0, 0, 0⟩ ⟨30, 1, 0⟩ ≤ 900 then 1 else 2) ∧
      (∀ method : Method,
        (buildWeightedClusters method 30 [⟨0, 0, 0⟩, ⟨30, 1, 0⟩, ⟨0, 0, 0⟩]).length
          = if distSq ⟨0, 0, 0⟩ ⟨30, 1, 0⟩ ≤ 900 then 1 else 2)) :=
  ⟨cluster_boundary.1 ⟨0, 0, 0⟩ ⟨30, 0, 0⟩ [⟨0, 0, 0⟩, ⟨30, 0, 0⟩, ⟨0, 0, 0⟩] (by decide)
      (by decide) (by decide) (by decide),
    cluster_boundary.1 ⟨0, 0, 0⟩ ⟨30, 1, 0⟩ [⟨0, 0, 0⟩, ⟨30, 1, 0⟩, ⟨0, 0, 0⟩] (by decide)
      (by decide) (by decide) (by decide)⟩

/-! ## The weighted blend of two close pixels -/

theorem getRepresentativeColorWeighted_near (method : Method) (t : Int) (A B : Pixel)
    (hd : distSq A B ≤ t * t) (l : List Pixel) (hne : l ≠ [])
    (hl : ∀ p ∈ l, p = A ∨ p = B) :
    getRepresentativeColorWeighted l method t
      = some (clusterOf (l.map (weigh method))).repColor := by
  apply getRepresentativeColorWeighted_box method t _ _ _ l hne (inBox_pair A B l hl)
  simp only [sq_max_sub_min]
  exact hd

theorem clusterOf_pair (method : Method) (p q : Pixel) :
    (clusterOf [weigh method p, weigh method q]).repColor =
      ⟨blendChannel (pixelWeight method p) (pixelWeight method q) p.r q.r,
       blendChannel (pixelWeight method p) (pixelWeight method q) p.g q.g,
       blendChannel (pixelWeight method p) (pixelWeight method q) p.b q.b⟩ := by
  simp only [clusterOf, weightedChannelSum, totalWeightOf, blendChannel, jsRound, weigh,
    List.map_cons, List.map_nil, List.sum_cons, List.sum_nil, add_zero]
  congr 3 <;> ring

theorem blendChannel_swap (wd wl : ℚ) (dc lc : Fin 256) :
    blendChannel wl wd lc dc = blendChannel wd wl dc lc := by
  unfold blendChannel
  congr 3 <;> ring

theorem blendChannel_closer (wd wl : ℚ) (h0 : 0 < wd) (h : wd < wl) (dc lc : Fin 256) :
    |blendChannel wd wl dc lc - (lc.val : Int)| ≤ |blendChannel wd wl dc lc - (dc.val : Int)| := by
  have hW : 0 < wd + wl := by linarith
  have hdq : ((dc.val : ℕ) : ℚ) = (((dc.val : Int)) : ℚ) := by push_cast; rfl
  have hlq : ((lc.val : ℕ) : ℚ) = (((lc.val : Int)) : ℚ) := by push_cast; rfl
  unfold blendChannel
  rw [hdq, hlq]
  generalize (dc.val : Int) = d
  generalize (lc.val : Int) = l
  rcases lt_trichotomy d l with hlt | heq | hgt
  · have hdl : (d : ℚ) < (l : ℚ) := by exact_mod_cast hlt
    have hq : ((d : ℚ) + l) / 2 ≤ (wd * d + wl * l) / (wd + wl) := by
      rw [le_div_iff₀ hW]
      nlinarith [mul_pos (sub_pos.mpr h) (sub_pos.mpr hdl)]
    have hz : (d + l + 1) / 2 ≤ ⌊(wd * (d : ℚ) + wl * (l : ℚ)) / (wd + wl) + 1 / 2⌋ := by
      rw [Int.le_floor]
      have h2 : (((d + l + 1) / 2 : Int) : ℚ) ≤ ((d : ℚ) + l + 1) / 2 := by
        have : 2 * ((d + l + 1) / 2) ≤ d + l + 1 := by omega
        have : ((2 * ((d + l + 1) / 2) : Int) : ℚ) ≤ ((d + l + 1 : Int) : ℚ) := by
          exact_mod_cast this
        push_cast at this
        linarith
      linarith
    generalize ⌊(wd * (d : ℚ) + wl * (l : ℚ)) / (wd + wl) + 1 / 2⌋ = x at hz
    calc |x - l| ≤ x - d := by
          rw [abs_le]
          constructor <;> omega
      _ ≤ |x - d| := le_abs_self _
  · subst heq
    exact le_refl _
  · have hdl : (l : ℚ) < (d : ℚ) := by exact_mod_cast hgt
    have hq : (wd * d + wl * l) / (wd + wl) < ((d : ℚ) + l) / 2 := by
      rw [div_lt_iff₀ hW]
      nlinarith [mul_pos (sub_pos.mpr h) (sub_pos.mpr hdl)]
    have hz : ⌊(wd * (d : ℚ) + wl * (l : ℚ)) / (wd + wl) + 1 / 2⌋ < (d + l) / 2 + 1 := by
      rw [Int.floor_lt]
      have h2 : ((d : ℚ) + l + 1) / 2 ≤ (((d + l) / 2 + 1 : Int) : ℚ) := by
        have : d + l + 1 ≤ 2 * ((d + l) / 2 + 1) := by omega
        have : ((d + l + 1 : Int) : ℚ) ≤ ((2 * ((d + l) / 2 + 1) : Int) : ℚ) := by
          exact_mod_cast this
        push_cast at this ⊢
        linarith
      linarith
    generalize ⌊(wd * (d : ℚ) + wl * (l : ℚ)) / (wd + wl) + 1 / 2⌋ = x at hz
    calc |x - l| ≤ -(x - d) := by
          rw [abs_le]
          constructor <;> omega
      _ ≤ |x - d| := neg_le_abs _

theorem pixelWeight_most_light (p : Pixel) :
    pixelWeight Method.most_light p = 0.25 + 0.5 * (brightness p / 255) := by
  simp only [pixelWeight, rawWeight, if_true]
  norm_num

/-- C5: for a darker pixel `d` and a lighter pixel `l` at squared distance at
most 900, `most_light` on `[d, l]` and on `[l, d]` returns in each channel
`round((w_d·d + w_l·l) / (w_d + w_l))` with `w = 0.25 + 0.5·(brightness/255)`,
and every returned channel is at least as close to `l` as to `d`. -/
theorem most_light_blend (d l : Pixel) (wd wl : ℚ)
    (hwd : wd = 0.25 + 0.5 * (brightness d / 255))
    (hwl : wl = 0.25 + 0.5 * (brightness l / 255))
    (hbr : brightness d < brightness l) (hdist : distSq d l ≤ 900) :
    getRepresentativeColorWeighted [d, l] Method.most_light 30
        = some ⟨blendChannel wd wl d.r l.r, blendChannel wd wl d.g l.g,
            blendChannel wd wl d.b l.b⟩ ∧
      getRepresentativeColorWeighted [l, d] Method.most_light 30
        = some ⟨blendChannel wd wl d.r l.r, blendChannel wd wl d.g l.g,
            blendChannel wd wl d.b l.b⟩ ∧
      |blendChannel wd wl d.r l.r - (l.r.val : Int)|
        ≤ |blendChannel wd wl d.r l.r - (d.r.val : Int)| ∧
      |blendChannel wd wl d.g l.g - (l.g.val : Int)|
        ≤ |blendChannel wd wl d.g l.g - (d.g.val : Int)| ∧
      |blendChannel wd wl d.b l.b - (l.b.val : Int)|
        ≤ |blendChannel wd wl d.b l.b - (d.b.val : Int)| := by
  have hwd2 : pixelWeight Method.most_light d = wd := by rw [pixelWeight_most_light, hwd]
  have hwl2 : pixelWeight Method.most_light l = wl := by rw [pixelWeight_most_light, hwl]
  have hpos : 0 < wd := by rw [← hwd2]; exact pixelWeight_pos _ _
  have hlt : wd < wl := by
    rw [hwd, hwl]
    linarith [div_lt_div_of_pos_right hbr (by norm_num : (0 : ℚ) < 255)]
  refine ⟨?_, ?_, blendChannel_closer wd wl hpos hlt _ _, blendChannel_closer wd wl hpos hlt _ _,
    blendChannel_closer wd wl hpos hlt _ _⟩
  · rw [getRepresentativeColorWeighted_near Method.most_light 30 d l (by simpa using hdist)
      [d, l] (by simp) (by simp)]
    simp only [List.map_cons, List.map_nil, clusterOf_pair, hwd2, hwl2]
  · rw [getRepresentativeColorWeighted_near Method.most_light 30 d l (by simpa using hdist)
      [l, d] (by simp) (by simp)]
    simp only [List.map_cons, List.map_nil, clusterOf_pair, hwd2, hwl2, blendChannel_swap]

theorem most_light_blend_witness :
    getRepresentativeColorWeighted [⟨0, 0, 0⟩, ⟨0, 30, 0⟩] Method.most_light 30
      = some ⟨blendChannel (0.25 + 0.5 * (brightness ⟨0, 0, 0⟩ / 255))
                (0.25 + 0.5 * (brightness ⟨0, 30, 0⟩ / 255)) 0 0,
              blendChannel (0.25 + 0.5 * (brightness ⟨0, 0, 0⟩ / 255))
                (0.25 + 0.5 * (brightness ⟨0, 30, 0⟩ / 255)) 0 30,
              blendChannel (0.25 + 0.5 * (brightness ⟨0, 0, 0⟩ / 255))
                (0.25 + 0.5 * (brightness ⟨0, 30, 0⟩ / 255)) 0 0⟩ :=
  (most_light_blend ⟨0, 0, 0⟩ ⟨0, 30, 0⟩ _ _ rfl rfl (by decide!) (by decide)).1

theorem lightBlend_example :
    getRepresentativeColorWeighted [⟨0, 0, 0⟩, ⟨0, 30, 0⟩] Method.most_light 30
      = some ⟨0, 16, 0⟩ := by
  decide!

/-! ## Every cell is `transparent` or `#RRGGBB` -/

theorem channelSum_le (f : RGBA → Fin 256) (l : List RGBA) :
    channelSum f l ≤ 255 * l.length := by
  induction l with
  | nil => simp [channelSum]
  | cons px rest ih =>
    unfold channelSum at *
    simp only [List.map_cons, List.sum_cons, List.length_cons]
    have := (f px).isLt
    omega

theorem jsRound_mean_isByte (sum count : Nat) (hc : count ≠ 0) (hs : sum ≤ 255 * count) :
    0 ≤ jsRound ((sum : ℚ) / (count : ℚ)) ∧ jsRound ((sum : ℚ) / (count : ℚ)) ≤ 255 := by
  have hcq : (0 : ℚ) < (count : ℚ) := by
    have : 0 < count := Nat.pos_of_ne_zero hc
    exact_mod_cast this
  have hsq : (sum : ℚ) ≤ 255 * (count : ℚ) := by exact_mod_cast hs
  have := @jsRound_bounds ((sum : ℚ) / (count : ℚ)) 0 255
    (by simp only [Int.cast_zero]; positivity)
    (by rw [div_le_iff₀ hcq]; simpa using hsq)
  exact this

theorem mem_addToClusters (P : RGB → Prop) (t : Int) (clusters : List Cluster) (color : RGB)
    (count : Nat) (hP : P color)
    (h : ∀ cl ∈ clusters, ∀ m ∈ cl.members, P m.color) :
    ∀ cl ∈ addToClusters t clusters color count, ∀ m ∈ cl.members, P m.color := by
  induction clusters with
  | nil =>
    intro cl hcl m hm
    simp only [addToClusters, List.mem_singleton] at hcl
    subst hcl
    simp only [List.mem_singleton] at hm
    subst hm
    exact hP
  | cons c rest ih =>
    intro cl hcl m hm
    simp only [addToClusters] at hcl
    split at hcl
    · rcases List.mem_cons.mp hcl with rfl | hcl
      · simp only [mergeInto, List.mem_append, List.mem_singleton] at hm
        rcases hm with hm | rfl
        · exact h c (by simp) m hm
        · exact hP
      · exact h cl (by simp [hcl]) m hm
    · rcases List.mem_cons.mp hcl with rfl | hcl
      · exact h cl (by simp) m hm
      · exact ih (fun cl hcl => h cl (by simp [hcl])) cl hcl m hm

theorem mem_buildClusters_aux (P : RGB → Prop) (t : Int) (entries : List Entry)
    (hP : ∀ e ∈ entries, P (keyColor e.key)) (init : List Cluster)
    (h : ∀ cl ∈ init, ∀ m ∈ cl.members, P m.color) :
    ∀ cl ∈ entries.foldl
        (fun clusters entry => addToClusters t clusters (keyColor entry.key) entry.count) init,
      ∀ m ∈ cl.members, P m.color := by
  induction entries generalizing init with
  | nil => simpa using h
  | cons e rest ih =>
    rw [List.foldl_cons]
    apply ih (fun x hx => hP x (by simp [hx]))
    exact mem_addToClusters P t init _ _ (hP e (by simp)) h

theorem foldl_dominant_mem (cs : List Cluster) (c0 : Cluster) :
    cs.foldl (fun dominant cluster =>
        if cluster.totalCount > dominant.totalCount then cluster else dominant) c0 = c0 ∨
      cs.foldl (fun dominant cluster =>
        if cluster.totalCount > dominant.totalCount then cluster else dominant) c0 ∈ cs := by
  induction cs generalizing c0 with
  | nil => left; rfl
  | cons c rest ih =>
    rw [List.foldl_cons]
    rcases ih (if c.totalCount > c0.totalCount then c else c0) with h | h
    · rw [h]
      split
      · right; simp
      · left; rfl
    · right; simp [h]

theorem dominantCluster_mem {cs : List Cluster} {d : Cluster} (h : dominantCluster cs = some d) :
    d ∈ cs := by
  cases cs with
  | nil => simp [dominantCluster] at h
  | cons c0 rest =>
    simp only [dominantCluster, Option.some.injEq] at h
    rcases foldl_dominant_mem (c0 :: rest) c0 with e | e
    · rw [← h, e]; simp
    · rw [← h]; exact e

theorem foldl_mostFrequent_mem (ms : List Member) (best : RGB × Nat) :
    (ms.foldl (fun (best : RGB × Nat) entry =>
        if entry.count > best.2 then (entry.color, entry.count) else best) best).1 = best.1 ∨
      ∃ m ∈ ms, (ms.foldl (fun (best : RGB × Nat) entry =>
        if entry.count > best.2 then (entry.color, entry.count) else best) best).1 = m.color := by
  induction ms generalizing best with
  | nil => left; rfl
  | cons x rest ih =>
    rw [List.foldl_cons]
    rcases ih (if x.count > best.2 then (x.color, x.count) else best) with h | ⟨m, hm, h⟩
    · rw [h]
      split
      · right; exact ⟨x, by simp, rfl⟩
      · left; rfl
    · right; exact ⟨m, by simp [hm], h⟩

theorem mostFrequentMember_mem {ms : List Member} {c : RGB} (h : mostFrequentMember ms = some c) :
    ∃ m ∈ ms, m.color = c := by
  cases ms with
  | nil => simp [mostFrequentMember] at h
  | cons m0 rest =>
    simp only [mostFrequentMember, Option.some.injEq] at h
    rcases foldl_mostFrequent_mem (m0 :: rest) (m0.color, m0.count) with e | ⟨m, hm, e⟩
    · exact ⟨m0, by simp, by rw [← h, e]⟩
    · exact ⟨m, hm, by rw [← h, e]⟩

theorem keyColor_isByte (k : Nat) : (keyColor k).isByte := keyColor_channels k

theorem getRepresentativeColor_isByte {l : List Pixel} {t : Int} {c : RGB}
    (h : getRepresentativeColor l t = some c) : c.isByte := by
  unfold getRepresentativeColor at h
  split at h
  · simp at h
  · simp only at h
    split at h
    · simp only [Option.some.injEq] at h
      rw [← h]
      exact keyColor_isByte _
    · rw [Option.bind_eq_some] at h
      obtain ⟨d, hd, hm⟩ := h
      obtain ⟨m, hmem, rfl⟩ := mostFrequentMember_mem hm
      exact mem_buildClusters_aux RGB.isByte t _ (fun e _ => keyColor_isByte e.key) []
        (by simp) d (dominantCluster_mem hd) m hmem

theorem mem_addToWeightedClusters (method : Method) (t : Int)
    (clusters : List WeightedCluster) (p : Pixel)
    (h : ∀ cl ∈ clusters, ∃ l : List Pixel, l ≠ [] ∧ cl = clusterOf (l.map (weigh method))) :
    ∀ cl ∈ addToWeightedClusters t clusters (weigh method p),
      ∃ l : List Pixel, l ≠ [] ∧ cl = clusterOf (l.map (weigh method)) := by
  induction clusters with
  | nil =>
    intro cl hcl
    simp only [addToWeightedClusters, List.mem_singleton] at hcl
    refine ⟨[p], by simp, ?_⟩
    rw [hcl]
    exact newCluster_eq_clusterOf _ (pixelWeight_pos method p)
  | cons c rest ih =>
    intro cl hcl
    simp only [addToWeightedClusters] at hcl
    split at hcl
    · rcases List.mem_cons.mp hcl with rfl | hcl
      · obtain ⟨l, hl, rfl⟩ := h c (by simp)
        refine ⟨l ++ [p], by simp, ?_⟩
        rw [mergeWeighted_clusterOf]
        simp
      · exact h cl (by simp [hcl])
    · rcases List.mem_cons.mp hcl with rfl | hcl
      · exact h cl (by simp)
      · exact ih (fun cl hcl => h cl (by simp [hcl])) cl hcl

theorem mem_buildWeightedClusters_aux (method : Method) (t : Int) (pixels : List Pixel)
    (init : List WeightedCluster)
    (h : ∀ cl ∈ init, ∃ l : List Pixel, l ≠ [] ∧ cl = clusterOf (l.map (weigh method))) :
    ∀ cl ∈ pixels.foldl
        (fun clusters p => addToWeightedClusters t clusters (weigh method p)) init,
      ∃ l : List Pixel, l ≠ [] ∧ cl = clusterOf (l.map (weigh method)) := by
  induction pixels generalizing init with
  | nil => simpa using h
  | cons p rest ih =>
    rw [List.foldl_cons]
    exact ih _ (mem_addToWeightedClusters method t init p h)

theorem foldl_dominantWeighted_mem (cs : List WeightedCluster) (c0 : WeightedCluster) :
    cs.foldl (fun dominant cluster =>
        if cluster.totalWeight > dominant.totalWeight then cluster else dominant) c0 = c0 ∨
      cs.foldl (fun dominant cluster =>
        if cluster.totalWeight > dominant.totalWeight then cluster else dominant) c0 ∈ cs := by
  induction cs generalizing c0 with
  | nil => left; rfl
  | cons c rest ih =>
    rw [List.foldl_cons]
    rcases ih (if c.totalWeight > c0.totalWeight then c else c0) with h | h
    · rw [h]
      split
      · right; simp
      · left; rfl
    · right; simp [h]

theorem dominantWeightedCluster_mem {cs : List WeightedCluster} {d : WeightedCluster}
    (h : dominantWeightedCluster cs = some d) : d ∈ cs := by
  cases cs with
  | nil => simp [dominantWeightedCluster] at h
  | cons c0 rest =>
    simp only [dominantWeightedCluster, Option.some.injEq] at h
    rcases foldl_dominantWeighted_mem (c0 :: rest) c0 with e | e
    · rw [← h, e]; simp
    · rw [← h]; exact e

theorem inBox_bytes (l : List Pixel) : InBox ⟨0, 0, 0⟩ ⟨255, 255, 255⟩ l := by
  intro p _
  have := p.r.isLt
  have := p.g.isLt
  have := p.b.isLt
  refine ⟨⟨?_, ?_⟩, ⟨?_, ?_⟩, ⟨?_, ?_⟩⟩ <;> simp only <;> omega

theorem getRepresentativeColorWeighted_isByte {l : List Pixel} {method : Method} {t : Int}
    {c : RGB} (h : getRepresentativeColorWeighted l method t = some c) : c.isByte := by
  unfold getRepresentativeColorWeighted at h
  split at h
  · simp at h
  · rw [Option.map_eq_some'] at h
    obtain ⟨d, hd, rfl⟩ := h
    obtain ⟨l2, hne, rfl⟩ := mem_buildWeightedClusters_aux method t l [] (by simp) d
      (dominantWeightedCluster_mem hd)
    exact clusterOf_rep_inBox method ⟨0, 0, 0⟩ ⟨255, 255, 255⟩ l2 hne (inBox_bytes l2)

theorem reduceSample_format (method : Method) (imgData : List RGBA) :
    reduceSample method (samplePixels method imgData) = "transparent" ∨
      isHexColor (reduceSample method (samplePixels method imgData)) = true := by
  by_cases hm : method = Method.average ∨ method = Method.neighbor
  · rw [samplePixels_average method hm]
    by_cases hc : (opaquePixels imgData).length = 0
    · left; simp [reduceSample, hm, hc]
    · right
      simp only [reduceSample, hm, if_true, if_neg hc]
      exact hexColor_isHexColor
        (jsRound_mean_isByte _ _ hc (channelSum_le _ _))
        (jsRound_mean_isByte _ _ hc (channelSum_le _ _))
        (jsRound_mean_isByte _ _ hc (channelSum_le _ _))
  · rw [samplePixels_cluster method hm]
    simp only [reduceSample, hm, if_false]
    split
    · left; rfl
    · split
      · left; rfl
      · rename_i c hc
        right
        have hb : c.isByte := by
          split at hc
          · exact getRepresentativeColor_isByte hc
          · exact getRepresentativeColorWeighted_isByte hc
        exact hexColor_isHexColor hb.1 hb.2.1 hb.2.2

theorem convertCell_format (ctx : PixelSource) (imageDims : ImageDims) (o : Options)
    (j i : Nat) :
    ∃ c, convertCell ctx imageDims o j i = some c ∧ (c = "transparent" ∨ isHexColor c = true) := by
  unfold convertCell
  simp only
  split
  · exact ⟨"transparent", rfl, Or.inl rfl⟩
  · obtain ⟨imgData, hdata⟩ := getImageData_eq_some ctx (cellRect imageDims o j i).x0
      (cellRect imageDims o j i).y0
      ((cellRect imageDims o j i).x1 - (cellRect imageDims o j i).x0)
      ((cellRect imageDims o j i).y1 - (cellRect imageDims o j i).y0) (by omega) (by omega)
    rw [hdata, Option.map_some']
    exact ⟨_, rfl, reduceSample_format o.method imgData⟩

theorem allSome_map {α β : Type} (f : α → Option β) (P : β → Prop) (l : List α)
    (h : ∀ x ∈ l, ∃ y, f x = some y ∧ P y) :
    ∃ ys, allSome (l.map f) = some ys ∧ ys.length = l.length ∧ ∀ y ∈ ys, P y := by
  induction l with
  | nil => exact ⟨[], rfl, rfl, by simp⟩
  | cons x rest ih =>
    obtain ⟨ys, h1, h2, h3⟩ := ih (fun z hz => h z (by simp [hz]))
    obtain ⟨y, hy, hP⟩ := h x (by simp)
    refine ⟨y :: ys, ?_, by simp [h2], ?_⟩
    · simp [allSome, hy, h1]
    · intro z hz
      rcases List.mem_cons.mp hz with rfl | hz
      · exact hP
      · exact h3 z hz

/-- C10: for every pixel source, image size, method and options with a positive
`imageScale`, `convertImage` returns a grid, and each of its cells is the string
`transparent` or a `#` followed by exactly six upper-case hexadecimal digits. -/
theorem convertImage_cells_format (ctx : PixelSource) (imageDims : ImageDims) (o : Options)
    (_hscale : 0 < o.imageScale) :
    ∃ grid, convertImage ctx imageDims o = some grid ∧
      ∀ row ∈ grid, ∀ c ∈ row, c = "transparent" ∨ isHexColor c = true := by
  unfold convertImage
  obtain ⟨grid, h1, _, h3⟩ := allSome_map
    (fun j => allSome ((List.range o.gridWidth).map fun i => convertCell ctx imageDims o j i))
    (fun row => ∀ c ∈ row, c = "transparent" ∨ isHexColor c = true)
    (List.range o.gridHeight)
    (fun j _ => by
      obtain ⟨row, r1, _, r3⟩ := allSome_map (fun i => convertCell ctx imageDims o j i)
        (fun c => c = "transparent" ∨ isHexColor c = true) (List.range o.gridWidth)
        (fun i _ => convertCell_format ctx imageDims o j i)
      exact ⟨row, r1, r3⟩)
  exact ⟨grid, h1, h3⟩

theorem convertImage_cells_format_witness :
    ∃ grid, convertImage redBlueImage ⟨2, 2⟩ ⟨2, 2, Method.most_light, 0, 0, 1, 2, 2⟩ = some grid ∧
      ∀ row ∈ grid, ∀ c ∈ row, c = "transparent" ∨ isHexColor c = true :=
  convertImage_cells_format redBlueImage ⟨2, 2⟩ ⟨2, 2, Method.most_light, 0, 0, 1, 2, 2⟩
    (by decide!)

set_option maxRecDepth 100000 in
theorem hexPairOk_all :
    ∀ a ∈ "0123456789ABCDEF".data, ∀ b ∈ "0123456789ABCDEF".data, hexPairOk a b = true := by
  decide!

theorem hexPair_roundtrip {a b : Char} (ha : isUpperHexDigit a = true)
    (hb : isUpperHexDigit b = true) :
    ∃ va vb, hexDigitValue a = some va ∧ hexDigitValue b = some vb ∧
      toHex (((hexByte va vb).val : Nat) : Int) = String.mk [a, b] := by
  have h := hexPairOk_all a (by simpa [isUpperHexDigit] using ha) b
    (by simpa [isUpperHexDigit] using hb)
  unfold hexPairOk at h
  split at h
  · rename_i va vb e1 e2
    exact ⟨va, vb, e1, e2, by simpa using h⟩
  · simp at h

theorem parse_format_roundtrip {c : String} (h : isHexColor c = true) :
    ∃ p : Pixel, parseHexColor c = some p ∧
      hexColor (p.r.val : Int) (p.g.val : Int) (p.b.val : Int) = c := by
  unfold isHexColor at h
  split at h
  · rename_i h0 r1 r0 g1 g0 b1 b0 hdata
    simp only [Bool.and_eq_true, beq_iff_eq] at h
    obtain ⟨⟨⟨⟨⟨⟨rfl, hr1⟩, hr0⟩, hg1⟩, hg0⟩, hb1⟩, hb0⟩ := h
    obtain ⟨vr1, vr0, er1, er0, hr⟩ := hexPair_roundtrip hr1 hr0
    obtain ⟨vg1, vg0, eg1, eg0, hg⟩ := hexPair_roundtrip hg1 hg0
    obtain ⟨vb1, vb0, eb1, eb0, hb⟩ := hexPair_roundtrip hb1 hb0
    refine ⟨⟨hexByte vr1 vr0, hexByte vg1 vg0, hexByte vb1 vb0⟩, ?_, ?_⟩
    · unfold parseHexColor
      rw [hdata]
      simp only [er1, er0, eg1, eg0, eb1, eb0]
    · apply String.ext
      simp only [hexColor, String.data_append, hr, hg, hb, hdata]
      rfl
  · simp at h

/-! ## Geometry at scale one -/

theorem cellRect_scale_one (gw gh k : Nat) (method : Method) (hm : method ≠ Method.neighbor)
    (j i : Nat) (hi : i < gw) (hj : j < gh) :
    cellRect ⟨((gw * k : Nat) : Int), ((gh * k : Nat) : Int)⟩
        ⟨gw, gh, method, 0, 0, 1, ((gw * k : Nat) : ℚ), ((gh * k : Nat) : ℚ)⟩ j i
      = ⟨(i : Int) * k, (j : Int) * k, (i : Int) * k + k, (j : Int) * k + k⟩ := by
  have hgw : (gw : ℚ) ≠ 0 := by
    have : gw ≠ 0 := by omega
    exact_mod_cast this
  have hgh : (gh : ℚ) ≠ 0 := by
    have : gh ≠ 0 := by omega
    exact_mod_cast this
  have hx0 : ((i : ℚ) * (((gw * k : Nat) : ℚ) / (gw : ℚ)) - 0) / 1
      = (((i : Int) * k : Int) : ℚ) := by
    push_cast; field_simp
  have hx1 : ((i : ℚ) * (((gw * k : Nat) : ℚ) / (gw : ℚ)) + ((gw * k : Nat) : ℚ) / (gw : ℚ) - 0) / 1
      = (((i : Int) * k + k : Int) : ℚ) := by
    push_cast; field_simp
  have hy0 : ((j : ℚ) * (((gh * k : Nat) : ℚ) / (gh : ℚ)) - 0) / 1
      = (((j : Int) * k : Int) : ℚ) := by
    push_cast; field_simp
  have hy1 : ((j : ℚ) * (((gh * k : Nat) : ℚ) / (gh : ℚ)) + ((gh * k : Nat) : ℚ) / (gh : ℚ) - 0) / 1
      = (((j : Int) * k + k : Int) : ℚ) := by
    push_cast; field_simp
  have hik : (i : Int) * k + k ≤ ((gw * k : Nat) : Int) := by
    have : (i + 1) * k ≤ gw * k := Nat.mul_le_mul_right k (by omega)
    have h2 : (((i + 1) * k : Nat) : Int) ≤ ((gw * k : Nat) : Int) := by exact_mod_cast this
    push_cast at h2 ⊢
    linarith
  have hjk : (j : Int) * k + k ≤ ((gh * k : Nat) : Int) := by
    have : (j + 1) * k ≤ gh * k := Nat.mul_le_mul_right k (by omega)
    have h2 : (((j + 1) * k : Nat) : Int) ≤ ((gh * k : Nat) : Int) := by exact_mod_cast this
    push_cast at h2 ⊢
    linarith
  have hi0 : (0 : Int) ≤ (i : Int) * k := by positivity
  have hj0 : (0 : Int) ≤ (j : Int) * k := by positivity
  unfold cellRect
  simp only [if_neg hm]
  rw [hx0, hx1, hy0, hy1, Int.floor_intCast, Int.floor_intCast, Int.ceil_intCast,
    Int.ceil_intCast, max_eq_right hi0, max_eq_right hj0, min_eq_right hik, min_eq_right hjk]

theorem covers_aligned (a b w h : Int) (px py : Int) :
    covers (a : ℚ) (b : ℚ) (w : ℚ) (h : ℚ) px py = true
      ↔ a ≤ px ∧ px < a + w ∧ b ≤ py ∧ py < b + h := by
  unfold covers
  simp only [decide_eq_true_eq]
  constructor
  · rintro ⟨h1, h2, h3, h4⟩
    have e1 : (a : ℚ) < (px : ℚ) + 1 := by linarith
    have e2 : (px : ℚ) < (a : ℚ) + (w : ℚ) := by linarith
    have e3 : (b : ℚ) < (py : ℚ) + 1 := by linarith
    have e4 : (py : ℚ) < (b : ℚ) + (h : ℚ) := by linarith
    have f1 : a < px + 1 := by exact_mod_cast e1
    have f2 : px < a + w := by exact_mod_cast e2
    have f3 : b < py + 1 := by exact_mod_cast e3
    have f4 : py < b + h := by exact_mod_cast e4
    omega
  · rintro ⟨h1, h2, h3, h4⟩
    have e1 : (a : ℚ) ≤ (px : ℚ) := by exact_mod_cast h1
    have e2 : (px : ℚ) + 1 ≤ (a : ℚ) + (w : ℚ) := by
      have : px + 1 ≤ a + w := by omega
      exact_mod_cast this
    have e3 : (b : ℚ) ≤ (py : ℚ) := by exact_mod_cast h3
    have e4 : (py : ℚ) + 1 ≤ (b : ℚ) + (h : ℚ) := by
      have : py + 1 ≤ b + h := by omega
      exact_mod_cast this
    refine ⟨?_, ?_, ?_, ?_⟩ <;> linarith

/-! ## The pixels of a rendered grid -/

theorem setFillStyle_data (c : Canvas) (color : Option String) :
    (c.setFillStyle color).data = c.data := by
  unfold Canvas.setFillStyle
  split <;> rfl

theorem covers_cell (k i j : Nat) (x y : Int) :
    covers ((i : ℚ) * (k : ℚ)) ((j : ℚ) * (k : ℚ)) (k : ℚ) (k : ℚ) x y = true
      ↔ (i : Int) * k ≤ x ∧ x < (i : Int) * k + k ∧ (j : Int) * k ≤ y ∧ y < (j : Int) * k + k := by
  have h := covers_aligned ((i : Int) * k) ((j : Int) * k) (k : Int) (k : Int) x y
  push_cast at h
  exact h

theorem cell_unique (k a b : Nat) (x : Int) (h1 : (a : Int) * k ≤ x) (h2 : x < (a : Int) * k + k)
    (h3 : (b : Int) * k ≤ x) (h4 : x < (b : Int) * k + k) : a = b := by
  rcases lt_trichotomy a b with h | h | h
  · exfalso
    have : ((a : Int) + 1) * k ≤ (b : Int) * k :=
      mul_le_mul_of_nonneg_right (by omega) (by positivity)
    linarith
  · exact h
  · exfalso
    have : ((b : Int) + 1) * k ≤ (a : Int) * k :=
      mul_le_mul_of_nonneg_right (by omega) (by positivity)
    linarith

theorem renderCell_miss (grid : List (List String)) (k j i : Nat) (ctx : Canvas) (x y : Int)
    (h : ¬ ((i : Int) * k ≤ x ∧ x < (i : Int) * k + k ∧ (j : Int) * k ≤ y
      ∧ y < (j : Int) * k + k)) :
    (renderCell grid (k : ℚ) (k : ℚ) j ctx i).data x y = ctx.data x y := by
  unfold renderCell
  simp only
  split
  · have hc : covers ((i : ℚ) * (k : ℚ)) ((j : ℚ) * (k : ℚ)) (k : ℚ) (k : ℚ) x y = false := by
      rw [Bool.eq_false_iff]
      intro hcov
      exact h ((covers_cell k i j x y).mp hcov)
    simp only [Canvas.fillRect, hc, Bool.false_eq_true, if_false, setFillStyle_data]
  · rfl

theorem renderCell_hit (grid : List (List String)) (k j i : Nat) (ctx : Canvas) (x y : Int)
    (h : (i : Int) * k ≤ x ∧ x < (i : Int) * k + k ∧ (j : Int) * k ≤ y ∧ y < (j : Int) * k + k)
    (c : String) (hc : (grid[j]?.bind fun row => row[i]?) = some c)
    (hfmt : c = "transparent" ∨ isHexColor c = true) :
    (renderCell grid (k : ℚ) (k : ℚ) j ctx i).data x y
      = if c = "transparent" then ctx.data x y else cellPixel c := by
  unfold renderCell
  simp only [hc]
  by_cases ht : c = "transparent"
  · simp [ht]
  · have hne : (some c ≠ some "transparent") := by simpa using ht
    rw [if_pos hne, if_neg ht]
    obtain ⟨p, hp, _⟩ := parse_format_roundtrip (hfmt.resolve_left ht)
    have hcov := (covers_cell k i j x y).mpr h
    have hb : (some c).bind parseHexColor = some p := hp
    simp only [Canvas.fillRect, hcov, if_true, Canvas.setFillStyle, hb, hp, cellPixel]

theorem foldl_renderCell_miss (grid : List (List String)) (k j : Nat) (x y : Int)
    (l : List Nat)
    (h : ∀ i ∈ l, ¬ ((i : Int) * k ≤ x ∧ x < (i : Int) * k + k ∧ (j : Int) * k ≤ y
      ∧ y < (j : Int) * k + k)) (ctx : Canvas) :
    (l.foldl (renderCell grid (k : ℚ) (k : ℚ) j) ctx).data x y = ctx.data x y := by
  induction l generalizing ctx with
  | nil => rfl
  | cons i rest ih =>
    rw [List.foldl_cons, ih (fun a ha => h a (by simp [ha])),
      renderCell_miss grid k j i ctx x y (h i (by simp))]

theorem foldl_renderCell_row (grid : List (List String)) (k J I : Nat) (x y : Int)
    (h : (I : Int) * k ≤ x ∧ x < (I : Int) * k + k ∧ (J : Int) * k ≤ y ∧ y < (J : Int) * k + k)
    (c : String) (hc : (grid[J]?.bind fun row => row[I]?) = some c)
    (hfmt : c = "transparent" ∨ isHexColor c = true) (n : Nat) (ctx : Canvas) :
    ((List.range n).foldl (renderCell grid (k : ℚ) (k : ℚ) J) ctx).data x y
      = if I < n ∧ c ≠ "transparent" then cellPixel c else ctx.data x y := by
  induction n with
  | zero => simp
  | succ n ih =>
    rw [List.range_succ, List.foldl_append, List.foldl_cons, List.foldl_nil]
    by_cases hn : n = I
    · subst hn
      rw [renderCell_hit grid k J n _ x y h c hc hfmt, ih]
      by_cases ht : c = "transparent"
      · simp [ht]
      · simp [ht]
    · rw [renderCell_miss grid k J n _ x y
        (fun hh => hn (cell_unique k n I x hh.1 hh.2.1 h.1 h.2.1)), ih]
      have : (I < n + 1) ↔ (I < n) := by omega
      simp only [this]

theorem foldl_rows (grid : List (List String)) (k gw J I : Nat) (hI : I < gw) (x y : Int)
    (h : (I : Int) * k ≤ x ∧ x < (I : Int) * k + k ∧ (J : Int) * k ≤ y ∧ y < (J : Int) * k + k)
    (c : String) (hc : (grid[J]?.bind fun row => row[I]?) = some c)
    (hfmt : c = "transparent" ∨ isHexColor c = true) (m : Nat) (ctx : Canvas) :
    ((List.range m).foldl
        (fun ctx j => (List.range gw).foldl (renderCell grid (k : ℚ) (k : ℚ) j) ctx) ctx).data x y
      = if J < m ∧ c ≠ "transparent" then cellPixel c else ctx.data x y := by
  induction m with
  | zero => simp
  | succ m ih =>
    rw [List.range_succ, List.foldl_append, List.foldl_cons, List.foldl_nil]
    by_cases hm : m = J
    · subst hm
      rw [foldl_renderCell_row grid k m I x y h c hc hfmt gw, ih]
      by_cases ht : c = "transparent"
      · simp [ht]
      · simp [ht, hI]
    · rw [foldl_renderCell_miss grid k m x y (List.range gw)
        (fun i _ hh => hm (cell_unique k m J y hh.2.2.1 hh.2.2.2 h.2.2.1 h.2.2.2)), ih]
      have : (J < m + 1) ↔ (J < m) := by omega
      simp only [this]

theorem cellPixel_transparent : cellPixel "transparent" = ⟨0, 0, 0, 0⟩ := by decide

theorem foldl_renderCell_size (grid : List (List String)) (cw ch : ℚ) (j : Nat) (l : List Nat)
    (ctx : Canvas) :
    (l.foldl (renderCell grid cw ch j) ctx).width = ctx.width ∧
      (l.foldl (renderCell grid cw ch j) ctx).height = ctx.height := by
  induction l generalizing ctx with
  | nil => exact ⟨rfl, rfl⟩
  | cons i rest ih =>
    rw [List.foldl_cons]
    obtain ⟨h1, h2⟩ := ih (renderCell grid cw ch j ctx i)
    rw [h1, h2]
    unfold renderCell Canvas.fillRect Canvas.setFillStyle
    simp only
    split
    · split <;> exact ⟨rfl, rfl⟩
    · exact ⟨rfl, rfl⟩

theorem foldl_rows_size (grid : List (List String)) (cw ch : ℚ) (gw : Nat) (l : List Nat)
    (ctx : Canvas) :
    (l.foldl (fun ctx j => (List.range gw).foldl (renderCell grid cw ch j) ctx) ctx).width
        = ctx.width ∧
      (l.foldl (fun ctx j => (List.range gw).foldl (renderCell grid cw ch j) ctx) ctx).height
        = ctx.height := by
  induction l generalizing ctx with
  | nil => exact ⟨rfl, rfl⟩
  | cons j rest ih =>
    rw [List.foldl_cons]
    obtain ⟨h1, h2⟩ := ih ((List.range gw).foldl (renderCell grid cw ch j) ctx)
    obtain ⟨h3, h4⟩ := foldl_renderCell_size grid cw ch j (List.range gw) ctx
    rw [h1, h2, h3, h4]
    exact ⟨rfl, rfl⟩

theorem renderPixelArt_eq (grid : List (List String)) (gw gh k : Nat) (prior : Canvas)
    (hgw : 0 < gw) (hgh : 0 < gh) (hlen : grid.length = gh)
    (hrows : ∀ row ∈ grid, row.length = gw) :
    renderPixelArt grid prior ((gw * k : Nat) : ℚ) ((gh * k : Nat) : ℚ) =
      some ((List.range gh).foldl
        (fun ctx j => (List.range gw).foldl (renderCell grid (k : ℚ) (k : ℚ) j) ctx)
        (prior.clearRect 0 0 ((gw * k : Nat) : ℚ) ((gh * k : Nat) : ℚ))) := by
  have hgwq : (gw : ℚ) ≠ 0 := by
    have : gw ≠ 0 := by omega
    exact_mod_cast this
  have hghq : (gh : ℚ) ≠ 0 := by
    have : gh ≠ 0 := by omega
    exact_mod_cast this
  cases grid with
  | nil => simp at hlen; omega
  | cons row0 rest =>
    have h0 : row0.length = gw := hrows row0 (by simp)
    have e1 : ((gw * k : Nat) : ℚ) / (gw : ℚ) = (k : ℚ) := by
      push_cast; field_simp
    have e2 : ((gh * k : Nat) : ℚ) / (gh : ℚ) = (k : ℚ) := by
      push_cast; field_simp
    unfold renderPixelArt
    simp only [hlen, h0, e1, e2]

theorem rendered_pixel (grid : List (List String)) (gw gh k : Nat) (prior surface : Canvas)
    (hgw : 0 < gw) (hgh : 0 < gh) (hlen : grid.length = gh)
    (hrows : ∀ row ∈ grid, row.length = gw)
    (hw : prior.width = gw * k) (hh : prior.height = gh * k)
    (hs : renderPixelArt grid prior ((gw * k : Nat) : ℚ) ((gh * k : Nat) : ℚ) = some surface)
    (j i : Nat) (hi : i < gw) (hj : j < gh) (x y : Int)
    (hxy : (i : Int) * k ≤ x ∧ x < (i : Int) * k + k ∧ (j : Int) * k ≤ y
      ∧ y < (j : Int) * k + k)
    (c : String) (hc : (grid[j]?.bind fun row => row[i]?) = some c)
    (hfmt : c = "transparent" ∨ isHexColor c = true) :
    surface.toPixelSource.pixelAt x y = cellPixel c := by
  rw [renderPixelArt_eq grid gw gh k prior hgw hgh hlen hrows] at hs
  simp only [Option.some.injEq] at hs
  have hik : (i : Int) * k + k ≤ ((gw * k : Nat) : Int) := by
    have : (i + 1) * k ≤ gw * k := Nat.mul_le_mul_right k (by omega)
    have h2 : (((i + 1) * k : Nat) : Int) ≤ ((gw * k : Nat) : Int) := by exact_mod_cast this
    push_cast at h2 ⊢
    linarith
  have hjk : (j : Int) * k + k ≤ ((gh * k : Nat) : Int) := by
    have : (j + 1) * k ≤ gh * k := Nat.mul_le_mul_right k (by omega)
    have h2 : (((j + 1) * k : Nat) : Int) ≤ ((gh * k : Nat) : Int) := by exact_mod_cast this
    push_cast at h2 ⊢
    linarith
  have hi0 : (0 : Int) ≤ (i : Int) * k := by positivity
  have hj0 : (0 : Int) ≤ (j : Int) * k := by positivity
  obtain ⟨hx0, hx1, hy0, hy1⟩ := hxy
  have hsize := foldl_rows_size grid (k : ℚ) (k : ℚ) gw (List.range gh)
    (prior.clearRect 0 0 ((gw * k : Nat) : ℚ) ((gh * k : Nat) : ℚ))
  rw [hs] at hsize
  have hinside : 0 ≤ x ∧ x < (surface.width : Int) ∧ 0 ≤ y ∧ y < (surface.height : Int) := by
    rw [hsize.1, hsize.2]
    simp only [Canvas.clearRect, hw, hh]
    omega
  have hclear : (prior.clearRect 0 0 ((gw * k : Nat) : ℚ) ((gh * k : Nat) : ℚ)).data x y
      = ⟨0, 0, 0, 0⟩ := by
    have hcov : covers 0 0 ((gw * k : Nat) : ℚ) ((gh * k : Nat) : ℚ) x y = true := by
      have := (covers_aligned 0 0 ((gw * k : Nat) : Int) ((gh * k : Nat) : Int) x y).mpr
        ⟨by omega, by omega, by omega, by omega⟩
      simpa using this
    simp only [Canvas.clearRect, hcov, if_true]
  have hdata := foldl_rows grid k gw j i hi x y ⟨hx0, hx1, hy0, hy1⟩ c hc hfmt gh
    (prior.clearRect 0 0 ((gw * k : Nat) : ℚ) ((gh * k : Nat) : ℚ))
  rw [hs, hclear] at hdata
  simp only [Canvas.toPixelSource, hinside, and_self, if_true, hdata]
  by_cases ht : c = "transparent"
  · simp [ht, cellPixel_transparent]
  · simp [ht, hj]

theorem getImageData_ne_nil {ctx : PixelSource} {sx sy sw sh : Int} {imgData : List RGBA}
    (h : ctx.getImageData sx sy sw sh = some imgData) : imgData ≠ [] := by
  unfold PixelSource.getImageData at h
  split at h
  · simp at h
  · rename_i hpos
    simp only [Option.some.injEq] at h
    subst h
    have h1 : 0 < sh.toNat := by omega
    have h2 : 0 < sw.toNat := by omega
    obtain ⟨a, ha⟩ := Nat.exists_eq_succ_of_ne_zero (by omega : sh.toNat ≠ 0)
    obtain ⟨b, hb⟩ := Nat.exists_eq_succ_of_ne_zero (by omega : sw.toNat ≠ 0)
    rw [ha, hb]
    simp [List.range_succ_eq_map]

theorem convertCell_rendered (grid : List (List String)) (gw gh k : Nat) (prior surface : Canvas)
    (hk : 0 < k) (hgw : 0 < gw) (hgh : 0 < gh) (hlen : grid.length = gh)
    (hrows : ∀ row ∈ grid, row.length = gw)
    (hw : prior.width = gw * k) (hh : prior.height = gh * k)
    (hs : renderPixelArt grid prior ((gw * k : Nat) : ℚ) ((gh * k : Nat) : ℚ) = some surface)
    (j i : Nat) (hi : i < gw) (hj : j < gh)
    (c : String) (hc : (grid[j]?.bind fun row => row[i]?) = some c)
    (hfmt : c = "transparent" ∨ isHexColor c = true) :
    convertCell surface.toPixelSource ⟨((gw * k : Nat) : Int), ((gh * k : Nat) : Int)⟩
      ⟨gw, gh, Method.average, 0, 0, 1, ((gw * k : Nat) : ℚ), ((gh * k : Nat) : ℚ)⟩ j i
      = some c := by
  unfold convertCell
  simp only
  rw [cellRect_scale_one gw gh k Method.average (by decide) j i hi hj]
  simp only
  have hkz : (0 : Int) < (k : Int) := by exact_mod_cast hk
  rw [if_neg (by omega)]
  obtain ⟨imgData, hdata⟩ := getImageData_eq_some surface.toPixelSource ((i : Int) * k)
    ((j : Int) * k) ((i : Int) * k + k - (i : Int) * k) ((j : Int) * k + k - (j : Int) * k)
    (by omega) (by omega)
  rw [hdata, Option.map_some']
  congr 1
  have hall : ∀ px ∈ imgData, px = cellPixel c := by
    intro px hpx
    obtain ⟨x, y, hx0, hx1, hy0, hy1, rfl⟩ := mem_getImageData hdata hpx
    exact rendered_pixel grid gw gh k prior surface hgw hgh hlen hrows hw hh hs j i hi hj x y
      ⟨hx0, by omega, hy0, by omega⟩ c hc hfmt
  by_cases ht : c = "transparent"
  · rw [ht]
    apply reduceSample_of_no_opaque
    unfold opaquePixels
    rw [List.filter_eq_nil_iff]
    intro px hpx
    rw [hall px hpx, ht, cellPixel_transparent]
    simp
  · obtain ⟨p, hp, hround⟩ := parse_format_roundtrip (hfmt.resolve_left ht)
    rw [← hround]
    apply reduceSample_uniform Method.average p imgData (getImageData_ne_nil hdata)
    intro px hpx
    rw [hall px hpx]
    simp only [cellPixel, hp]
    exact ⟨by decide, rfl⟩

theorem allSome_range_eq {α : Type} (l : List α) (f : Nat → Option α)
    (h : ∀ i, i < l.length → f i = l[i]?) :
    allSome ((List.range l.length).map f) = some l := by
  induction l generalizing f with
  | nil => rfl
  | cons a rest ih =>
    rw [List.length_cons, List.range_succ_eq_map, List.map_cons, List.map_map]
    have h0 : f 0 = some a := by simpa using h 0 (by simp)
    have ih2 := ih (f ∘ Nat.succ) (fun i hi => by
      have := h (i + 1) (by simp; omega)
      simpa using this)
    simp only [allSome, h0, ih2, Option.map_some']

/-- C8: a non-empty rectangular grid of `transparent` and upper-case `#RRGGBB`
cells, rendered with `k ≥ 1` surface pixels per cell on a surface of
`gridWidth·k × gridHeight·k` pixels and converted back with `average`, scale 1,
no offset and the same canvas size, is returned unchanged. -/
theorem render_then_convert (grid : List (List String)) (gw gh k : Nat) (prior : Canvas)
    (hk : 0 < k) (hgw : 0 < gw) (hgh : 0 < gh) (hlen : grid.length = gh)
    (hrows : ∀ row ∈ grid, row.length = gw)
    (hcells : ∀ row ∈ grid, ∀ c ∈ row, c = "transparent" ∨ isHexColor c = true)
    (hw : prior.width = gw * k) (hh : prior.height = gh * k) :
    ∃ surface : Canvas,
      renderPixelArt grid prior ((gw * k : Nat) : ℚ) ((gh * k : Nat) : ℚ) = some surface ∧
      convertImage surface.toPixelSource ⟨((gw * k : Nat) : Int), ((gh * k : Nat) : Int)⟩
        ⟨gw, gh, Method.average, 0, 0, 1, ((gw * k : Nat) : ℚ), ((gh * k : Nat) : ℚ)⟩
        = some grid := by
  refine ⟨_, renderPixelArt_eq grid gw gh k prior hgw hgh hlen hrows, ?_⟩
  have hs := renderPixelArt_eq grid gw gh k prior hgw hgh hlen hrows
  generalize (List.range gh).foldl
    (fun ctx j => (List.range gw).foldl (renderCell grid (k : ℚ) (k : ℚ) j) ctx)
    (prior.clearRect 0 0 ((gw * k : Nat) : ℚ) ((gh * k : Nat) : ℚ)) = surface at hs ⊢
  unfold convertImage
  simp only
  have houter := allSome_range_eq grid
    (fun j => allSome ((List.range gw).map fun i =>
      convertCell surface.toPixelSource ⟨((gw * k : Nat) : Int), ((gh * k : Nat) : Int)⟩
        ⟨gw, gh, Method.average, 0, 0, 1, ((gw * k : Nat) : ℚ), ((gh * k : Nat) : ℚ)⟩ j i))
    (fun j hj => by
      have hrow : (grid[j]).length = gw := hrows _ (List.getElem_mem hj)
      rw [List.getElem?_eq_getElem hj]
      have hinner := allSome_range_eq (grid[j])
        (fun i => convertCell surface.toPixelSource
          ⟨((gw * k : Nat) : Int), ((gh * k : Nat) : Int)⟩
          ⟨gw, gh, Method.average, 0, 0, 1, ((gw * k : Nat) : ℚ), ((gh * k : Nat) : ℚ)⟩ j i)
        (fun i hi => by
          rw [List.getElem?_eq_getElem hi]
          apply convertCell_rendered grid gw gh k prior surface hk hgw hgh hlen hrows hw hh hs
            j i (by omega) (by omega) ((grid[j])[i])
          · simp [List.getElem?_eq_getElem hj, List.getElem?_eq_getElem hi]
          · exact hcells _ (List.getElem_mem hj) _ (List.getElem_mem hi))
      rw [hrow] at hinner
      exact hinner)
  rw [hlen] at houter
  exact houter

theorem render_then_convert_witness :
    ∃ surface : Canvas,
      renderPixelArt [["#FF0000", "transparent"], ["transparent", "#00A0FF"]] (blankCanvas 6 6)
        ((2 * 3 : Nat) : ℚ) ((2 * 3 : Nat) : ℚ) = some surface ∧
      convertImage surface.toPixelSource ⟨((2 * 3 : Nat) : Int), ((2 * 3 : Nat) : Int)⟩
        ⟨2, 2, Method.average, 0, 0, 1, ((2 * 3 : Nat) : ℚ), ((2 * 3 : Nat) : ℚ)⟩
        = some [["#FF0000", "transparent"], ["transparent", "#00A0FF"]] :=
  render_then_convert [["#FF0000", "transparent"], ["transparent", "#00A0FF"]] 2 2 3
    (blankCanvas 6 6) (by decide) (by decide) (by decide) (by decide) (by decide) (by decide)
    rfl rfl

/-! ## The shape of the grid and degenerate images -/

theorem allSome_map_some {α β : Type} (f : α → Option β) (g : α → β) (l : List α)
    (h : ∀ x ∈ l, f x = some (g x)) : allSome (l.map f) = some (l.map g) := by
  induction l with
  | nil => rfl
  | cons x rest ih =>
    simp only [List.map_cons, allSome, h x (by simp), ih (fun z hz => h z (by simp [hz])),
      Option.map_some']

theorem convertCell_eq_some_getD (ctx : PixelSource) (imageDims : ImageDims) (o : Options)
    (j i : Nat) :
    convertCell ctx imageDims o j i
      = some ((convertCell ctx imageDims o j i).getD "transparent") := by
  obtain ⟨c, hc, _⟩ := convertCell_format ctx imageDims o j i
  rw [hc]
  rfl

theorem convertImage_eq (ctx : PixelSource) (imageDims : ImageDims) (o : Options) :
    convertImage ctx imageDims o =
      some ((List.range o.gridHeight).map fun j =>
        (List.range o.gridWidth).map fun i =>
          (convertCell ctx imageDims o j i).getD "transparent") := by
  unfold convertImage
  apply allSome_map_some
  intro j _
  apply allSome_map_some
  intro i _
  exact convertCell_eq_some_getD ctx imageDims o j i

theorem cellRect_bounds (imageDims : ImageDims) (o : Options) (j i : Nat) :
    0 ≤ (cellRect imageDims o j i).x0 ∧ (cellRect imageDims o j i).x1 ≤ imageDims.width ∧
      0 ≤ (cellRect imageDims o j i).y0 ∧ (cellRect imageDims o j i).y1 ≤ imageDims.height := by
  unfold cellRect
  simp only
  split <;> exact ⟨le_max_left _ _, min_le_left _ _, le_max_left _ _, min_le_left _ _⟩

/-- C11: for positive grid dimensions, `convertImage` returns a grid of exactly
`gridHeight` rows of exactly `gridWidth` cells, and its entry `[j][i]` is the
colour computed by the loop body for column `i` and row `j`, whose rectangle
takes its horizontal extent from `i` alone and its vertical extent from `j` alone. -/
theorem convertImage_grid_shape (ctx : PixelSource) (imageDims : ImageDims) (o : Options)
    (_hscale : 0 < o.imageScale) (_hgw : 0 < o.gridWidth) (_hgh : 0 < o.gridHeight) :
    ∃ grid, convertImage ctx imageDims o = some grid ∧ grid.length = o.gridHeight ∧
      (∀ row ∈ grid, row.length = o.gridWidth) ∧
      (∀ j i, j < o.gridHeight → i < o.gridWidth →
        (grid[j]?.bind fun row => row[i]?) = convertCell ctx imageDims o j i) ∧
      (∀ j j2 i, (cellRect imageDims o j i).x0 = (cellRect imageDims o j2 i).x0 ∧
        (cellRect imageDims o j i).x1 = (cellRect imageDims o j2 i).x1) ∧
      (∀ j i i2, (cellRect imageDims o j i).y0 = (cellRect imageDims o j i2).y0 ∧
        (cellRect imageDims o j i).y1 = (cellRect imageDims o j i2).y1) := by
  refine ⟨_, convertImage_eq ctx imageDims o, by simp, ?_, ?_, ?_, ?_⟩
  · intro row hrow
    obtain ⟨j, _, rfl⟩ := List.mem_map.mp hrow
    simp
  · intro j i hj hi
    rw [convertCell_eq_some_getD ctx imageDims o j i]
    simp [hj, hi]
  · intro j j2 i
    unfold cellRect
    simp only
    split <;> exact ⟨rfl, rfl⟩
  · intro j i i2
    unfold cellRect
    simp only
    split <;> exact ⟨rfl, rfl⟩

theorem convertImage_grid_shape_witness :
    ∃ grid, convertImage redBlueImage ⟨2, 2⟩ ⟨2, 2, Method.most, 0, 0, 1, 2, 2⟩ = some grid ∧
      grid.length = 2 ∧ (∀ row ∈ grid, row.length = 2) ∧
      (∀ j i, j < 2 → i < 2 →
        (grid[j]?.bind fun row => row[i]?)
          = convertCell redBlueImage ⟨2, 2⟩ ⟨2, 2, Method.most, 0, 0, 1, 2, 2⟩ j i) ∧
      (∀ j j2 i,
        (cellRect ⟨2, 2⟩ ⟨2, 2, Method.most, 0, 0, 1, 2, 2⟩ j i).x0
            = (cellRect ⟨2, 2⟩ ⟨2, 2, Method.most, 0, 0, 1, 2, 2⟩ j2 i).x0 ∧
          (cellRect ⟨2, 2⟩ ⟨2, 2, Method.most, 0, 0, 1, 2, 2⟩ j i).x1
            = (cellRect ⟨2, 2⟩ ⟨2, 2, Method.most, 0, 0, 1, 2, 2⟩ j2 i).x1) ∧
      (∀ j i i2,
        (cellRect ⟨2, 2⟩ ⟨2, 2, Method.most, 0, 0, 1, 2, 2⟩ j i).y0
            = (cellRect ⟨2, 2⟩ ⟨2, 2, Method.most, 0, 0, 1, 2, 2⟩ j i2).y0 ∧
          (cellRect ⟨2, 2⟩ ⟨2, 2, Method.most, 0, 0, 1, 2, 2⟩ j i).y1
            = (cellRect ⟨2, 2⟩ ⟨2, 2, Method.most, 0, 0, 1, 2, 2⟩ j i2).y1) :=
  convertImage_grid_shape redBlueImage ⟨2, 2⟩ ⟨2, 2, Method.most, 0, 0, 1, 2, 2⟩ (by decide!)
    (by decide) (by decide)

/-- C12: with a positive `imageScale` and positive grid dimensions, an image of
width or height at most `0` makes the guard of every cell true, so no cell reaches
`getImageData`, and `convertImage` returns the grid whose cells are all
`transparent`, whatever the pixel source and the method. -/
theorem convertImage_degenerate (ctx : PixelSource) (imageDims : ImageDims) (o : Options)
    (_hscale : 0 < o.imageScale) (_hgw : 0 < o.gridWidth) (_hgh : 0 < o.gridHeight)
    (hdeg : imageDims.width ≤ 0 ∨ imageDims.height ≤ 0) :
    (∀ j i, (cellRect imageDims o j i).x1 ≤ (cellRect imageDims o j i).x0 ∨
      (cellRect imageDims o j i).y1 ≤ (cellRect imageDims o j i).y0) ∧
    (∀ j i, convertCell ctx imageDims o j i = some "transparent") ∧
    convertImage ctx imageDims o
      = some (List.replicate o.gridHeight (List.replicate o.gridWidth "transparent")) := by
  have hguard : ∀ j i, (cellRect imageDims o j i).x1 ≤ (cellRect imageDims o j i).x0 ∨
      (cellRect imageDims o j i).y1 ≤ (cellRect imageDims o j i).y0 := by
    intro j i
    obtain ⟨h1, h2, h3, h4⟩ := cellRect_bounds imageDims o j i
    rcases hdeg with h | h
    · left; omega
    · right; omega
  have hcell : ∀ j i, convertCell ctx imageDims o j i = some "transparent" := by
    intro j i
    unfold convertCell
    simp only
    rw [if_pos (hguard j i)]
  refine ⟨hguard, hcell, ?_⟩
  rw [convertImage_eq]
  simp only [hcell, Option.getD_some]
  congr 1
  apply List.ext_getElem <;> simp

theorem convertImage_degenerate_witness :
    (∀ j i, (cellRect ⟨0, 5⟩ ⟨2, 1, Method.most_dark, 0, 0, 1, 8, 4⟩ j i).x1
        ≤ (cellRect ⟨0, 5⟩ ⟨2, 1, Method.most_dark, 0, 0, 1, 8, 4⟩ j i).x0 ∨
      (cellRect ⟨0, 5⟩ ⟨2, 1, Method.most_dark, 0, 0, 1, 8, 4⟩ j i).y1
        ≤ (cellRect ⟨0, 5⟩ ⟨2, 1, Method.most_dark, 0, 0, 1, 8, 4⟩ j i).y0) ∧
    (∀ j i, convertCell redBlueImage ⟨0, 5⟩ ⟨2, 1, Method.most_dark, 0, 0, 1, 8, 4⟩ j i
      = some "transparent") ∧
    convertImage redBlueImage ⟨0, 5⟩ ⟨2, 1, Method.most_dark, 0, 0, 1, 8, 4⟩
      = some (List.replicate 1 (List.replicate 2 "transparent")) :=
  convertImage_degenerate redBlueImage ⟨0, 5⟩ ⟨2, 1, Method.most_dark, 0, 0, 1, 8, 4⟩
    (by decide!) (by decide) (by decide) (Or.inl (by decide))

/-- C18: whenever the guard of a cell is false, so that `convertImage` calls
`getImageData` for it, the rectangle satisfies `0 ≤ x0 < x1 ≤ width` and
`0 ≤ y0 < y1 ≤ height`, the call succeeds, and every pixel it returns lies
inside the image. -/
theorem sampled_rect_in_image (ctx : PixelSource) (imageDims : ImageDims) (o : Options)
    (j i : Nat) (_hscale : 0 < o.imageScale)
    (hsample : ¬ ((cellRect imageDims o j i).x1 ≤ (cellRect imageDims o j i).x0 ∨
      (cellRect imageDims o j i).y1 ≤ (cellRect imageDims o j i).y0)) :
    (0 ≤ (cellRect imageDims o j i).x0 ∧
      (cellRect imageDims o j i).x0 < (cellRect imageDims o j i).x1 ∧
      (cellRect imageDims o j i).x1 ≤ imageDims.width) ∧
    (0 ≤ (cellRect imageDims o j i).y0 ∧
      (cellRect imageDims o j i).y0 < (cellRect imageDims o j i).y1 ∧
      (cellRect imageDims o j i).y1 ≤ imageDims.height) ∧
    ∃ imgData,
      ctx.getImageData (cellRect imageDims o j i).x0 (cellRect imageDims o j i).y0
        ((cellRect imageDims o j i).x1 - (cellRect imageDims o j i).x0)
        ((cellRect imageDims o j i).y1 - (cellRect imageDims o j i).y0) = some imgData ∧
      imgData ≠ [] ∧
      ∀ px ∈ imgData, ∃ x y : Int, 0 ≤ x ∧ x < imageDims.width ∧ 0 ≤ y ∧ y < imageDims.height ∧
        px = ctx.pixelAt x y := by
  obtain ⟨h1, h2, h3, h4⟩ := cellRect_bounds imageDims o j i
  obtain ⟨imgData, hdata⟩ := getImageData_eq_some ctx (cellRect imageDims o j i).x0
    (cellRect imageDims o j i).y0
    ((cellRect imageDims o j i).x1 - (cellRect imageDims o j i).x0)
    ((cellRect imageDims o j i).y1 - (cellRect imageDims o j i).y0) (by omega) (by omega)
  refine ⟨⟨h1, by omega, h2⟩, ⟨h3, by omega, h4⟩, imgData, hdata, getImageData_ne_nil hdata, ?_⟩
  intro px hpx
  obtain ⟨x, y, hx0, hx1, hy0, hy1, rfl⟩ := mem_getImageData hdata hpx
  exact ⟨x, y, by omega, by omega, by omega, by omega, rfl⟩

theorem sampled_rect_in_image_witness :
    (0 ≤ (cellRect ⟨2, 2⟩ ⟨1, 2, Method.neighbor, 0, 0, 1, 2, 2⟩ 1 0).x0 ∧
      (cellRect ⟨2, 2⟩ ⟨1, 2, Method.neighbor, 0, 0, 1, 2, 2⟩ 1 0).x0
        < (cellRect ⟨2, 2⟩ ⟨1, 2, Method.neighbor, 0, 0, 1, 2, 2⟩ 1 0).x1 ∧
      (cellRect ⟨2, 2⟩ ⟨1, 2, Method.neighbor, 0, 0, 1, 2, 2⟩ 1 0).x1 ≤ 2) ∧
    (0 ≤ (cellRect ⟨2, 2⟩ ⟨1, 2, Method.neighbor, 0, 0, 1, 2, 2⟩ 1 0).y0 ∧
      (cellRect ⟨2, 2⟩ ⟨1, 2, Method.neighbor, 0, 0, 1, 2, 2⟩ 1 0).y0
        < (cellRect ⟨2, 2⟩ ⟨1, 2, Method.neighbor, 0, 0, 1, 2, 2⟩ 1 0).y1 ∧
      (cellRect ⟨2, 2⟩ ⟨1, 2, Method.neighbor, 0, 0, 1, 2, 2⟩ 1 0).y1 ≤ 2) :=
  ⟨(sampled_rect_in_image redBlueImage ⟨2, 2⟩ ⟨1, 2, Method.neighbor, 0, 0, 1, 2, 2⟩ 1 0
      (by decide!) (by decide!)).1,
    (sampled_rect_in_image redBlueImage ⟨2, 2⟩ ⟨1, 2, Method.neighbor, 0, 0, 1, 2, 2⟩ 1 0
      (by decide!) (by decide!)).2.1⟩

/-! ## Independence of cells, and of the value of alpha -/

theorem sampleStep_alphaEquiv (method : Method) (acc : Sample) {p q : RGBA}
    (h : alphaEquiv p q) : sampleStep method acc p = sampleStep method acc q := by
  obtain ⟨h1, h2⟩ := h
  unfold sampleStep
  by_cases hp : p.a = 0
  · rw [if_pos hp, if_pos (h1.mp hp)]
  · have hq : ¬ q.a = 0 := fun hq => hp (h1.mpr hq)
    obtain ⟨e1, e2, e3⟩ := h2 hp
    rw [if_neg hp, if_neg hq, e1, e2, e3]

theorem foldl_sampleStep_map_congr {ι : Type} (method : Method) (L : List ι) (f g : ι → RGBA)
    (h : ∀ d ∈ L, alphaEquiv (f d) (g d)) (acc : Sample) :
    (L.map f).foldl (sampleStep method) acc = (L.map g).foldl (sampleStep method) acc := by
  induction L generalizing acc with
  | nil => rfl
  | cons d rest ih =>
    simp only [List.map_cons, List.foldl_cons]
    rw [sampleStep_alphaEquiv method acc (h d (by simp)), ih (fun x hx => h x (by simp [hx]))]

theorem mem_rectCoords {w h : Nat} {d : Nat × Nat} (hd : d ∈ rectCoords w h) :
    d.1 < w ∧ d.2 < h := by
  unfold rectCoords at hd
  simp only [List.mem_flatMap, List.mem_map, List.mem_range] at hd
  obtain ⟨dy, hdy, dx, hdx, rfl⟩ := hd
  exact ⟨hdx, hdy⟩

theorem getImageData_eq_map (ctx : PixelSource) (sx sy sw sh : Int) :
    ctx.getImageData sx sy sw sh =
      if sw ≤ 0 ∨ sh ≤ 0 then none
      else some ((rectCoords sw.toNat sh.toNat).map fun d =>
        ctx.pixelAt (sx + (d.1 : Int)) (sy + (d.2 : Int))) := by
  unfold PixelSource.getImageData rectCoords
  split
  · rfl
  · simp [List.map_flatMap, List.map_map, Function.comp_def]

theorem convertCell_congr (ctx1 ctx2 : PixelSource) (imageDims : ImageDims) (o : Options)
    (j i : Nat)
    (h : ∀ x y : Int, (cellRect imageDims o j i).x0 ≤ x → x < (cellRect imageDims o j i).x1 →
      (cellRect imageDims o j i).y0 ≤ y → y < (cellRect imageDims o j i).y1 →
      alphaEquiv (ctx1.pixelAt x y) (ctx2.pixelAt x y)) :
    convertCell ctx1 imageDims o j i = convertCell ctx2 imageDims o j i := by
  unfold convertCell
  simp only
  split
  · rfl
  · rename_i hrect
    rw [getImageData_eq_map, getImageData_eq_map, if_neg (by omega), if_neg (by omega)]
    simp only [Option.map_some', Option.some.injEq]
    congr 1
    unfold samplePixels
    apply foldl_sampleStep_map_congr
    intro d hd
    obtain ⟨h1, h2⟩ := mem_rectCoords hd
    apply h <;> omega

theorem alphaEquiv_refl (p : RGBA) : alphaEquiv p p := ⟨Iff.rfl, fun _ => ⟨rfl, rfl, rfl⟩⟩

/-- C15: two pixel sources that differ only in the colour values of pixels with
alpha `0` and in the value of non-zero alphas give the same grid, for every
method. -/
theorem convertImage_alpha_only (ctx1 ctx2 : PixelSource) (imageDims : ImageDims) (o : Options)
    (_hscale : 0 < o.imageScale)
    (h : ∀ x y : Int,
      ((ctx1.pixelAt x y).a = 0 ↔ (ctx2.pixelAt x y).a = 0) ∧
      ((ctx1.pixelAt x y).a ≠ 0 →
        (ctx1.pixelAt x y).r = (ctx2.pixelAt x y).r ∧ (ctx1.pixelAt x y).g = (ctx2.pixelAt x y).g
          ∧ (ctx1.pixelAt x y).b = (ctx2.pixelAt x y).b)) :
    convertImage ctx1 imageDims o = convertImage ctx2 imageDims o := by
  have hc : ∀ j i, convertCell ctx1 imageDims o j i = convertCell ctx2 imageDims o j i :=
    fun j i => convertCell_congr ctx1 ctx2 imageDims o j i (fun x y _ _ _ _ => h x y)
  rw [convertImage_eq, convertImage_eq]
  simp only [hc]

theorem convertImage_alpha_only_witness :
    convertImage redBlueImage ⟨2, 2⟩ ⟨1, 2, Method.most_light, 0, 0, 1, 2, 2⟩
      = convertImage redBlueFaint ⟨2, 2⟩ ⟨1, 2, Method.most_light, 0, 0, 1, 2, 2⟩ :=
  convertImage_alpha_only redBlueImage redBlueFaint ⟨2, 2⟩
    ⟨1, 2, Method.most_light, 0, 0, 1, 2, 2⟩ (by decide!)
    (fun x y => by
      simp only [redBlueImage, redBlueFaint]
      split_ifs <;> decide)

/-- C17: two pixel sources that agree on every pixel of the sampling rectangle
of a cell give that cell the same colour, for every method and whatever they
hold outside the rectangle. -/
theorem convertCell_independent (ctx1 ctx2 : PixelSource) (imageDims : ImageDims) (o : Options)
    (j i : Nat) (_hscale : 0 < o.imageScale)
    (h : ∀ x y : Int, (cellRect imageDims o j i).x0 ≤ x → x < (cellRect imageDims o j i).x1 →
      (cellRect imageDims o j i).y0 ≤ y → y < (cellRect imageDims o j i).y1 →
      ctx1.pixelAt x y = ctx2.pixelAt x y) :
    convertCell ctx1 imageDims o j i = convertCell ctx2 imageDims o j i :=
  convertCell_congr ctx1 ctx2 imageDims o j i
    (fun x y h1 h2 h3 h4 => by rw [h x y h1 h2 h3 h4]; exact alphaEquiv_refl _)

theorem convertCell_independent_witness :
    convertCell redBlueImage ⟨2, 2⟩ ⟨1, 2, Method.neighbor, 0, 0, 1, 2, 2⟩ 1 0
      = convertCell redBlueOnWhite ⟨2, 2⟩ ⟨1, 2, Method.neighbor, 0, 0, 1, 2, 2⟩ 1 0 :=
  convertCell_independent redBlueImage redBlueOnWhite ⟨2, 2⟩
    ⟨1, 2, Method.neighbor, 0, 0, 1, 2, 2⟩ 1 0 (by decide!)
    (fun x y h1 h2 h3 h4 => by
      have hr : cellRect ⟨2, 2⟩ ⟨1, 2, Method.neighbor, 0, 0, 1, 2, 2⟩ 1 0 = ⟨0, 0, 2, 2⟩ := by
        decide!
      rw [hr] at h1 h2 h3 h4
      simp only at h1 h2 h3 h4
      have hin : 0 ≤ x ∧ x < 2 ∧ 0 ≤ y ∧ y < 2 := ⟨h1, h2, h3, h4⟩
      simp only [redBlueImage, redBlueOnWhite]
      rw [if_pos hin, if_pos hin])

/-! ## The renderer and the pixels under transparent cells -/

theorem cell_unique_rat (cw : ℚ) (hcw : 0 < cw) (a b : Nat) (c : ℚ)
    (h1 : (a : ℚ) * cw ≤ c) (h2 : c < (a : ℚ) * cw + cw)
    (h3 : (b : ℚ) * cw ≤ c) (h4 : c < (b : ℚ) * cw + cw) : a = b := by
  rcases lt_trichotomy a b with h | h | h
  · exfalso
    have hab : ((a : ℚ) + 1) ≤ (b : ℚ) := by exact_mod_cast h
    have := mul_le_mul_of_nonneg_right hab hcw.le
    linarith
  · exact h
  · exfalso
    have hab : ((b : ℚ) + 1) ≤ (a : ℚ) := by exact_mod_cast h
    have := mul_le_mul_of_nonneg_right hab hcw.le
    linarith

theorem covers_iff (x y w h : ℚ) (px py : Int) :
    covers x y w h px py = true ↔
      x ≤ (px : ℚ) + 1 / 2 ∧ (px : ℚ) + 1 / 2 < x + w
        ∧ y ≤ (py : ℚ) + 1 / 2 ∧ (py : ℚ) + 1 / 2 < y + h := by
  unfold covers
  simp only [decide_eq_true_eq]

theorem renderCell_keeps (grid : List (List String)) (cw ch : ℚ) (J I : Nat) (x y : Int)
    (hcell : (grid[J]?.bind fun row => row[I]?) = some "transparent")
    (hcov : covers ((I : ℚ) * cw) ((J : ℚ) * ch) cw ch x y = true)
    (j i : Nat) (ctx : Canvas) :
    (renderCell grid cw ch j ctx i).data x y = ctx.data x y := by
  obtain ⟨c1, c2, c3, c4⟩ := (covers_iff _ _ _ _ _ _).mp hcov
  have hcw : 0 < cw := by linarith
  have hch : 0 < ch := by linarith
  unfold renderCell
  simp only
  split
  · rename_i hne
    have hmiss : covers ((i : ℚ) * cw) ((j : ℚ) * ch) cw ch x y = false := by
      rw [Bool.eq_false_iff]
      intro hc
      obtain ⟨d1, d2, d3, d4⟩ := (covers_iff _ _ _ _ _ _).mp hc
      have hi : i = I := cell_unique_rat cw hcw i I _ d1 d2 c1 c2
      have hj : j = J := cell_unique_rat ch hch j J _ d3 d4 c3 c4
      subst hi hj
      exact hne hcell
    simp only [Canvas.fillRect, hmiss, Bool.false_eq_true, if_false, setFillStyle_data]
  · rfl

theorem foldl_renderCell_keeps (grid : List (List String)) (cw ch : ℚ) (J I : Nat) (x y : Int)
    (hcell : (grid[J]?.bind fun row => row[I]?) = some "transparent")
    (hcov : covers ((I : ℚ) * cw) ((J : ℚ) * ch) cw ch x y = true)
    (j : Nat) (l : List Nat) (ctx : Canvas) :
    (l.foldl (renderCell grid cw ch j) ctx).data x y = ctx.data x y := by
  induction l generalizing ctx with
  | nil => rfl
  | cons i rest ih =>
    rw [List.foldl_cons, ih, renderCell_keeps grid cw ch J I x y hcell hcov]

theorem foldl_rows_keeps (grid : List (List String)) (cw ch : ℚ) (J I : Nat) (x y : Int)
    (hcell : (grid[J]?.bind fun row => row[I]?) = some "transparent")
    (hcov : covers ((I : ℚ) * cw) ((J : ℚ) * ch) cw ch x y = true)
    (gw : Nat) (l : List Nat) (ctx : Canvas) :
    (l.foldl (fun ctx j => (List.range gw).foldl (renderCell grid cw ch j) ctx) ctx).data x y
      = ctx.data x y := by
  induction l generalizing ctx with
  | nil => rfl
  | cons j rest ih =>
    rw [List.foldl_cons, ih, foldl_renderCell_keeps grid cw ch J I x y hcell hcov]

theorem renderPixelArt_under_transparent (grid : List (List String)) (prior : Canvas)
    (width height : ℚ) (J I : Nat) (x y : Int)
    (hcell : (grid[J]?.bind fun row => row[I]?) = some "transparent")
    (hI : I < (grid.headD []).length)
    (hcov : covers ((I : ℚ) * (width / ((grid.headD []).length : ℚ)))
      ((J : ℚ) * (height / (grid.length : ℚ))) (width / ((grid.headD []).length : ℚ))
      (height / (grid.length : ℚ)) x y = true) :
    ∃ surface, renderPixelArt grid prior width height = some surface ∧
      surface.data x y = (prior.clearRect 0 0 width height).data x y ∧
      surface.data x y = ⟨0, 0, 0, 0⟩ := by
  cases grid with
  | nil => simp at hcell
  | cons row0 rest =>
    simp only [List.headD_cons] at hI hcov
    have hJ : J < (row0 :: rest).length := by
      by_contra hge
      rw [List.getElem?_eq_none (by omega)] at hcell
      simp at hcell
    obtain ⟨c1, c2, c3, c4⟩ := (covers_iff _ _ _ _ _ _).mp hcov
    have hgw : (0 : ℚ) < (row0.length : ℚ) := by
      have : 0 < row0.length := by omega
      exact_mod_cast this
    have hgh : (0 : ℚ) < ((row0 :: rest).length : ℚ) := by
      have : 0 < (row0 :: rest).length := by omega
      exact_mod_cast this
    have hcw : 0 < width / (row0.length : ℚ) := by linarith
    have hch : 0 < height / ((row0 :: rest).length : ℚ) := by linarith
    have hI2 : ((I : ℚ) + 1) ≤ (row0.length : ℚ) := by exact_mod_cast hI
    have hJ2 : ((J : ℚ) + 1) ≤ ((row0 :: rest).length : ℚ) := by exact_mod_cast hJ
    have hwidth : ((I : ℚ) + 1) * (width / (row0.length : ℚ)) ≤ width := by
      have := mul_le_mul_of_nonneg_right hI2 hcw.le
      rwa [mul_div_cancel₀ _ hgw.ne'] at this
    have hheight : ((J : ℚ) + 1) * (height / ((row0 :: rest).length : ℚ)) ≤ height := by
      have := mul_le_mul_of_nonneg_right hJ2 hch.le
      rwa [mul_div_cancel₀ _ hgh.ne'] at this
    have hI0 : (0 : ℚ) ≤ (I : ℚ) * (width / (row0.length : ℚ)) :=
      mul_nonneg (Nat.cast_nonneg _) hcw.le
    have hJ0 : (0 : ℚ) ≤ (J : ℚ) * (height / ((row0 :: rest).length : ℚ)) :=
      mul_nonneg (Nat.cast_nonneg _) hch.le
    have hclear : covers 0 0 width height x y = true := by
      rw [covers_iff]
      refine ⟨?_, ?_, ?_, ?_⟩ <;> linarith
    refine ⟨_, rfl, ?_, ?_⟩
    · exact foldl_rows_keeps (row0 :: rest) _ _ J I x y hcell hcov _ _ _
    · rw [foldl_rows_keeps (row0 :: rest) _ _ J I x y hcell hcov]
      simp only [Canvas.clearRect, hclear, if_true]

/-- C13, as the code has it: `renderPixelArt` clears the rectangle
`(0, 0, width, height)` and then fills the cells that are not `transparent`; a
surface pixel lying under a `transparent` cell is touched by no fill and holds
transparent black after the render, whatever the surface held before. -/
theorem renderPixelArt_clears_transparent_cells (grid : List (List String)) (prior : Canvas)
    (width height : ℚ) (J I : Nat) (x y : Int)
    (hcell : (grid[J]?.bind fun row => row[I]?) = some "transparent")
    (hI : I < (grid.headD []).length)
    (hcov : covers ((I : ℚ) * (width / ((grid.headD []).length : ℚ)))
      ((J : ℚ) * (height / (grid.length : ℚ))) (width / ((grid.headD []).length : ℚ))
      (height / (grid.length : ℚ)) x y = true) :
    ∃ surface, renderPixelArt grid prior width height = some surface ∧
      surface.data x y = (prior.clearRect 0 0 width height).data x y ∧
      surface.data x y = ⟨0, 0, 0, 0⟩ :=
  renderPixelArt_under_transparent grid prior width height J I x y hcell hI hcov

theorem renderPixelArt_clears_transparent_cells_witness :
    ∃ surface, renderPixelArt [["#00FF00", "transparent"]] redCanvas 4 2 = some surface ∧
      surface.data 3 1 = (redCanvas.clearRect 0 0 4 2).data 3 1 ∧
      surface.data 3 1 = ⟨0, 0, 0, 0⟩ :=
  renderPixelArt_clears_transparent_cells [["#00FF00", "transparent"]] redCanvas 4 2 0 1 3 1
    (by decide) (by decide) (by decide!)

/-- C13, as the claim has it, fails: on a one-pixel surface that holds opaque
red, rendering the grid of one `transparent` cell leaves transparent black under
that cell, not the red that was there before. -/
theorem renderPixelArt_clears_counterexample :
    ∃ surface, renderPixelArt [["transparent"]] redCanvas 1 1 = some surface ∧
      ([["transparent"]][0]?.bind fun row => row[0]?) = some "transparent" ∧
      covers 0 0 1 1 0 0 = true ∧
      redCanvas.data 0 0 = ⟨255, 0, 0, 255⟩ ∧
      surface.data 0 0 = ⟨0, 0, 0, 0⟩ ∧
      surface.data 0 0 ≠ redCanvas.data 0 0 :=
  ⟨_, rfl, by decide, by decide!, rfl, by decide!, by decide!⟩

/-! ## The downscale policy -/

theorem downscale_bounds (w h : ℚ) (hw : 1 ≤ w) (hh : 1 ≤ h) :
    (jsRound (w * min (1024 / w) (1024 / h)) ≤ 1024 ∧
      jsRound (h * min (1024 / w) (1024 / h)) ≤ 1024) ∧
    (h ≤ w → jsRound (w * min (1024 / w) (1024 / h)) = 1024) ∧
    (w ≤ h → jsRound (h * min (1024 / w) (1024 / h)) = 1024) := by
  have hw0 : 0 < w := by linarith
  have hh0 : 0 < h := by linarith
  have hmin0 : 0 ≤ min (1024 / w) (1024 / h) := le_min (by positivity) (by positivity)
  have e1 : w * min (1024 / w) (1024 / h) ≤ ((1024 : Int) : ℚ) := by
    calc w * min (1024 / w) (1024 / h) ≤ w * (1024 / w) :=
          mul_le_mul_of_nonneg_left (min_le_left _ _) hw0.le
      _ = ((1024 : Int) : ℚ) := by field_simp
  have e2 : h * min (1024 / w) (1024 / h) ≤ ((1024 : Int) : ℚ) := by
    calc h * min (1024 / w) (1024 / h) ≤ h * (1024 / h) :=
          mul_le_mul_of_nonneg_left (min_le_right _ _) hh0.le
      _ = ((1024 : Int) : ℚ) := by field_simp
  have z1 : ((0 : Int) : ℚ) ≤ w * min (1024 / w) (1024 / h) := by
    simpa using mul_nonneg hw0.le hmin0
  have z2 : ((0 : Int) : ℚ) ≤ h * min (1024 / w) (1024 / h) := by
    simpa using mul_nonneg hh0.le hmin0
  refine ⟨⟨(jsRound_bounds z1 e1).2, (jsRound_bounds z2 e2).2⟩, ?_, ?_⟩
  · intro hle
    have hm : min (1024 / w) (1024 / h) = 1024 / w :=
      min_eq_left (div_le_div_of_nonneg_left (by norm_num) hh0 hle)
    have : w * min (1024 / w) (1024 / h) = ((1024 : Int) : ℚ) := by
      rw [hm]; field_simp
    rw [this, jsRound_intCast]
  · intro hle
    have hm : min (1024 / w) (1024 / h) = 1024 / h :=
      min_eq_right (div_le_div_of_nonneg_left (by norm_num) hw0 hle)
    have : h * min (1024 / w) (1024 / h) = ((1024 : Int) : ℚ) := by
      rw [hm]; field_simp
    rw [this, jsRound_intCast]

theorem processImageTargetSize_spec (w h : Nat) (hw : 1 ≤ w) (hh : 1 ≤ h) :
    (w ≤ 1024 ∧ h ≤ 1024 → processImageTargetSize w h = ((w : Int), (h : Int))) ∧
    (¬ (w ≤ 1024 ∧ h ≤ 1024) →
      (processImageTargetSize w h).1 ≤ 1024 ∧ (processImageTargetSize w h).2 ≤ 1024 ∧
      (h ≤ w → (processImageTargetSize w h).1 = 1024) ∧
      (w ≤ h → (processImageTargetSize w h).2 = 1024)) := by
  have hwq : (1 : ℚ) ≤ (w : ℚ) := by exact_mod_cast hw
  have hhq : (1 : ℚ) ≤ (h : ℚ) := by exact_mod_cast hh
  obtain ⟨⟨b1, b2⟩, b3, b4⟩ := downscale_bounds (w : ℚ) (h : ℚ) hwq hhq
  constructor
  · rintro ⟨h1, h2⟩
    have q1 : ¬ ((w : ℚ) > 1024) := by
      have : (w : ℚ) ≤ 1024 := by exact_mod_cast h1
      linarith
    have q2 : ¬ ((h : ℚ) > 1024) := by
      have : (h : ℚ) ≤ 1024 := by exact_mod_cast h2
      linarith
    simp only [processImageTargetSize, q1, q2, or_self, if_false]
  · intro hbig
    have q : (w : ℚ) > 1024 ∨ (h : ℚ) > 1024 := by
      by_cases h1 : w ≤ 1024
      · right
        have : 1024 < h := by omega
        exact_mod_cast this
      · left
        have : 1024 < w := by omega
        exact_mod_cast this
    simp only [processImageTargetSize, q, if_true]
    exact ⟨b1, b2, fun hle => b3 (by exact_mod_cast hle), fun hle => b4 (by exact_mod_cast hle)⟩

theorem loadAndDownscaleImageSize_eq (w h : Nat) :
    loadAndDownscaleImageSize w h = processImageTargetSize w h := rfl

/-- C20: for an original image of width and height at least 1, both callers keep
the size when both dimensions are at most 1024, and otherwise compute a size with
both dimensions at most 1024 in which the dimension that was the larger one is
exactly 1024. -/
theorem downscale_policy (w h : Nat) (hw : 1 ≤ w) (hh : 1 ≤ h) :
    ((w ≤ 1024 ∧ h ≤ 1024 → processImageTargetSize w h = ((w : Int), (h : Int))) ∧
      (¬ (w ≤ 1024 ∧ h ≤ 1024) →
        (processImageTargetSize w h).1 ≤ 1024 ∧ (processImageTargetSize w h).2 ≤ 1024 ∧
        (h ≤ w → (processImageTargetSize w h).1 = 1024) ∧
        (w ≤ h → (processImageTargetSize w h).2 = 1024))) ∧
    ((w ≤ 1024 ∧ h ≤ 1024 → loadAndDownscaleImageSize w h = ((w : Int), (h : Int))) ∧
      (¬ (w ≤ 1024 ∧ h ≤ 1024) →
        (loadAndDownscaleImageSize w h).1 ≤ 1024 ∧ (loadAndDownscaleImageSize w h).2 ≤ 1024 ∧
        (h ≤ w → (loadAndDownscaleImageSize w h).1 = 1024) ∧
        (w ≤ h → (loadAndDownscaleImageSize w h).2 = 1024))) := by
  refine ⟨processImageTargetSize_spec w h hw hh, ?_⟩
  rw [loadAndDownscaleImageSize_eq]
  exact processImageTargetSize_spec w h hw hh

theorem downscale_policy_witness :
    (processImageTargetSize 4000 3000).1 = 1024 ∧ (processImageTargetSize 4000 3000).2 ≤ 1024 ∧
      loadAndDownscaleImageSize 640 480 = (640, 480) :=
  ⟨((downscale_policy 4000 3000 (by decide) (by decide)).1.2 (by decide)).2.2.1 (by decide),
    ((downscale_policy 4000 3000 (by decide) (by decide)).1.2 (by decide)).2.1,
    (downscale_policy 640 480 (by decide) (by decide)).2.1 (by decide)⟩

theorem downscale_example : processImageTargetSize 4000 3000 = (1024, 768) := by decide!

/-! ## The expanded rectangle of method `neighbor` -/

theorem cellRect_neighbor (imageDims : ImageDims) (o : Options) (j i : Nat)
    (hm : o.method = Method.neighbor) :
    cellRect imageDims o j i =
      ⟨max 0 ⌊((i : ℚ) * (o.canvasWidth / (o.gridWidth : ℚ))
          - o.canvasWidth / (o.gridWidth : ℚ) * 0.25 - o.offsetX) / o.imageScale⌋,
       max 0 ⌊((j : ℚ) * (o.canvasHeight / (o.gridHeight : ℚ))
          - o.canvasHeight / (o.gridHeight : ℚ) * 0.25 - o.offsetY) / o.imageScale⌋,
       min imageDims.width ⌈((i : ℚ) * (o.canvasWidth / (o.gridWidth : ℚ))
          + o.canvasWidth / (o.gridWidth : ℚ)
          + o.canvasWidth / (o.gridWidth : ℚ) * 0.25 - o.offsetX) / o.imageScale⌉,
       min imageDims.height ⌈((j : ℚ) * (o.canvasHeight / (o.gridHeight : ℚ))
          + o.canvasHeight / (o.gridHeight : ℚ)
          + o.canvasHeight / (o.gridHeight : ℚ) * 0.25 - o.offsetY) / o.imageScale⌉⟩ := by
  unfold cellRect
  simp only [hm, if_true]
  congr 3 <;> ring

theorem cellRect_plain (imageDims : ImageDims) (o : Options) (j i : Nat)
    (hm : o.method ≠ Method.neighbor) :
    cellRect imageDims o j i =
      ⟨max 0 ⌊((i : ℚ) * (o.canvasWidth / (o.gridWidth : ℚ)) - o.offsetX) / o.imageScale⌋,
       max 0 ⌊((j : ℚ) * (o.canvasHeight / (o.gridHeight : ℚ)) - o.offsetY) / o.imageScale⌋,
       min imageDims.width ⌈((i : ℚ) * (o.canvasWidth / (o.gridWidth : ℚ))
          + o.canvasWidth / (o.gridWidth : ℚ) - o.offsetX) / o.imageScale⌉,
       min imageDims.height ⌈((j : ℚ) * (o.canvasHeight / (o.gridHeight : ℚ))
          + o.canvasHeight / (o.gridHeight : ℚ) - o.offsetY) / o.imageScale⌉⟩ := by
  unfold cellRect
  simp only [hm, if_false]

theorem neighbor_contains_plain (imageDims : ImageDims) (o : Options) (j i : Nat)
    (hscale : 0 < o.imageScale) (hcw : 0 ≤ o.canvasWidth) (hch : 0 ≤ o.canvasHeight) :
    (cellRect imageDims { o with method := Method.neighbor } j i).x0
        ≤ (cellRect imageDims { o with method := Method.average } j i).x0 ∧
      (cellRect imageDims { o with method := Method.neighbor } j i).y0
        ≤ (cellRect imageDims { o with method := Method.average } j i).y0 ∧
      (cellRect imageDims { o with method := Method.average } j i).x1
        ≤ (cellRect imageDims { o with method := Method.neighbor } j i).x1 ∧
      (cellRect imageDims { o with method := Method.average } j i).y1
        ≤ (cellRect imageDims { o with method := Method.neighbor } j i).y1 := by
  have hw : 0 ≤ o.canvasWidth / (o.gridWidth : ℚ) * 0.25 :=
    mul_nonneg (div_nonneg hcw (Nat.cast_nonneg _)) (by norm_num)
  have hh : 0 ≤ o.canvasHeight / (o.gridHeight : ℚ) * 0.25 :=
    mul_nonneg (div_nonneg hch (Nat.cast_nonneg _)) (by norm_num)
  rw [cellRect_neighbor imageDims { o with method := Method.neighbor } j i rfl,
    cellRect_plain imageDims { o with method := Method.average } j i (by simp)]
  simp only
  refine ⟨max_le_max le_rfl (Int.floor_le_floor ?_),
    max_le_max le_rfl (Int.floor_le_floor ?_),
    min_le_min le_rfl (Int.ceil_le_ceil ?_), min_le_min le_rfl (Int.ceil_le_ceil ?_)⟩
  · exact div_le_div_of_nonneg_right (by linarith) hscale.le
  · exact div_le_div_of_nonneg_right (by linarith) hscale.le
  · exact div_le_div_of_nonneg_right (by linarith) hscale.le
  · exact div_le_div_of_nonneg_right (by linarith) hscale.le

theorem neighbor_rect_example :
    cellRect ⟨8, 8⟩ ⟨2, 2, Method.neighbor, 0, 0, 1, 8, 8⟩ 1 1 = ⟨3, 3, 8, 8⟩ ∧
      cellRect ⟨8, 8⟩ ⟨2, 2, Method.average, 0, 0, 1, 8, 8⟩ 1 1 = ⟨4, 4, 8, 8⟩ := by
  decide!

/-- C19, as the claim has it, fails for a negative canvas width: with
`imageScale = 1`, `canvasWidth = -7/8`, `gridWidth = 1` and `offsetX = -95/16`
the single cell samples `[5, 6) × [0, 1)` under `average` but has the empty
rectangle `x0 = 6, x1 = 5` under `neighbor`, so that on an opaque white image the
cell is `#FFFFFF` under `average` and `transparent` under `neighbor`. -/
theorem neighbor_rect_counterexample :
    (0 : ℚ) < 1 ∧
    cellRect ⟨10, 10⟩ ⟨1, 1, Method.average, -95 / 16, 0, 1, -7 / 8, 1⟩ 0 0 = ⟨5, 0, 6, 1⟩ ∧
    cellRect ⟨10, 10⟩ ⟨1, 1, Method.neighbor, -95 / 16, 0, 1, -7 / 8, 1⟩ 0 0 = ⟨6, 0, 5, 2⟩ ∧
    ¬ ((cellRect ⟨10, 10⟩ ⟨1, 1, Method.neighbor, -95 / 16, 0, 1, -7 / 8, 1⟩ 0 0).x0
        ≤ (cellRect ⟨10, 10⟩ ⟨1, 1, Method.average, -95 / 16, 0, 1, -7 / 8, 1⟩ 0 0).x0 ∧
      (cellRect ⟨10, 10⟩ ⟨1, 1, Method.average, -95 / 16, 0, 1, -7 / 8, 1⟩ 0 0).x1
        ≤ (cellRect ⟨10, 10⟩ ⟨1, 1, Method.neighbor, -95 / 16, 0, 1, -7 / 8, 1⟩ 0 0).x1) ∧
    convertCell whiteImage ⟨10, 10⟩ ⟨1, 1, Method.average, -95 / 16, 0, 1, -7 / 8, 1⟩ 0 0
      = some "#FFFFFF" ∧
    convertCell whiteImage ⟨10, 10⟩ ⟨1, 1, Method.neighbor, -95 / 16, 0, 1, -7 / 8, 1⟩ 0 0
      = some "transparent" := by
  decide!

/-! ## Exact colour counts in general -/

theorem mapIncrement_keys (m : List Entry) (k : Nat) :
    (mapIncrement m k).map Entry.key
      = if k ∈ m.map Entry.key then m.map Entry.key else m.map Entry.key ++ [k] := by
  induction m with
  | nil => simp [mapIncrement]
  | cons e rest ih =>
    simp only [mapIncrement]
    by_cases he : e.key = k
    · simp [he]
    · have hne : ¬ k = e.key := fun h => he h.symm
      simp only [he, if_false, List.map_cons, ih, List.mem_cons, hne, false_or]
      split <;> simp

theorem mapIncrement_mem (m : List Entry) (k : Nat) (hnd : (m.map Entry.key).Nodup)
    {e2 : Entry} (h : e2 ∈ mapIncrement m k) :
    (e2 ∈ m ∧ e2.key ≠ k) ∨ (∃ e ∈ m, e.key = k ∧ e2 = ⟨k, e.count + 1⟩) ∨
      (e2 = ⟨k, 1⟩ ∧ k ∉ m.map Entry.key) := by
  induction m with
  | nil =>
    simp only [mapIncrement, List.mem_singleton] at h
    right; right
    exact ⟨h, by simp⟩
  | cons e rest ih =>
    simp only [List.map_cons, List.nodup_cons] at hnd
    obtain ⟨hnot, hnd2⟩ := hnd
    simp only [mapIncrement] at h
    by_cases he : e.key = k
    · rw [if_pos he] at h
      rcases List.mem_cons.mp h with rfl | h2
      · right; left
        exact ⟨e, by simp, he, by rw [he]⟩
      · left
        refine ⟨by simp [h2], ?_⟩
        intro hk
        apply hnot
        rw [he, ← hk]
        exact List.mem_map_of_mem _ h2
    · rw [if_neg he] at h
      rcases List.mem_cons.mp h with rfl | h2
      · left
        exact ⟨by simp, he⟩
      · rcases ih hnd2 h2 with ⟨a, b⟩ | ⟨e3, a, b, c⟩ | ⟨a, b⟩
        · left; exact ⟨by simp [a], b⟩
        · right; left; exact ⟨e3, by simp [a], b, c⟩
        · right; right
          refine ⟨a, ?_⟩
          simp only [List.map_cons, List.mem_cons, not_or]
          exact ⟨fun hk => he hk.symm, b⟩

theorem countColors_spec (l : List Pixel) :
    ((countColors l).map Entry.key).Nodup ∧
      (∀ p ∈ l, colorKey p ∈ (countColors l).map Entry.key) ∧
      (∀ e ∈ countColors l, ∃ p ∈ l, e.key = colorKey p ∧ e.count = l.count p) := by
  induction l using List.reverseRecOn with
  | nil => simp [countColors]
  | append_singleton l q ih =>
    obtain ⟨hnd, hcov, hex⟩ := ih
    rw [countColors_append]
    refine ⟨?_, ?_, ?_⟩
    · rw [mapIncrement_keys]
      split
      · exact hnd
      · rename_i hk
        rw [List.nodup_append]
        refine ⟨hnd, by simp, ?_⟩
        intro a ha hb
        simp only [List.mem_singleton] at hb
        subst hb
        exact hk ha
    · intro p hp
      rw [mapIncrement_keys]
      rcases List.mem_append.mp hp with h1 | h1
      · split
        · exact hcov p h1
        · exact List.mem_append_left _ (hcov p h1)
      · simp only [List.mem_singleton] at h1
        subst h1
        split
        · assumption
        · simp
    · intro e2 he2
      rcases mapIncrement_mem _ _ hnd he2 with ⟨a, b⟩ | ⟨e, a, b, c⟩ | ⟨a, b⟩
      · obtain ⟨p, hp, hk, hc⟩ := hex e2 a
        refine ⟨p, List.mem_append_left _ hp, hk, ?_⟩
        have hpq : p ≠ q := by
          rintro rfl
          exact b hk
        have hqp : ¬ q = p := fun h => hpq h.symm
        simp [List.count_append, List.count_singleton, hc, hqp]
      · obtain ⟨p, hp, hk, hc⟩ := hex e a
        have hpq : p = q := colorKey_injective (by rw [← hk, b])
        subst hpq
        refine ⟨p, List.mem_append_left _ hp, by rw [c], ?_⟩
        rw [c]
        simp [List.count_append, List.count_singleton, hc]
      · refine ⟨q, by simp, by rw [a], ?_⟩
        have hq : q ∉ l := fun hq => b (hcov q hq)
        rw [a]
        simp [List.count_append, List.count_singleton, List.count_eq_zero_of_not_mem hq]

theorem countColors_ne_nil {l : List Pixel} (hne : l ≠ []) : countColors l ≠ [] := by
  obtain ⟨p, hp⟩ := List.exists_mem_of_ne_nil l hne
  have := (countColors_spec l).2.1 p hp
  intro h
  rw [h] at this
  simp at this

theorem mem_insertByCount (e x : Entry) (l : List Entry) :
    x ∈ insertByCount e l ↔ x = e ∨ x ∈ l := by
  induction l with
  | nil => simp [insertByCount]
  | cons y rest ih =>
    simp only [insertByCount]
    split
    · simp only [List.mem_cons, ih]
      tauto
    · simp

theorem mem_sortByCount (x : Entry) (l : List Entry) : x ∈ sortByCount l ↔ x ∈ l := by
  induction l with
  | nil => simp [sortByCount]
  | cons y rest ih =>
    have : sortByCount (y :: rest) = insertByCount y (sortByCount rest) := rfl
    rw [this, mem_insertByCount, ih]
    simp

theorem getRepresentativeColor_eq (l : List Pixel) (t : Int) (hne : l ≠ []) :
    getRepresentativeColor l t =
      (dominantCluster (buildClusters t (sortByCount (countColors l)))).bind
        fun dominant => mostFrequentMember dominant.members := by
  have hlen : l.length ≠ 0 := by simpa [List.length_eq_zero] using hne
  unfold getRepresentativeColor
  rw [if_neg hlen]
  simp only
  split
  · rename_i only heq
    rw [heq]
    simp [sortByCount, insertByCount, buildClusters, addToClusters, dominantCluster,
      mostFrequentMember]
  · rfl

/-! ## The clusters of method `most` in general -/

theorem addToClusters_wellFormed (P : Member → Prop) (t : Int) (clusters : List Cluster)
    (color : RGB) (count : Nat) (hP : P ⟨color, count⟩)
    (h : ∀ cl ∈ clusters, cl.WellFormed P) :
    ∀ cl ∈ addToClusters t clusters color count, cl.WellFormed P := by
  induction clusters with
  | nil =>
    intro cl hcl
    simp only [addToClusters, List.mem_singleton] at hcl
    subst hcl
    refine ⟨by simp, by simp, ?_⟩
    intro m hm
    simp only [List.mem_singleton] at hm
    subst hm
    exact hP
  | cons c rest ih =>
    intro cl hcl
    simp only [addToClusters] at hcl
    split at hcl
    · rcases List.mem_cons.mp hcl with rfl | hcl
      · obtain ⟨h1, h2, h3⟩ := h c (by simp)
        refine ⟨by simp [mergeInto], ?_, ?_⟩
        · simp [mergeInto, h2]
        · intro m hm
          simp only [mergeInto, List.mem_append, List.mem_singleton] at hm
          rcases hm with hm | rfl
          · exact h3 m hm
          · exact hP
      · exact h cl (by simp [hcl])
    · rcases List.mem_cons.mp hcl with rfl | hcl
      · exact h cl (by simp)
      · exact ih (fun cl hcl => h cl (by simp [hcl])) cl hcl

theorem addToClusters_ne_nil (t : Int) (clusters : List Cluster) (color : RGB) (count : Nat) :
    addToClusters t clusters color count ≠ [] := by
  cases clusters with
  | nil => simp [addToClusters]
  | cons c rest =>
    simp only [addToClusters]
    split <;> simp

theorem foldl_addToClusters_wellFormed (P : Member → Prop) (t : Int) (entries : List Entry)
    (hP : ∀ e ∈ entries, P ⟨keyColor e.key, e.count⟩) (init : List Cluster)
    (h : ∀ cl ∈ init, cl.WellFormed P) :
    ∀ cl ∈ entries.foldl
        (fun clusters entry => addToClusters t clusters (keyColor entry.key) entry.count) init,
      cl.WellFormed P := by
  induction entries generalizing init with
  | nil => simpa using h
  | cons e rest ih =>
    rw [List.foldl_cons]
    apply ih (fun x hx => hP x (by simp [hx]))
    exact addToClusters_wellFormed P t init _ _ (hP e (by simp)) h

theorem foldl_addToClusters_ne_nil (t : Int) (entries : List Entry) (init : List Cluster)
    (h : init ≠ [] ∨ entries ≠ []) :
    entries.foldl
      (fun clusters entry => addToClusters t clusters (keyColor entry.key) entry.count) init
      ≠ [] := by
  induction entries generalizing init with
  | nil => simpa using h
  | cons e rest ih =>
    rw [List.foldl_cons]
    exact ih _ (Or.inl (addToClusters_ne_nil t init _ _))

theorem buildClusters_ne_nil (t : Int) {entries : List Entry} (hne : entries ≠ []) :
    buildClusters t entries ≠ [] :=
  foldl_addToClusters_ne_nil t entries [] (Or.inr hne)

/-! ## Scans that keep the first maximum -/

theorem foldl_firstMax_split {α β : Type} [LinearOrder β] (f : α → β) (cs : List α) (c0 : α) :
    (cs.foldl (fun d c => if f c > f d then c else d) c0 = c0 ∧ ∀ c ∈ cs, f c ≤ f c0) ∨
    (∃ pre post, cs = pre ++ cs.foldl (fun d c => if f c > f d then c else d) c0 :: post ∧
      f c0 < f (cs.foldl (fun d c => if f c > f d then c else d) c0) ∧
      (∀ c ∈ pre, f c < f (cs.foldl (fun d c => if f c > f d then c else d) c0)) ∧
      (∀ c ∈ post, f c ≤ f (cs.foldl (fun d c => if f c > f d then c else d) c0))) := by
  induction cs generalizing c0 with
  | nil => left; exact ⟨rfl, by simp⟩
  | cons c rest ih =>
    rw [List.foldl_cons]
    by_cases hgt : f c > f c0
    · rw [if_pos hgt]
      rcases ih c with ⟨h1, h2⟩ | ⟨pre, post, h1, h2, h3, h4⟩
      · right
        refine ⟨[], rest, by rw [h1]; rfl, by rw [h1]; exact hgt, by simp, ?_⟩
        rw [h1]
        exact h2
      · right
        refine ⟨c :: pre, post, by rw [List.cons_append, ← h1], lt_trans hgt h2, ?_, h4⟩
        intro x hx
        rcases List.mem_cons.mp hx with rfl | hx
        · exact h2
        · exact h3 x hx
    · rw [if_neg hgt]
      have hle : f c ≤ f c0 := not_lt.mp hgt
      rcases ih c0 with ⟨h1, h2⟩ | ⟨pre, post, h1, h2, h3, h4⟩
      · left
        refine ⟨h1, ?_⟩
        intro x hx
        rcases List.mem_cons.mp hx with rfl | hx
        · exact hle
        · exact h2 x hx
      · right
        refine ⟨c :: pre, post, by rw [List.cons_append, ← h1], h2, ?_, h4⟩
        intro x hx
        rcases List.mem_cons.mp hx with rfl | hx
        · exact lt_of_le_of_lt hle h2
        · exact h3 x hx

theorem firstMax_split_cons {α β : Type} [LinearOrder β] (f : α → β) (c0 : α) (rest : List α) :
    ∃ pre post,
      c0 :: rest = pre ++ (c0 :: rest).foldl (fun d c => if f c > f d then c else d) c0 :: post ∧
      (∀ c ∈ pre, f c < f ((c0 :: rest).foldl (fun d c => if f c > f d then c else d) c0)) ∧
      (∀ c ∈ post, f c ≤ f ((c0 :: rest).foldl (fun d c => if f c > f d then c else d) c0)) := by
  rw [List.foldl_cons, if_neg (lt_irrefl _)]
  rcases foldl_firstMax_split f rest c0 with ⟨h1, h2⟩ | ⟨pre, post, h1, h2, h3, h4⟩
  · refine ⟨[], rest, by rw [h1]; rfl, by simp, ?_⟩
    rw [h1]
    exact h2
  · refine ⟨c0 :: pre, post, by rw [List.cons_append, ← h1], ?_, h4⟩
    intro x hx
    rcases List.mem_cons.mp hx with rfl | hx
    · exact h2
    · exact h3 x hx

theorem dominantCluster_firstMax {cs : List Cluster} {d : Cluster}
    (h : dominantCluster cs = some d) :
    ∃ pre post, cs = pre ++ d :: post ∧ (∀ c ∈ pre, c.totalCount < d.totalCount) ∧
      (∀ c ∈ post, c.totalCount ≤ d.totalCount) := by
  cases cs with
  | nil => simp [dominantCluster] at h
  | cons c0 rest =>
    simp only [dominantCluster, Option.some.injEq] at h
    have := firstMax_split_cons Cluster.totalCount c0 rest
    rw [← h]
    exact this

theorem dominantWeightedCluster_firstMax {cs : List WeightedCluster} {d : WeightedCluster}
    (h : dominantWeightedCluster cs = some d) :
    ∃ pre post, cs = pre ++ d :: post ∧ (∀ c ∈ pre, c.totalWeight < d.totalWeight) ∧
      (∀ c ∈ post, c.totalWeight ≤ d.totalWeight) := by
  cases cs with
  | nil => simp [dominantWeightedCluster] at h
  | cons c0 rest =>
    simp only [dominantWeightedCluster, Option.some.injEq] at h
    have := firstMax_split_cons WeightedCluster.totalWeight c0 rest
    rw [← h]
    exact this

theorem dominantCluster_isSome {cs : List Cluster} (hne : cs ≠ []) :
    ∃ d, dominantCluster cs = some d := by
  cases cs with
  | nil => exact absurd rfl hne
  | cons c0 rest => exact ⟨_, rfl⟩

theorem mostFrequentMember_firstMax {ms : List Member} (hne : ms ≠ []) :
    ∃ pre m post, ms = pre ++ m :: post ∧ mostFrequentMember ms = some m.color ∧
      (∀ x ∈ pre, x.count < m.count) ∧ (∀ x ∈ post, x.count ≤ m.count) := by
  cases ms with
  | nil => exact absurd rfl hne
  | cons m0 rest =>
    have key : ∀ (l : List Member) (b : Member),
        l.foldl (fun (best : RGB × Nat) entry =>
          if entry.count > best.2 then (entry.color, entry.count) else best) (b.color, b.count)
        = ((l.foldl (fun d c => if Member.count c > Member.count d then c else d) b).color,
           (l.foldl (fun d c => if Member.count c > Member.count d then c else d) b).count) := by
      intro l
      induction l with
      | nil => intro b; rfl
      | cons x xs ih =>
        intro b
        rw [List.foldl_cons, List.foldl_cons]
        by_cases hx : x.count > b.count
        · simp only [hx, if_true]
          exact ih x
        · simp only [hx, if_false]
          exact ih b
    obtain ⟨pre, post, h1, h2, h3⟩ := firstMax_split_cons Member.count m0 rest
    refine ⟨pre, _, post, h1, ?_, h2, h3⟩
    simp only [mostFrequentMember]
    rw [key (m0 :: rest) m0]

/-! ## Method `most` returns an input colour -/

theorem most_result_spec (l : List Pixel) (t : Int) (hne : l ≠ []) :
    ∃ c d m, getRepresentativeColor l t = some c ∧
      d ∈ buildClusters t (sortByCount (countColors l)) ∧
      (∀ cl ∈ buildClusters t (sortByCount (countColors l)), cl.totalCount ≤ d.totalCount) ∧
      d.totalCount = (d.members.map Member.count).sum ∧
      m ∈ d.members ∧ m.color = c ∧ (∀ m2 ∈ d.members, m2.count ≤ m.count) ∧
      ∃ p ∈ l, c = p.toRGB ∧ m.count = l.count p := by
  have hcc := countColors_ne_nil hne
  have hsorted : sortByCount (countColors l) ≠ [] := by
    obtain ⟨e, he⟩ := List.exists_mem_of_ne_nil _ hcc
    exact List.ne_nil_of_mem ((mem_sortByCount e _).mpr he)
  have hcs := buildClusters_ne_nil t hsorted
  obtain ⟨d, hd⟩ := dominantCluster_isSome hcs
  obtain ⟨pre, post, hsplit, hpre, hpost⟩ := dominantCluster_firstMax hd
  have hdmem : d ∈ buildClusters t (sortByCount (countColors l)) := by
    rw [hsplit]; simp
  have hwf := foldl_addToClusters_wellFormed
    (fun m => ∃ p ∈ l, m.color = p.toRGB ∧ m.count = l.count p) t
    (sortByCount (countColors l))
    (fun e he => by
      obtain ⟨p, hp, hk, hc⟩ := (countColors_spec l).2.2 e ((mem_sortByCount e _).mp he)
      exact ⟨p, hp, by simp only [hk, keyColor_colorKey], hc⟩)
    [] (by simp) d hdmem
  obtain ⟨hmne, htotal, hmembers⟩ := hwf
  obtain ⟨mpre, m, mpost, hmsplit, hmost, hmpre, hmpost⟩ := mostFrequentMember_firstMax hmne
  have hmmem : m ∈ d.members := by rw [hmsplit]; simp
  obtain ⟨p, hp, hcol, hcount⟩ := hmembers m hmmem
  refine ⟨m.color, d, m, ?_, hdmem, ?_, htotal, hmmem, rfl, ?_, p, hp, hcol, hcount⟩
  · rw [getRepresentativeColor_eq l t hne, hd]
    exact hmost
  · intro cl hcl
    rw [hsplit] at hcl
    rcases List.mem_append.mp hcl with h1 | h1
    · exact (hpre cl h1).le
    · rcases List.mem_cons.mp h1 with rfl | h2
      · exact le_rfl
      · exact hpost cl h2
  · intro m2 hm2
    rw [hmsplit] at hm2
    rcases List.mem_append.mp hm2 with h1 | h1
    · exact (hmpre m2 h1).le
    · rcases List.mem_cons.mp h1 with rfl | h2
      · exact le_rfl
      · exact hmpost m2 h2

/-- C14: on a non-empty list of pixels, `getRepresentativeColor` returns a
colour `c` of some input pixel, not a blend: `c` is the colour of a member `m`
of a cluster `d` whose total count (the sum of its members' counts) is greatest
among the clusters, the count of `m` is the number of input pixels of that
colour, and no member of `d` has a greater count. -/
theorem most_returns_input_colour (l : List Pixel) (t : Int) (hne : l ≠ []) :
    ∃ c d m, getRepresentativeColor l t = some c ∧
      d ∈ buildClusters t (sortByCount (countColors l)) ∧
      (∀ cl ∈ buildClusters t (sortByCount (countColors l)), cl.totalCount ≤ d.totalCount) ∧
      d.totalCount = (d.members.map Member.count).sum ∧
      m ∈ d.members ∧ m.color = c ∧ (∀ m2 ∈ d.members, m2.count ≤ m.count) ∧
      ∃ p ∈ l, c = p.toRGB ∧ m.count = l.count p :=
  most_result_spec l t hne

theorem most_returns_input_colour_witness :
    ∃ c d m,
      getRepresentativeColor [⟨0, 0, 0⟩, ⟨30, 0, 0⟩, ⟨45, 0, 0⟩, ⟨30, 0, 0⟩] 30 = some c ∧
      d ∈ buildClusters 30
        (sortByCount (countColors [⟨0, 0, 0⟩, ⟨30, 0, 0⟩, ⟨45, 0, 0⟩, ⟨30, 0, 0⟩])) ∧
      (∀ cl ∈ buildClusters 30
          (sortByCount (countColors [⟨0, 0, 0⟩, ⟨30, 0, 0⟩, ⟨45, 0, 0⟩, ⟨30, 0, 0⟩])),
        cl.totalCount ≤ d.totalCount) ∧
      d.totalCount = (d.members.map Member.count).sum ∧
      m ∈ d.members ∧ m.color = c ∧ (∀ m2 ∈ d.members, m2.count ≤ m.count) ∧
      ∃ p ∈ ([⟨0, 0, 0⟩, ⟨30, 0, 0⟩, ⟨45, 0, 0⟩, ⟨30, 0, 0⟩] : List Pixel),
        c = p.toRGB ∧
          m.count = List.count p [⟨0, 0, 0⟩, ⟨30, 0, 0⟩, ⟨45, 0, 0⟩, ⟨30, 0, 0⟩] :=
  most_returns_input_colour [⟨0, 0, 0⟩, ⟨30, 0, 0⟩, ⟨45, 0, 0⟩, ⟨30, 0, 0⟩] 30 (by decide)

theorem most_example :
    getRepresentativeColor [⟨0, 0, 0⟩, ⟨30, 0, 0⟩, ⟨45, 0, 0⟩, ⟨30, 0, 0⟩] 30
      = some ⟨30, 0, 0⟩ := by
  decide!

/-! ## Ties -/

theorem addToClusters_position (t : Int) (cs : List Cluster) (color : RGB) (count : Nat) :
    (∃ pre cl post, cs = pre ++ cl :: post ∧
        addToClusters t cs color count = pre ++ mergeInto cl color count :: post) ∨
      addToClusters t cs color count
        = cs ++ [⟨⟨color.r, color.g, color.b⟩, count, [⟨color, count⟩]⟩] := by
  induction cs with
  | nil => right; rfl
  | cons c rest ih =>
    simp only [addToClusters]
    split
    · left; exact ⟨[], c, rest, rfl, rfl⟩
    · rcases ih with ⟨pre, cl, post, h1, h2⟩ | h
      · left
        exact ⟨c :: pre, cl, post, by rw [h1]; rfl, by rw [h2]; rfl⟩
      · right
        rw [h]; rfl

theorem addToWeightedClusters_position (t : Int) (cs : List WeightedCluster)
    (px : WeightedPixel) :
    (∃ pre cl post, cs = pre ++ cl :: post ∧
        addToWeightedClusters t cs px = pre ++ mergeWeighted cl px :: post) ∨
      addToWeightedClusters t cs px
        = cs ++ [⟨⟨(px.r.val : Int), (px.g.val : Int), (px.b.val : Int)⟩, px.weight, [px]⟩] := by
  induction cs with
  | nil => right; rfl
  | cons c rest ih =>
    simp only [addToWeightedClusters]
    split
    · left; exact ⟨[], c, rest, rfl, rfl⟩
    · rcases ih with ⟨pre, cl, post, h1, h2⟩ | h
      · left
        exact ⟨c :: pre, cl, post, by rw [h1]; rfl, by rw [h2]; rfl⟩
      · right
        rw [h]; rfl

theorem foldl_mapIncrement_head (l : List Pixel) (e : Entry) (tail : List Entry) :
    ∃ e2 tail2,
      l.foldl (fun colorCounts p => mapIncrement colorCounts (colorKey p)) (e :: tail)
        = e2 :: tail2 ∧ e2.key = e.key := by
  induction l generalizing e tail with
  | nil => exact ⟨e, tail, rfl, rfl⟩
  | cons p rest ih =>
    rw [List.foldl_cons]
    simp only [mapIncrement]
    split
    · obtain ⟨e2, tail2, h1, h2⟩ := ih ⟨e.key, e.count + 1⟩ tail
      exact ⟨e2, tail2, h1, h2⟩
    · exact ih e _

theorem countColors_cons_head (X : Pixel) (rest : List Pixel) :
    ∃ e tail, countColors (X :: rest) = e :: tail ∧ e.key = colorKey X := by
  unfold countColors
  rw [List.foldl_cons]
  exact foldl_mapIncrement_head rest ⟨colorKey X, 1⟩ []

theorem most_tie_first (X Y : Pixel) (rest : List Pixel) (hd : 900 < distSq X Y)
    (hl : ∀ p ∈ rest, p = X ∨ p = Y)
    (htie : (X :: rest).count X = (X :: rest).count Y) :
    getRepresentativeColor (X :: rest) 30 = some X.toRGB := by
  have hXY : X ≠ Y := ne_of_distSq_pos hd (by decide)
  have hk : colorKey Y ≠ colorKey X := fun h => hXY (colorKey_injective h).symm
  have hl2 : ∀ p ∈ X :: rest, p = X ∨ p = Y := by
    intro p hp
    rcases List.mem_cons.mp hp with rfl | hp
    · exact Or.inl rfl
    · exact hl p hp
  have hcX : 0 < (X :: rest).count X := by simp
  obtain ⟨e, tail, hhead, hkey⟩ := countColors_cons_head X rest
  have hw : withinThreshold Y.toRGB X.toRGB 30 = false := by
    rw [withinThreshold_toRGB, distSq_comm]
    simp only [decide_eq_false_iff_not]
    omega
  have hform : countColors (X :: rest)
      = [⟨colorKey X, (X :: rest).count X⟩, ⟨colorKey Y, (X :: rest).count Y⟩] := by
    rcases countColors_two X Y hXY (X :: rest) hl2 with ⟨h1, _, _⟩ | ⟨_, h2, _⟩ | ⟨h1, _, _⟩ |
      ⟨_, _, h3 | h3⟩
    · omega
    · omega
    · omega
    · exact h3
    · exfalso
      rw [h3] at hhead
      simp only [List.cons.injEq] at hhead
      rw [← hhead.1] at hkey
      exact hk hkey
  rw [getRepresentativeColor_eq _ _ (by simp), hform]
  have hsort : sortByCount
      [⟨colorKey X, (X :: rest).count X⟩, ⟨colorKey Y, (X :: rest).count Y⟩]
      = [⟨colorKey X, (X :: rest).count X⟩, ⟨colorKey Y, (X :: rest).count Y⟩] := by
    simp [sortByCount, insertByCount, htie]
  rw [hsort, buildClusters_pair]
  simp only [keyColor_colorKey, hw]
  simp [dominantCluster, mostFrequentMember, htie]

/-- C16: both scans for the dominant cluster return the first cluster of
greatest total (every earlier cluster has a strictly smaller total), clusters
keep their place in the list when a colour is merged and new clusters go to the
end, so the first is the one created earliest; and method `most` on equally many
copies of two colours more than 30 apart returns the colour of the first pixel. -/
theorem ties_first_found :
    (∀ (cs : List Cluster) (d : Cluster), dominantCluster cs = some d →
      ∃ pre post, cs = pre ++ d :: post ∧ (∀ c ∈ pre, c.totalCount < d.totalCount) ∧
        (∀ c ∈ post, c.totalCount ≤ d.totalCount)) ∧
    (∀ (cs : List WeightedCluster) (d : WeightedCluster), dominantWeightedCluster cs = some d →
      ∃ pre post, cs = pre ++ d :: post ∧ (∀ c ∈ pre, c.totalWeight < d.totalWeight) ∧
        (∀ c ∈ post, c.totalWeight ≤ d.totalWeight)) ∧
    (∀ (t : Int) (cs : List Cluster) (color : RGB) (count : Nat),
      (∃ pre cl post, cs = pre ++ cl :: post ∧
          addToClusters t cs color count = pre ++ mergeInto cl color count :: post) ∨
        addToClusters t cs color count
          = cs ++ [⟨⟨color.r, color.g, color.b⟩, count, [⟨color, count⟩]⟩]) ∧
    (∀ (t : Int) (cs : List WeightedCluster) (px : WeightedPixel),
      (∃ pre cl post, cs = pre ++ cl :: post ∧
          addToWeightedClusters t cs px = pre ++ mergeWeighted cl px :: post) ∨
        addToWeightedClusters t cs px
          = cs ++ [⟨⟨(px.r.val : Int), (px.g.val : Int), (px.b.val : Int)⟩, px.weight,
              [px]⟩]) ∧
    (∀ (X Y : Pixel) (rest : List Pixel), 900 < distSq X Y → (∀ p ∈ rest, p = X ∨ p = Y) →
      (X :: rest).count X = (X :: rest).count Y →
      getRepresentativeColor (X :: rest) 30 = some X.toRGB) :=
  ⟨fun _ _ h => dominantCluster_firstMax h, fun _ _ h => dominantWeightedCluster_firstMax h,
    addToClusters_position, addToWeightedClusters_position, most_tie_first⟩

theorem ties_first_found_witness :
    getRepresentativeColor [⟨0, 0, 0⟩, ⟨40, 0, 0⟩, ⟨40, 0, 0⟩, ⟨0, 0, 0⟩] 30
        = some (Pixel.toRGB ⟨0, 0, 0⟩) ∧
      getRepresentativeColor [⟨40, 0, 0⟩, ⟨0, 0, 0⟩, ⟨0, 0, 0⟩, ⟨40, 0, 0⟩] 30
        = some (Pixel.toRGB ⟨40, 0, 0⟩) :=
  ⟨ties_first_found.2.2.2.2 ⟨0, 0, 0⟩ ⟨40, 0, 0⟩ [⟨40, 0, 0⟩, ⟨40, 0, 0⟩, ⟨0, 0, 0⟩] (by decide)
      (by decide) (by decide),
    ties_first_found.2.2.2.2 ⟨40, 0, 0⟩ ⟨0, 0, 0⟩ [⟨0, 0, 0⟩, ⟨0, 0, 0⟩, ⟨40, 0, 0⟩] (by decide)
      (by decide) (by decide)⟩

/-! ## Drift of the representative in method `most` -/

/-- C27: on one pixel each of (0,0,0), (30,0,0) and (45,0,0), in that order (and
on two of each), `getRepresentativeColor` builds a single cluster of all three
colours, whose representative drifts from 0 to 15 to 25, and returns (0,0,0),
although (45,0,0) is at squared distance 2025 > 900 from it. -/
theorem most_cluster_drift :
    getRepresentativeColor [⟨0, 0, 0⟩, ⟨30, 0, 0⟩, ⟨45, 0, 0⟩] 30 = some ⟨0, 0, 0⟩ ∧
    buildClusters 30 (sortByCount (countColors [⟨0, 0, 0⟩, ⟨30, 0, 0⟩, ⟨45, 0, 0⟩]))
      = [⟨⟨25, 0, 0⟩, 3, [⟨⟨0, 0, 0⟩, 1⟩, ⟨⟨30, 0, 0⟩, 1⟩, ⟨⟨45, 0, 0⟩, 1⟩]⟩] ∧
    buildClusters 30 (sortByCount (countColors [⟨0, 0, 0⟩, ⟨30, 0, 0⟩]))
      = [⟨⟨15, 0, 0⟩, 2, [⟨⟨0, 0, 0⟩, 1⟩, ⟨⟨30, 0, 0⟩, 1⟩]⟩] ∧
    withinThreshold (Pixel.toRGB ⟨45, 0, 0⟩) ⟨15, 0, 0⟩ 30 = true ∧
    900 < distSq ⟨45, 0, 0⟩ ⟨0, 0, 0⟩ ∧
    getRepresentativeColor
        [⟨0, 0, 0⟩, ⟨0, 0, 0⟩, ⟨30, 0, 0⟩, ⟨30, 0, 0⟩, ⟨45, 0, 0⟩, ⟨45, 0, 0⟩] 30
      = some ⟨0, 0, 0⟩ ∧
    buildClusters 30 (sortByCount (countColors
        [⟨0, 0, 0⟩, ⟨0, 0, 0⟩, ⟨30, 0, 0⟩, ⟨30, 0, 0⟩, ⟨45, 0, 0⟩, ⟨45, 0, 0⟩]))
      = [⟨⟨25, 0, 0⟩, 6, [⟨⟨0, 0, 0⟩, 2⟩, ⟨⟨30, 0, 0⟩, 2⟩, ⟨⟨45, 0, 0⟩, 2⟩]⟩] := by
  decide!

/-! ## Weights, total weights and representatives of the weighted reducer -/

theorem rawWeight_bounds (method : Method)
    (hm : method = Method.most_light ∨ method = Method.most_dark) (p : Pixel) :
    0 ≤ rawWeight method p ∧ rawWeight method p ≤ 1 := by
  obtain ⟨h0, h1⟩ := brightness_bounds p
  rcases hm with rfl | rfl
  · simp only [rawWeight, if_true]
    constructor
    · positivity
    · rw [div_le_one (by norm_num)]
      exact h1
  · simp only [rawWeight, if_true, show ¬ (Method.most_dark = Method.most_light) by decide,
      if_false]
    constructor
    · apply div_nonneg <;> linarith
    · rw [div_le_one (by norm_num)]
      linarith

theorem buildWeightedClusters_cluster (method : Method) (t : Int) (l : List Pixel)
    (cl : WeightedCluster) (hcl : cl ∈ buildWeightedClusters method t l) :
    ∃ l2 : List Pixel, l2 ≠ [] ∧ cl = clusterOf (l2.map (weigh method)) :=
  mem_buildWeightedClusters_aux method t l [] (by simp) cl hcl

theorem clusterOf_totalWeight_pos (method : Method) (l2 : List Pixel) (hne : l2 ≠ []) :
    0 < (clusterOf (l2.map (weigh method))).totalWeight :=
  totalWeightOf_pos (by simpa using hne) (weigh_pos method l2)

/-- C25: for `most_light` and `most_dark` and every pixel, the normalised
brightness lies in `[0, 1]` and the weight in `[0.25, 0.75]`; every cluster that
the weighted reducer builds has a positive total weight, so the division by it
is not a division by zero, and every channel of its representative lies in
`0..255`. -/
theorem weights_and_representatives_bounded (method : Method)
    (hm : method = Method.most_light ∨ method = Method.most_dark) :
    (∀ p : Pixel, (0 ≤ rawWeight method p ∧ rawWeight method p ≤ 1) ∧
      (0.25 ≤ pixelWeight method p ∧ pixelWeight method p ≤ 0.75)) ∧
    (∀ (t : Int) (l : List Pixel), ∀ cl ∈ buildWeightedClusters method t l,
      0 < cl.totalWeight ∧ cl.totalWeight ≠ 0 ∧ cl.repColor.isByte) := by
  constructor
  · intro p
    refine ⟨rawWeight_bounds method hm p, ?_, ?_⟩
    · have := (pixelWeight_bounds method p).1
      norm_num
      linarith
    · have := (pixelWeight_bounds method p).2
      norm_num
      linarith
  · intro t l cl hcl
    obtain ⟨l2, hne, rfl⟩ := buildWeightedClusters_cluster method t l cl hcl
    have hpos := clusterOf_totalWeight_pos method l2 hne
    exact ⟨hpos, ne_of_gt hpos,
      clusterOf_rep_inBox method ⟨0, 0, 0⟩ ⟨255, 255, 255⟩ l2 hne (inBox_bytes l2)⟩

theorem weights_and_representatives_bounded_witness :
    (∀ p : Pixel, (0 ≤ rawWeight Method.most_dark p ∧ rawWeight Method.most_dark p ≤ 1) ∧
      (0.25 ≤ pixelWeight Method.most_dark p ∧ pixelWeight Method.most_dark p ≤ 0.75)) ∧
    (∀ (t : Int) (l : List Pixel), ∀ cl ∈ buildWeightedClusters Method.most_dark t l,
      0 < cl.totalWeight ∧ cl.totalWeight ≠ 0 ∧ cl.repColor.isByte) :=
  weights_and_representatives_bounded Method.most_dark (Or.inr rfl)

/-! ## The weighted representative and the incremental update -/

theorem weighted_unrounded_incremental (f : WeightedPixel → Fin 256)
    (ms : List WeightedPixel) (px : WeightedPixel) (h0 : totalWeightOf ms ≠ 0) :
    ((weightedChannelSum f ms / totalWeightOf ms) *
        ((totalWeightOf ms + px.weight) - px.weight) + ((f px).val : ℚ) * px.weight)
      / (totalWeightOf ms + px.weight)
    = weightedChannelSum f (ms ++ [px]) / totalWeightOf (ms ++ [px]) := by
  have hs : weightedChannelSum f (ms ++ [px]) =
      weightedChannelSum f ms + ((f px).val : ℚ) * px.weight := by
    simp [weightedChannelSum]
  rw [hs, totalWeightOf_append]
  congr 1
  field_simp

/-- C23 (counterexample): with `most_light` and threshold 30 the pixels (0,0,0),
(1,0,0), (0,0,0) form one cluster whose representative, the rounded weighted
mean of the three members, is (0,0,0), while the incremental update
`round((rep*(T-w) + c*w)/T)` applied merge after merge ends at (1,0,0). -/
theorem weighted_incremental_counterexample :
    buildWeightedClusters Method.most_light 30 [⟨0, 0, 0⟩, ⟨1, 0, 0⟩, ⟨0, 0, 0⟩]
      = [clusterOf ([⟨0, 0, 0⟩, ⟨1, 0, 0⟩, ⟨0, 0, 0⟩].map (weigh Method.most_light))] ∧
    (clusterOf ([⟨0, 0, 0⟩, ⟨1, 0, 0⟩, ⟨0, 0, 0⟩].map (weigh Method.most_light))).repColor
      = ⟨0, 0, 0⟩ ∧
    (incrementalCluster ([⟨0, 0, 0⟩, ⟨1, 0, 0⟩, ⟨0, 0, 0⟩].map (weigh Method.most_light))).map
      Prod.fst = some ⟨1, 0, 0⟩ := by
  decide!

/-! ## The founding member of the dominant cluster -/

theorem insertByCount_sorted (e : Entry) (l : List Entry)
    (h : l.Pairwise (fun a b => b.count ≤ a.count)) :
    (insertByCount e l).Pairwise (fun a b => b.count ≤ a.count) := by
  induction l with
  | nil => simp [insertByCount]
  | cons x xs ih =>
    rw [List.pairwise_cons] at h
    unfold insertByCount
    split
    · rename_i hgt
      rw [List.pairwise_cons]
      refine ⟨?_, ih h.2⟩
      intro y hy
      rcases (mem_insertByCount e y xs).mp hy with rfl | hy
      · omega
      · exact h.1 y hy
    · rename_i hgt
      rw [List.pairwise_cons, List.pairwise_cons]
      refine ⟨?_, h⟩
      intro y hy
      rcases List.mem_cons.mp hy with rfl | hy
      · omega
      · have := h.1 y hy
        omega

theorem sortByCount_sorted (l : List Entry) :
    (sortByCount l).Pairwise (fun a b => b.count ≤ a.count) := by
  induction l with
  | nil => simp [sortByCount]
  | cons x xs ih => exact insertByCount_sorted x _ ih

theorem Cluster.SortedAbove.mono {n k : Nat} {cl : Cluster} (h : cl.SortedAbove n)
    (hk : k ≤ n) : cl.SortedAbove k :=
  ⟨h.1, h.2.1, fun m hm => le_trans hk (h.2.2 m hm)⟩

theorem addToClusters_sortedAbove (t : Int) (clusters : List Cluster) (color : RGB)
    (count : Nat) (h : ∀ cl ∈ clusters, cl.SortedAbove count) :
    ∀ cl ∈ addToClusters t clusters color count, cl.SortedAbove count := by
  induction clusters with
  | nil =>
    intro cl hcl
    simp only [addToClusters, List.mem_singleton] at hcl
    subst hcl
    refine ⟨by simp, by simp, ?_⟩
    intro m hm
    simp only [List.mem_singleton] at hm
    subst hm
    exact le_refl _
  | cons c rest ih =>
    intro cl hcl
    unfold addToClusters at hcl
    split at hcl
    · rcases List.mem_cons.mp hcl with rfl | hcl
      · obtain ⟨h1, h2, h3⟩ := h c (List.mem_cons_self _ _)
        refine ⟨by simp [mergeInto], ?_, ?_⟩
        · simp only [mergeInto]
          rw [List.pairwise_append]
          refine ⟨h2, by simp, ?_⟩
          intro a ha b hb
          simp only [List.mem_singleton] at hb
          subst hb
          exact h3 a ha
        · intro m hm
          simp only [mergeInto, List.mem_append, List.mem_singleton] at hm
          rcases hm with hm | rfl
          · exact h3 m hm
          · exact le_refl _
      · exact h cl (List.mem_cons_of_mem _ hcl)
    · rcases List.mem_cons.mp hcl with rfl | hcl
      · exact h _ (List.mem_cons_self _ _)
      · exact ih (fun cl hcl => h cl (List.mem_cons_of_mem _ hcl)) cl hcl

theorem foldl_addToClusters_sorted (t : Int) (entries : List Entry)
    (hs : entries.Pairwise (fun a b => b.count ≤ a.count)) (init : List Cluster)
    (h : ∀ cl ∈ init, cl.SortedAbove 0 ∧ ∀ e ∈ entries, cl.SortedAbove e.count) :
    ∀ cl ∈ entries.foldl
        (fun clusters entry => addToClusters t clusters (keyColor entry.key) entry.count) init,
      cl.SortedAbove 0 := by
  induction entries generalizing init with
  | nil => exact fun cl hcl => (h cl hcl).1
  | cons e rest ih =>
    rw [List.pairwise_cons] at hs
    simp only [List.foldl_cons]
    apply ih hs.2
    intro cl hcl
    have hcl2 := addToClusters_sortedAbove t init (keyColor e.key) e.count
      (fun c hc => (h c hc).2 e (List.mem_cons_self _ _)) cl hcl
    exact ⟨hcl2.mono (Nat.zero_le _), fun e2 he2 => hcl2.mono (hs.1 e2 he2)⟩

theorem buildClusters_sorted (t : Int) (entries : List Entry)
    (hs : entries.Pairwise (fun a b => b.count ≤ a.count)) :
    ∀ cl ∈ buildClusters t entries, cl.SortedAbove 0 :=
  foldl_addToClusters_sorted t entries hs [] (by simp)

theorem mostFrequentMember_sorted {ms : List Member}
    (hs : ms.Pairwise (fun a b => b.count ≤ a.count)) :
    mostFrequentMember ms = ms.head?.map fun m => m.color := by
  cases ms with
  | nil => rfl
  | cons m0 rest =>
    obtain ⟨pre, m, post, heq, hres, hpre, _⟩ :=
      mostFrequentMember_firstMax (List.cons_ne_nil m0 rest)
    rw [hres]
    cases pre with
    | nil =>
      simp only [List.nil_append, List.cons.injEq] at heq
      simp [heq.1]
    | cons x pre2 =>
      exfalso
      simp only [List.cons_append, List.cons.injEq] at heq
      rw [List.pairwise_cons] at hs
      have h1 := hs.1 m (by rw [heq.2]; simp)
      have h2 := hpre x (List.mem_cons_self _ _)
      rw [← heq.1] at h2
      omega

theorem getRepresentativeColor_first (l : List Pixel) (t : Int) :
    getRepresentativeColor l t = getRepresentativeColorFirst l t := by
  have hbody :
      ((dominantCluster (buildClusters t (sortByCount (countColors l)))).bind
        fun dominant => mostFrequentMember dominant.members)
      = (dominantCluster (buildClusters t (sortByCount (countColors l)))).bind
        fun dominant => dominant.members.head?.map fun m => m.color := by
    cases hd : dominantCluster (buildClusters t (sortByCount (countColors l))) with
    | none => rfl
    | some d =>
      simp only [Option.some_bind]
      exact mostFrequentMember_sorted
        (buildClusters_sorted t _ (sortByCount_sorted _) d (dominantCluster_mem hd)).2.1
  unfold getRepresentativeColor getRepresentativeColorFirst
  simp only [hbody]

/-- C26: `getRepresentativeColor` equals the simpler function that returns
`dominantCluster.members[0].color`: the distinct colours are processed in
non-increasing count order, the members of every cluster are in non-increasing
count order, and the final scan returns the first member of the cluster it
scans. -/
theorem most_returns_founding_member (l : List Pixel) (t : Int) :
    getRepresentativeColor l t = getRepresentativeColorFirst l t ∧
    (sortByCount (countColors l)).Pairwise (fun a b => b.count ≤ a.count) ∧
    (∀ cl ∈ buildClusters t (sortByCount (countColors l)),
      cl.members ≠ [] ∧ cl.members.Pairwise (fun a b => b.count ≤ a.count) ∧
      mostFrequentMember cl.members = cl.members.head?.map fun m => m.color) :=
  ⟨getRepresentativeColor_first l t, sortByCount_sorted _, fun cl hcl =>
    have h := buildClusters_sorted t _ (sortByCount_sorted (countColors l)) cl hcl
    ⟨h.1, h.2.1, mostFrequentMember_sorted h.2.1⟩⟩

/-! ## Undo followed by redo -/

theorem deepCopyPixels_eq (pixels : List (List String)) : deepCopyPixels pixels = pixels := by
  simp [deepCopyPixels]

theorem getLast?_dropLast_of_length {α : Type} (l : List α) (h : 1 < l.length) :
    ∃ top, l.dropLast.getLast? = some top := by
  have hne : l.dropLast ≠ [] := by
    intro hnil
    have := congrArg List.length hnil
    simp at this
    omega
  exact ⟨_, List.getLast?_eq_getLast _ hne⟩

theorem keydown_undo (s : EditorState) (hstep : s.currentStep = 3)
    (hlen : 1 < s.historyStack.length) (top below : List (List String))
    (htop : s.historyStack.getLast? = some top)
    (hbelow : s.historyStack.dropLast.getLast? = some below) :
    keydown ctrlZ s =
      { s with
        historyStack := s.historyStack.dropLast
        redoStack := s.redoStack ++ [top]
        pixelColors := below } := by
  unfold keydown
  simp [hstep, ctrlZ, hlen, htop, hbelow, deepCopyPixels_eq]

theorem keydown_undo_redo (s : EditorState) (hlen : 1 < s.historyStack.length)
    (htop : s.historyStack.getLast? = some s.pixelColors) :
    keydown ctrlY (keydown ctrlZ s) = s := by
  by_cases hstep : s.currentStep = 3
  · obtain ⟨below, hbelow⟩ := getLast?_dropLast_of_length s.historyStack hlen
    rw [keydown_undo s hstep hlen _ below htop hbelow]
    unfold keydown
    have hhist : s.historyStack.dropLast ++ [s.pixelColors] = s.historyStack := by
      have hne : s.historyStack ≠ [] := by
        intro h
        rw [h] at hlen
        simp at hlen
      rw [List.getLast?_eq_getLast _ hne] at htop
      have := List.dropLast_append_getLast hne
      rw [Option.some.inj htop] at this
      exact this
    obtain ⟨step, px, hist, redo⟩ := s
    simp only at hstep hhist
    subst hstep
    simp [ctrlY, deepCopyPixels_eq, hhist]
  · unfold keydown
    simp [hstep]

/-- C21: whenever the history stack holds more than one snapshot and the current
grid equals its top snapshot, the Ctrl+Z step followed by the Ctrl+Y step gives
back the editor state: the grid, the history stack and the redo stack have their
values before the undo. In step 3 the undo itself moves the top snapshot to the
redo stack. After `saveHistory` the grid equals the top snapshot. -/
theorem undo_redo_identity (s : EditorState) (hlen : 1 < s.historyStack.length)
    (htop : s.historyStack.getLast? = some s.pixelColors) :
    keydown ctrlY (keydown ctrlZ s) = s ∧
    (keydown ctrlY (keydown ctrlZ s)).pixelColors = s.pixelColors ∧
    (keydown ctrlY (keydown ctrlZ s)).historyStack = s.historyStack ∧
    (keydown ctrlY (keydown ctrlZ s)).redoStack = s.redoStack ∧
    (s.currentStep = 3 →
      (keydown ctrlZ s).historyStack = s.historyStack.dropLast ∧
      (keydown ctrlZ s).redoStack = s.redoStack ++ [s.pixelColors] ∧
      (keydown ctrlZ s).historyStack.getLast? = some (keydown ctrlZ s).pixelColors) ∧
    (saveHistory s).historyStack.getLast? = some (saveHistory s).pixelColors := by
  have h := keydown_undo_redo s hlen htop
  refine ⟨h, by rw [h], by rw [h], by rw [h], ?_, ?_⟩
  · intro hstep
    obtain ⟨below, hbelow⟩ := getLast?_dropLast_of_length s.historyStack hlen
    rw [keydown_undo s hstep hlen _ below htop hbelow]
    exact ⟨rfl, rfl, hbelow⟩
  · simp [saveHistory, deepCopyPixels_eq]

theorem undo_redo_identity_witness :
    keydown ctrlY (keydown ctrlZ twoSnapshots) = twoSnapshots ∧
    keydown ctrlZ twoSnapshots
      = ⟨3, [["#00FF00"]], [[["#00FF00"]]], [[["transparent"]], [["#FF0000"]]]⟩ :=
  ⟨(undo_redo_identity twoSnapshots (by decide) (by decide)).1, by decide⟩

/-! ## The similarity test of the flood fill -/

set_option maxRecDepth 100000 in
theorem parsePairOk_all :
    ∀ a ∈ "0123456789ABCDEFabcdef".data, ∀ b ∈ "0123456789ABCDEFabcdef".data,
      parsePairOk a b = true := by
  decide!

theorem parseInt16_pair {a b : Char} (ha : isHexDigit a = true) (hb : isHexDigit b = true) :
    ∃ va vb, hexDigitValue a = some va ∧ hexDigitValue b = some vb ∧
      parseInt16 [a, b] = some (((hexByte va vb).val : Nat) : Int) := by
  have h := parsePairOk_all a (by simpa [isHexDigit] using ha) b
    (by simpa [isHexDigit] using hb)
  unfold parsePairOk at h
  split at h
  · rename_i va vb hva hvb
    exact ⟨va, vb, hva, hvb, by simpa using h⟩
  · simp at h

theorem hexToRGB_of_isRRGGBB {c : String} (h : isRRGGBB c = true) :
    ∃ p : Pixel, parseHexColor c = some p ∧
      hexToRGB c = ⟨some (p.r.val : Int), some (p.g.val : Int), some (p.b.val : Int)⟩ := by
  unfold isRRGGBB at h
  split at h
  · rename_i h0 r1 r0 g1 g0 b1 b0 hdata
    simp only [Bool.and_eq_true, beq_iff_eq] at h
    obtain ⟨⟨⟨⟨⟨⟨rfl, hr1⟩, hr0⟩, hg1⟩, hg0⟩, hb1⟩, hb0⟩ := h
    obtain ⟨vr1, vr0, er1, er0, hr⟩ := parseInt16_pair hr1 hr0
    obtain ⟨vg1, vg0, eg1, eg0, hg⟩ := parseInt16_pair hg1 hg0
    obtain ⟨vb1, vb0, eb1, eb0, hb⟩ := parseInt16_pair hb1 hb0
    refine ⟨⟨hexByte vr1 vr0, hexByte vg1 vg0, hexByte vb1 vb0⟩, ?_, ?_⟩
    · unfold parseHexColor
      rw [hdata]
      simp only [er1, er0, eg1, eg0, eb1, eb0]
    · unfold hexToRGB
      rw [hdata]
      simp only [removeFirstHash, if_true, substring, List.drop, List.take, hr, hg, hb]
  · simp at h

theorem colorDistanceSq_of_channels {a b : String} {pa pb : Pixel}
    (ha : hexToRGB a = ⟨some (pa.r.val : Int), some (pa.g.val : Int), some (pa.b.val : Int)⟩)
    (hb : hexToRGB b = ⟨some (pb.r.val : Int), some (pb.g.val : Int), some (pb.b.val : Int)⟩) :
    colorDistanceSq a b = some (distSq pa pb) := by
  unfold colorDistanceSq
  rw [ha, hb]
  simp only [distSq]
  congr 1
  ring

theorem sqrt_le_int_iff (n T : Int) (hT : 0 ≤ T) :
    Real.sqrt (n : ℝ) ≤ (T : ℝ) ↔ n ≤ T * T := by
  rw [Real.sqrt_le_left (by exact_mod_cast hT)]
  constructor
  · intro h
    have : (n : ℝ) ≤ ((T * T : Int) : ℝ) := by push_cast; nlinarith
    exact_mod_cast this
  · intro h
    have : (n : ℝ) ≤ ((T * T : Int) : ℝ) := by exact_mod_cast h
    push_cast at this
    nlinarith

theorem colorDistanceExceeds_iff (a b : String) (T : Int) :
    colorDistanceExceeds a b T = true ↔ ∃ d, colorDistance a b = some d ∧ (T : ℝ) < d := by
  unfold colorDistanceExceeds colorDistance
  cases colorDistanceSq a b with
  | none => simp
  | some n =>
    simp only [Option.map_some', Option.some.injEq, exists_eq_left', decide_eq_true_eq]
    by_cases hT : 0 ≤ T
    · have := sqrt_le_int_iff n T hT
      constructor
      · intro h
        rcases h with h | h
        · omega
        · by_contra hcon
          have := this.mp (not_lt.mp hcon)
          omega
      · intro h
        right
        by_contra hcon
        have := this.mpr (by omega)
        linarith
    · constructor
      · intro _
        have h1 : (T : ℝ) < 0 := by exact_mod_cast (not_le.mp hT)
        exact lt_of_lt_of_le h1 (Real.sqrt_nonneg _)
      · intro _
        left
        omega

theorem colorDistance_test (a b : String) (T : Int) (ha : isRRGGBB a = true)
    (hb : isRRGGBB b = true) (hT : 0 ≤ T) :
    ∃ pa pb : Pixel,
      hexToRGB a = ⟨some (pa.r.val : Int), some (pa.g.val : Int), some (pa.b.val : Int)⟩ ∧
      hexToRGB b = ⟨some (pb.r.val : Int), some (pb.g.val : Int), some (pb.b.val : Int)⟩ ∧
      colorDistance a b = some (Real.sqrt ((distSq pa pb : Int) : ℝ)) ∧
      ((∃ d, colorDistance a b = some d ∧ d ≤ (T : ℝ))
        ↔ withinThreshold pa.toRGB pb.toRGB T = true) ∧
      (colorDistanceExceeds a b T = false ↔ withinThreshold pa.toRGB pb.toRGB T = true) := by
  obtain ⟨pa, _, hpa⟩ := hexToRGB_of_isRRGGBB ha
  obtain ⟨pb, _, hpb⟩ := hexToRGB_of_isRRGGBB hb
  have hsq := colorDistanceSq_of_channels hpa hpb
  have hd : colorDistance a b = some (Real.sqrt ((distSq pa pb : Int) : ℝ)) := by
    unfold colorDistance
    rw [hsq]
    rfl
  have hiff : (∃ d, colorDistance a b = some d ∧ d ≤ (T : ℝ))
      ↔ withinThreshold pa.toRGB pb.toRGB T = true := by
    rw [hd, withinThreshold_toRGB]
    simp only [Option.some.injEq, exists_eq_left', decide_eq_true_eq]
    exact sqrt_le_int_iff _ T hT
  refine ⟨pa, pb, hpa, hpb, hd, hiff, ?_⟩
  rw [← hiff, ← Bool.not_eq_true, colorDistanceExceeds_iff, hd]
  simp only [Option.some.injEq, exists_eq_left', not_lt]

/-- C24: for all `#RRGGBB` colours `a` and `b`, whose channels `hexToRGB`
recovers as bytes, and every non-negative integer threshold `T`, the test
`colorDistance(a, b) <= T` with the square root holds exactly when the
square-root-free test `dr^2 + dg^2 + db^2 <= T^2` of `getRepresentativeColor`
holds on the channels, and `floodFill` skips a cell (`colorDistance > T`) exactly
when that test fails. -/
theorem wand_test_is_reducer_test (a b : String) (T : Int) (ha : isRRGGBB a = true)
    (hb : isRRGGBB b = true) (hT : 0 ≤ T) :
    ∃ pa pb : Pixel,
      hexToRGB a = ⟨some (pa.r.val : Int), some (pa.g.val : Int), some (pa.b.val : Int)⟩ ∧
      hexToRGB b = ⟨some (pb.r.val : Int), some (pb.g.val : Int), some (pb.b.val : Int)⟩ ∧
      colorDistance a b = some (Real.sqrt ((distSq pa pb : Int) : ℝ)) ∧
      ((∃ d, colorDistance a b = some d ∧ d ≤ (T : ℝ))
        ↔ withinThreshold pa.toRGB pb.toRGB T = true) ∧
      (colorDistanceExceeds a b T = false ↔ withinThreshold pa.toRGB pb.toRGB T = true) :=
  colorDistance_test a b T ha hb hT

theorem wand_test_is_reducer_test_witness :
    ∃ pa pb : Pixel,
      hexToRGB "#FF0000" =
        ⟨some (pa.r.val : Int), some (pa.g.val : Int), some (pa.b.val : Int)⟩ ∧
      hexToRGB "#fc0304" =
        ⟨some (pb.r.val : Int), some (pb.g.val : Int), some (pb.b.val : Int)⟩ ∧
      colorDistance "#FF0000" "#fc0304" = some (Real.sqrt ((distSq pa pb : Int) : ℝ)) ∧
      ((∃ d, colorDistance "#FF0000" "#fc0304" = some d ∧ d ≤ ((5 : Int) : ℝ))
        ↔ withinThreshold pa.toRGB pb.toRGB 5 = true) ∧
      (colorDistanceExceeds "#FF0000" "#fc0304" 5 = false
        ↔ withinThreshold pa.toRGB pb.toRGB 5 = true) :=
  wand_test_is_reducer_test "#FF0000" "#fc0304" 5 (by decide) (by decide) (by decide)

/-! ## Reads and writes of the grid -/

theorem getCell_isSome_iff {W H : Nat} {g : List (List String)} (hrect : Rectangular W H g)
    (r c : Int) :
    (∃ v, getCell g r c = some v) ↔ (0 ≤ r ∧ r < (H : Int)) ∧ (0 ≤ c ∧ c < (W : Int)) := by
  unfold getCell
  constructor
  · rintro ⟨v, hv⟩
    split at hv
    · rename_i h
      cases hrow : g[r.toNat]? with
      | none => simp [hrow] at hv
      | some row =>
        rw [hrow] at hv
        simp only [Option.some_bind] at hv
        have h1 := List.getElem?_eq_some.mp hrow
        obtain ⟨hlt, hget⟩ := h1
        have hmem : row ∈ g := by rw [← hget]; exact List.getElem_mem _
        have hlen := hrect.2 row hmem
        obtain ⟨hlt2, _⟩ := List.getElem?_eq_some.mp hv
        have := hrect.1
        omega
    · simp at hv
  · rintro ⟨⟨h1, h2⟩, h3, h4⟩
    rw [if_pos ⟨h1, h3⟩]
    have hlt : r.toNat < g.length := by have := hrect.1; omega
    have hrow : g[r.toNat]? = some (g[r.toNat]) := List.getElem?_eq_getElem hlt
    have hlen := hrect.2 _ (List.getElem_mem hlt)
    have hlt2 : c.toNat < (g[r.toNat]).length := by omega
    exact ⟨_, by rw [hrow, Option.some_bind, List.getElem?_eq_getElem hlt2]⟩

theorem rectangular_setCell {W H : Nat} {g : List (List String)} (hrect : Rectangular W H g)
    (r c : Int) (v : String) : Rectangular W H (setCell g r c v) := by
  unfold setCell
  split
  · cases hrow : g[r.toNat]? with
    | none => exact hrect
    | some row =>
      simp only
      obtain ⟨hlt, hget⟩ := List.getElem?_eq_some.mp hrow
      have hmem : row ∈ g := by rw [← hget]; exact List.getElem_mem _
      refine ⟨by simpa using hrect.1, ?_⟩
      intro row2 hrow2
      rcases List.mem_or_eq_of_mem_set hrow2 with h | h
      · exact hrect.2 _ h
      · rw [h, List.length_set]
        exact hrect.2 _ hmem
  · exact hrect

theorem getCell_setCell_same {W H : Nat} {g : List (List String)} (hrect : Rectangular W H g)
    (r c : Int) (v : String) (hr : 0 ≤ r ∧ r < (H : Int)) (hc : 0 ≤ c ∧ c < (W : Int)) :
    getCell (setCell g r c v) r c = some v := by
  have hlt : r.toNat < g.length := by have := hrect.1; omega
  have hrow : g[r.toNat]? = some (g[r.toNat]) := List.getElem?_eq_getElem hlt
  have hlen := hrect.2 _ (List.getElem_mem hlt)
  have hlt2 : c.toNat < (g[r.toNat]).length := by omega
  unfold getCell setCell
  rw [if_pos ⟨hr.1, hc.1⟩, if_pos ⟨hr.1, hc.1⟩, hrow]
  simp only
  rw [List.getElem?_set_self hlt, Option.some_bind, List.getElem?_set_self hlt2]

theorem getCell_setCell_other (g : List (List String)) (r c r2 c2 : Int) (v : String)
    (hne : ¬ (r2 = r ∧ c2 = c)) :
    getCell (setCell g r c v) r2 c2 = getCell g r2 c2 := by
  unfold setCell
  split
  · rename_i hpos
    cases hrow : g[r.toNat]? with
    | none => rfl
    | some row =>
      simp only
      unfold getCell
      split
      · rename_i hpos2
        by_cases hr : r2 = r
        · subst hr
          have hc : c2.toNat ≠ c.toNat := by
            intro h
            apply hne
            refine ⟨rfl, ?_⟩
            omega
          obtain ⟨hlt, hget⟩ := List.getElem?_eq_some.mp hrow
          rw [List.getElem?_set_self hlt, hrow, Option.some_bind, Option.some_bind,
            List.getElem?_set_ne (Ne.symm hc)]
        · have hr2 : r.toNat ≠ r2.toNat := by omega
          rw [List.getElem?_set_ne hr2]
      · rfl
  · rfl


/-! ## The loop of `floodFill` -/

theorem nodup_inBounds_length (W H : Nat) (l : List StackEntry) (hnd : l.Nodup)
    (hin : ∀ e ∈ l, (0 ≤ e.row ∧ e.row < (H : Int)) ∧ (0 ≤ e.col ∧ e.col < (W : Int))) :
    l.length ≤ W * H := by
  have hinj : ∀ a ∈ l, ∀ b ∈ l,
      (fun e : StackEntry => (e.row.toNat, e.col.toNat)) a
        = (fun e : StackEntry => (e.row.toNat, e.col.toNat)) b → a = b := by
    intro a ha b hb hab
    simp only [Prod.mk.injEq] at hab
    have h1 := hin a ha
    have h2 := hin b hb
    cases a
    cases b
    simp only [StackEntry.mk.injEq] at *
    omega
  have hnd2 : (l.map fun e : StackEntry => (e.row.toNat, e.col.toNat)).Nodup :=
    List.Nodup.map_on hinj hnd
  have hsub : (l.map fun e : StackEntry => (e.row.toNat, e.col.toNat)).toFinset
      ⊆ Finset.range H ×ˢ Finset.range W := by
    intro p hp
    simp only [List.mem_toFinset, List.mem_map] at hp
    obtain ⟨e, he, rfl⟩ := hp
    have h1 := hin e he
    simp only [Finset.mem_product, Finset.mem_range]
    omega
  have hcard := Finset.card_le_card hsub
  rw [List.toFinset_card_of_nodup hnd2, Finset.card_product, Finset.card_range,
    Finset.card_range, List.length_map] at hcard
  rw [Nat.mul_comm]
  exact hcard

theorem FloodInv.writes_length {W H : Nat} {g0 : List (List String)} {target repl : String}
    {T : Int} {sr sc : Int} {s : FloodState} (hg0 : Rectangular W H g0)
    (hinv : FloodInv W H g0 target repl T sr sc s) : s.writes.length ≤ W * H := by
  apply nodup_inBounds_length W H s.writes hinv.nodup
  intro e he
  obtain ⟨⟨color, hcolor, _⟩, _⟩ := hinv.written e he
  exact (getCell_isSome_iff hg0 e.row e.col).mp ⟨color, hcolor⟩

theorem FloodInv.not_live_now {W H : Nat} {g0 : List (List String)} {target repl : String}
    {T : Int} {sr sc : Int} {s : FloodState}
    (hinv : FloodInv W H g0 target repl T sr sc s) (e : StackEntry)
    (hnot : ¬ Live s.pixelColors target T e.row e.col) :
    ¬ Live g0 target T e.row e.col ∨ e ∈ s.writes := by
  by_cases he : e ∈ s.writes
  · exact Or.inr he
  · left
    intro hl
    apply hnot
    obtain ⟨color, h1, h2⟩ := hl
    exact ⟨color, by rw [hinv.unwritten e he]; exact h1, h2⟩

theorem floodBody_skip_inv {W H : Nat} {g0 : List (List String)} {target repl : String}
    {T : Int} {sr sc : Int} {s : FloodState} {e : StackEntry} {rest : List StackEntry}
    (hinv : FloodInv W H g0 target repl T sr sc s) (hstack : s.stack = e :: rest)
    (hnot : ¬ Live s.pixelColors target T e.row e.col) :
    FloodInv W H g0 target repl T sr sc { s with stack := rest } := by
  have hdead := hinv.not_live_now e hnot
  refine ⟨hinv.rect, hinv.written, hinv.unwritten, hinv.nodup, ?_, ?_, ?_, hinv.pushCount⟩
  · intro x hx
    exact hinv.stackReach x (by rw [hstack]; exact List.mem_cons_of_mem _ hx)
  · rcases hinv.startSeen with h | h | h
    · rw [hstack] at h
      rcases List.mem_cons.mp h with h | h
      · rw [← h] at hdead
        exact Or.inr hdead
      · exact Or.inl h
    · exact Or.inr (Or.inl h)
    · exact Or.inr (Or.inr h)
  · intro w hw n hn
    rcases hinv.frontier w hw n hn with h | h | h
    · rw [hstack] at h
      rcases List.mem_cons.mp h with h | h
      · rw [← h] at hdead
        exact Or.inr hdead
      · exact Or.inl h
    · exact Or.inr (Or.inl h)
    · exact Or.inr (Or.inr h)

theorem floodBody_write_inv {W H : Nat} {g0 : List (List String)} {target repl : String}
    {T : Int} {sr sc : Int} {s : FloodState} {e : StackEntry} {rest : List StackEntry}
    (hdead : repl = "transparent" ∨ colorDistanceExceeds repl target T = true)
    (hinv : FloodInv W H g0 target repl T sr sc s) (hstack : s.stack = e :: rest)
    (hlive : Live s.pixelColors target T e.row e.col) :
    e ∉ s.writes ∧
    FloodInv W H g0 target repl T sr sc
      { pixelColors := setCell s.pixelColors e.row e.col repl
        stack := ⟨e.row, e.col + 1⟩ :: ⟨e.row, e.col - 1⟩ :: ⟨e.row + 1, e.col⟩
          :: ⟨e.row - 1, e.col⟩ :: rest
        pushes := s.pushes + 4
        writes := s.writes ++ [e] } := by
  have hnew : e ∉ s.writes := by
    intro he
    obtain ⟨color, h1, h2, h3⟩ := hlive
    rw [(hinv.written e he).2.2] at h1
    have := Option.some.inj h1
    subst this
    rcases hdead with h | h
    · exact h2 h
    · rw [h] at h3
      exact Bool.noConfusion h3
  have hlive0 : Live g0 target T e.row e.col := by
    obtain ⟨color, h1, h2⟩ := hlive
    exact ⟨color, by rw [← hinv.unwritten e hnew]; exact h1, h2⟩
  have hreach := hinv.stackReach e (by rw [hstack]; exact List.mem_cons_self _ _) hlive0
  have hbounds := (getCell_isSome_iff hinv.rect e.row e.col).mp
    (by obtain ⟨color, h1, _⟩ := hlive; exact ⟨color, h1⟩)
  refine ⟨hnew, rectangular_setCell hinv.rect _ _ _, ?_, ?_, ?_, ?_, ?_, ?_, ?_⟩
  · intro w hw
    simp only [List.mem_append, List.mem_singleton] at hw
    rcases hw with hw | rfl
    · obtain ⟨h1, h2, h3⟩ := hinv.written w hw
      refine ⟨h1, h2, ?_⟩
      simp only
      rw [getCell_setCell_other]
      · exact h3
      · rintro ⟨h4, h5⟩
        apply hnew
        have : w = e := by cases w; cases e; simp_all
        rw [← this]
        exact hw
    · exact ⟨hlive0, hreach, getCell_setCell_same hinv.rect _ _ _ hbounds.1 hbounds.2⟩
  · intro w hw
    simp only [List.mem_append, List.mem_singleton, not_or] at hw
    simp only
    rw [getCell_setCell_other]
    · exact hinv.unwritten w hw.1
    · rintro ⟨h4, h5⟩
      apply hw.2
      cases w; cases e; simp_all
  · simp only
    rw [List.nodup_append]
    refine ⟨hinv.nodup, by simp, ?_⟩
    intro a ha hb
    simp only [List.mem_singleton] at hb
    subst hb
    exact hnew ha
  · intro x hx hxl
    simp only [List.mem_cons] at hx
    have hadj : x ∈ neighbours e ∨ x ∈ rest := by
      simp only [neighbours, List.mem_cons, List.mem_singleton, List.not_mem_nil, or_false]
      tauto
    rcases hadj with hadj | hrest
    · exact Reach.step e x hreach hadj hxl
    · exact hinv.stackReach x (by rw [hstack]; exact List.mem_cons_of_mem _ hrest) hxl
  · simp only
    rcases hinv.startSeen with h | h | h
    · rw [hstack] at h
      rcases List.mem_cons.mp h with h | h
      · right; right
        rw [h]
        simp
      · left
        simp [h]
    · exact Or.inr (Or.inl h)
    · right; right
      simp [h]
  · intro w hw n hn
    simp only [List.mem_append, List.mem_singleton] at hw
    simp only
    rcases hw with hw | rfl
    · rcases hinv.frontier w hw n hn with h | h | h
      · rw [hstack] at h
        rcases List.mem_cons.mp h with h | h
        · right; right
          rw [h]
          simp
        · left
          simp [h]
      · exact Or.inr (Or.inl h)
      · right; right
        simp [h]
    · left
      simp only [neighbours, List.mem_cons, List.mem_singleton, List.not_mem_nil,
        or_false] at hn
      simp only [List.mem_cons]
      tauto
  · simp only [List.length_append, List.length_singleton]
    have := hinv.pushCount
    omega

theorem floodBody_eq_of_not_live {W H : Nat} {target : String} (repl : String) {T : Int}
    (s : FloodState) {e : StackEntry} (hrect : Rectangular W H s.pixelColors)
    (hnot : ¬ Live s.pixelColors target T e.row e.col) :
    floodBody W H target repl T e s = some s := by
  unfold floodBody
  split
  · rfl
  · rename_i hb
    have hb2 : (0 ≤ e.row ∧ e.row < (H : Int)) ∧ (0 ≤ e.col ∧ e.col < (W : Int)) := by omega
    obtain ⟨color, hcolor⟩ := (getCell_isSome_iff hrect e.row e.col).mpr hb2
    rw [hcolor]
    simp only
    split
    · rfl
    · rename_i htr
      split
      · rfl
      · rename_i hex
        exfalso
        exact hnot ⟨color, hcolor, htr, by simpa using hex⟩

theorem floodBody_eq_of_live {W H : Nat} {target : String} (repl : String) {T : Int}
    (s : FloodState) {e : StackEntry} (hrect : Rectangular W H s.pixelColors)
    (hlive : Live s.pixelColors target T e.row e.col) :
    floodBody W H target repl T e s = some
      { pixelColors := setCell s.pixelColors e.row e.col repl
        stack := ⟨e.row, e.col + 1⟩ :: ⟨e.row, e.col - 1⟩ :: ⟨e.row + 1, e.col⟩
          :: ⟨e.row - 1, e.col⟩ :: s.stack
        pushes := s.pushes + 4
        writes := s.writes ++ [e] } := by
  obtain ⟨color, hcolor, htr, hex⟩ := hlive
  have hb := (getCell_isSome_iff hrect e.row e.col).mp ⟨color, hcolor⟩
  unfold floodBody
  rw [if_neg (by omega), hcolor]
  simp only
  rw [if_neg htr, hex]
  simp

theorem floodLoop_finishes {W H : Nat} {g0 : List (List String)} {target repl : String}
    {T : Int} (sr sc : Int) (hg0 : Rectangular W H g0)
    (hdead : repl = "transparent" ∨ colorDistanceExceeds repl target T = true) :
    ∀ (fuel : Nat) (s : FloodState), FloodInv W H g0 target repl T sr sc s →
      s.stack.length + 4 * (W * H - s.writes.length) ≤ fuel →
      ∃ s2, floodLoop W H target repl T fuel s = FloodOutcome.finished s2 ∧
        FloodInv W H g0 target repl T sr sc s2 ∧ s2.stack = [] := by
  intro fuel
  induction fuel with
  | zero =>
    intro s hinv hfuel
    have hnil : s.stack = [] := List.length_eq_zero.mp (by omega)
    exact ⟨s, by simp [floodLoop, hnil], hinv, hnil⟩
  | succ fuel ih =>
    intro s hinv hfuel
    cases hstack : s.stack with
    | nil => exact ⟨s, by simp [floodLoop, hstack], hinv, hstack⟩
    | cons e rest =>
      have hlen := hinv.writes_length hg0
      by_cases hlive : Live s.pixelColors target T e.row e.col
      · obtain ⟨hnew, hinv2⟩ := floodBody_write_inv hdead hinv hstack hlive
        have hlen2 := hinv2.writes_length hg0
        simp only [List.length_append, List.length_singleton] at hlen2
        have hbody := floodBody_eq_of_live repl { s with stack := rest }
          hinv.rect hlive
        obtain ⟨s2, h1, h2, h3⟩ := ih _ hinv2 (by
          simp only [List.length_cons, List.length_append, List.length_singleton]
          rw [hstack] at hfuel
          simp only [List.length_cons] at hfuel
          omega)
        refine ⟨s2, ?_, h2, h3⟩
        simp only [floodLoop, hstack]
        rw [hbody]
        exact h1
      · have hinv2 := floodBody_skip_inv hinv hstack hlive
        have hbody := floodBody_eq_of_not_live repl { s with stack := rest }
          hinv.rect hlive
        obtain ⟨s2, h1, h2, h3⟩ := ih _ hinv2 (by
          rw [hstack] at hfuel
          simp only [List.length_cons] at hfuel
          simp only
          omega)
        refine ⟨s2, ?_, h2, h3⟩
        simp only [floodLoop, hstack]
        rw [hbody]
        exact h1

theorem floodInv_init (W H : Nat) (g0 : List (List String)) (target repl : String) (T : Int)
    (sr sc : Int) (hg0 : Rectangular W H g0) :
    FloodInv W H g0 target repl T sr sc ⟨g0, [⟨sr, sc⟩], 1, []⟩ := by
  refine ⟨hg0, by simp, by simp, by simp, ?_, by simp, by simp, by simp⟩
  intro e he hl
  simp only [List.mem_singleton] at he
  subst he
  exact Reach.start hl

theorem FloodInv.reach_written {W H : Nat} {g0 : List (List String)} {target repl : String}
    {T : Int} {sr sc : Int} {s : FloodState}
    (hinv : FloodInv W H g0 target repl T sr sc s) (hnil : s.stack = []) (r c : Int)
    (h : Reach (Live g0 target T) sr sc r c) : (⟨r, c⟩ : StackEntry) ∈ s.writes := by
  induction h with
  | start hl =>
    rcases hinv.startSeen with h | h | h
    · rw [hnil] at h
      simp at h
    · exact absurd hl h
    · exact h
  | step e n _ hadj hP ih =>
    rcases hinv.frontier e ih n hadj with h | h | h
    · rw [hnil] at h
      simp at h
    · exact absurd hP h
    · exact h


theorem floodLoop_fuel_succ (W H : Nat) (target repl : String) (T : Int) :
    ∀ (fuel : Nat) (s s2 : FloodState),
      floodLoop W H target repl T fuel s = FloodOutcome.finished s2 →
      floodLoop W H target repl T (fuel + 1) s = FloodOutcome.finished s2 := by
  intro fuel
  induction fuel with
  | zero =>
    intro s s2 h
    cases hstack : s.stack with
    | nil => simpa [floodLoop, hstack] using h
    | cons e rest => simp [floodLoop, hstack] at h
  | succ fuel ih =>
    intro s s2 h
    cases hstack : s.stack with
    | nil => simpa [floodLoop, hstack] using h
    | cons e rest =>
      rw [floodLoop] at h ⊢
      simp only [hstack] at h ⊢
      cases hbody : floodBody W H target repl T e { s with stack := rest } with
      | none => simp [hbody] at h
      | some s1 =>
        simp only [hbody] at h ⊢
        exact ih s1 s2 h

theorem floodLoop_fuel_le (W H : Nat) (target repl : String) (T : Int) (fuel fuel2 : Nat)
    (hle : fuel ≤ fuel2) (s s2 : FloodState)
    (h : floodLoop W H target repl T fuel s = FloodOutcome.finished s2) :
    floodLoop W H target repl T fuel2 s = FloodOutcome.finished s2 := by
  induction hle with
  | refl => exact h
  | step _ ih => exact floodLoop_fuel_succ W H target repl T _ s s2 ih

theorem floodFill_spec (W H : Nat) (g : List (List String)) (T : Int) (sr sc : Int)
    (target repl : String) (hg : Rectangular W H g)
    (hdead : repl = "transparent" ∨ colorDistanceExceeds repl target T = true) :
    ∃ s, (∀ fuel, 4 * W * H + 1 ≤ fuel →
        floodFill W H g T fuel sr sc target repl = FloodOutcome.finished s) ∧
      s.stack = [] ∧ Rectangular W H s.pixelColors ∧ s.writes.Nodup ∧
      s.pushes ≤ 4 * W * H + 1 ∧
      (target ≠ repl → ∀ r c : Int,
        (Reach (Live g target T) sr sc r c → getCell s.pixelColors r c = some repl) ∧
        (¬ Reach (Live g target T) sr sc r c → getCell s.pixelColors r c = getCell g r c)) := by
  by_cases heq : target = repl
  · refine ⟨⟨g, [], 0, []⟩, ?_, rfl, hg, by simp, by simp, fun h => absurd heq h⟩
    intro fuel _
    simp [floodFill, heq]
  · obtain ⟨s, hrun, hinv, hnil⟩ := floodLoop_finishes sr sc hg hdead
      (4 * W * H + 1) ⟨g, [⟨sr, sc⟩], 1, []⟩ (floodInv_init W H g target repl T sr sc hg)
      (by simp only [List.length_singleton, List.length_nil, Nat.mul_assoc]; omega)
    have hlen := hinv.writes_length hg
    refine ⟨s, ?_, hnil, hinv.rect, hinv.nodup, ?_, ?_⟩
    · intro fuel hfuel
      simp only [floodFill, if_neg heq]
      exact floodLoop_fuel_le W H target repl T _ fuel hfuel _ s hrun
    · have := hinv.pushCount
      rw [this]
      have : 4 * W * H = 4 * (W * H) := by ring
      omega
    · intro _ r c
      constructor
      · intro hreach
        exact (hinv.written ⟨r, c⟩ (hinv.reach_written hnil r c hreach)).2.2
      · intro hnot
        apply hinv.unwritten ⟨r, c⟩
        intro hw
        exact hnot (hinv.written ⟨r, c⟩ hw).2.1

theorem Reach.congr {P Q : Int → Int → Prop} (hPQ : ∀ r c, P r c → Q r c) {sr sc r c : Int}
    (h : Reach P sr sc r c) : Reach Q sr sc r c := by
  induction h with
  | start hl => exact Reach.start (hPQ _ _ hl)
  | step e n _ hadj hP ih => exact Reach.step e n ih hadj (hPQ _ _ hP)

theorem getCell_mem {g : List (List String)} {r c : Int} {v : String}
    (h : getCell g r c = some v) : ∃ row ∈ g, v ∈ row := by
  unfold getCell at h
  split at h
  · cases hrow : g[r.toNat]? with
    | none => simp [hrow] at h
    | some row =>
      rw [hrow, Option.some_bind] at h
      obtain ⟨hlt, hget⟩ := List.getElem?_eq_some.mp hrow
      obtain ⟨hlt2, hget2⟩ := List.getElem?_eq_some.mp h
      exact ⟨row, by rw [← hget]; exact List.getElem_mem _,
        by rw [← hget2]; exact List.getElem_mem _⟩
  · simp at h

theorem colorDistance_isSome {a b : String} (ha : isRRGGBB a = true) (hb : isRRGGBB b = true) :
    ∃ d, colorDistance a b = some d := by
  obtain ⟨pa, _, hpa⟩ := hexToRGB_of_isRRGGBB ha
  obtain ⟨pb, _, hpb⟩ := hexToRGB_of_isRRGGBB hb
  refine ⟨Real.sqrt ((distSq pa pb : Int) : ℝ), ?_⟩
  unfold colorDistance
  rw [colorDistanceSq_of_channels hpa hpb]
  rfl

theorem live_iff_wandCell (g : List (List String)) (target : String) (T : Int)
    (htarget : isRRGGBB target = true)
    (hcells : ∀ row ∈ g, ∀ c ∈ row, c = "transparent" ∨ isRRGGBB c = true) (r c : Int) :
    Live g target T r c ↔ WandCell g target T r c := by
  have key : ∀ color, getCell g r c = some color → color ≠ "transparent" →
      (colorDistanceExceeds color target T = false ↔
        ∃ d, colorDistance color target = some d ∧ d ≤ (T : ℝ)) := by
    intro color hcolor htr
    obtain ⟨row, hrow, hmem⟩ := getCell_mem hcolor
    have hvalid : isRRGGBB color = true := by
      rcases hcells row hrow color hmem with h | h
      · exact absurd h htr
      · exact h
    obtain ⟨d0, hd0⟩ := colorDistance_isSome hvalid htarget
    rw [← Bool.not_eq_true, colorDistanceExceeds_iff, hd0]
    simp only [Option.some.injEq, exists_eq_left', not_lt]
  constructor
  · rintro ⟨color, h1, h2, h3⟩
    exact ⟨color, h1, h2, (key color h1 h2).mp h3⟩
  · rintro ⟨color, h1, h2, h3⟩
    exact ⟨color, h1, h2, (key color h1 h2).mpr h3⟩

theorem floodFill_wand (W H : Nat) (g : List (List String)) (T : Int) (sr sc : Int)
    (target : String) (hg : Rectangular W H g) (htarget : isRRGGBB target = true)
    (hcells : ∀ row ∈ g, ∀ c ∈ row, c = "transparent" ∨ isRRGGBB c = true) :
    ∃ s, (∀ fuel, 4 * W * H + 1 ≤ fuel →
        floodFill W H g T fuel sr sc target "transparent" = FloodOutcome.finished s) ∧
      Rectangular W H s.pixelColors ∧
      ∀ r c : Int,
        (Reach (WandCell g target T) sr sc r c →
          getCell s.pixelColors r c = some "transparent") ∧
        (¬ Reach (WandCell g target T) sr sc r c →
          getCell s.pixelColors r c = getCell g r c) := by
  have hne : target ≠ "transparent" := by
    intro h
    rw [h] at htarget
    exact absurd htarget (by decide)
  obtain ⟨s, h1, _, h3, _, _, h6⟩ := floodFill_spec W H g T sr sc target "transparent" hg
    (Or.inl rfl)
  refine ⟨s, h1, h3, ?_⟩
  intro r c
  have hiff := live_iff_wandCell g target T htarget hcells
  constructor
  · intro hreach
    exact (h6 hne r c).1 (Reach.congr (fun r c h => (hiff r c).mpr h) hreach)
  · intro hnot
    exact (h6 hne r c).2 (fun h => hnot (Reach.congr (fun r c h => (hiff r c).mp h) h))

/-- C22: on a grid of `gridHeight` rows of `gridWidth` cells, each `transparent`
or a `#RRGGBB` colour, `floodFill(startRow, startCol, targetColor, "transparent")`
with a `#RRGGBB` target returns, and it has set to `transparent` exactly the cells
reachable from the start cell by a 4-directional path of in-bounds,
non-transparent cells within Euclidean RGB distance `magicWandThreshold` of the
target (the start cell only if it passes the same test); every other cell keeps
its value. -/
theorem floodFill_clears_reachable (W H : Nat) (g : List (List String)) (T : Int)
    (sr sc : Int) (target : String) (hg : Rectangular W H g)
    (htarget : isRRGGBB target = true)
    (hcells : ∀ row ∈ g, ∀ c ∈ row, c = "transparent" ∨ isRRGGBB c = true) :
    ∃ s, (∀ fuel, 4 * W * H + 1 ≤ fuel →
        floodFill W H g T fuel sr sc target "transparent" = FloodOutcome.finished s) ∧
      Rectangular W H s.pixelColors ∧
      ∀ r c : Int,
        (Reach (WandCell g target T) sr sc r c →
          getCell s.pixelColors r c = some "transparent") ∧
        (¬ Reach (WandCell g target T) sr sc r c →
          getCell s.pixelColors r c = getCell g r c) :=
  floodFill_wand W H g T sr sc target hg htarget hcells

theorem floodFill_clears_reachable_witness :
    (∃ s, (∀ fuel, 4 * 4 * 1 + 1 ≤ fuel →
        floodFill 4 1 wandGrid 5 fuel 0 0 "#FF0000" "transparent"
          = FloodOutcome.finished s) ∧
      Rectangular 4 1 s.pixelColors ∧
      ∀ r c : Int,
        (Reach (WandCell wandGrid "#FF0000" 5) 0 0 r c →
          getCell s.pixelColors r c = some "transparent") ∧
        (¬ Reach (WandCell wandGrid "#FF0000" 5) 0 0 r c →
          getCell s.pixelColors r c = getCell wandGrid r c)) ∧
    floodFill 4 1 wandGrid 5 17 0 0 "#FF0000" "transparent"
      = FloodOutcome.finished
          ⟨[["transparent", "transparent", "#0000FF", "#FF0000"]], [], 9, [⟨0, 0⟩, ⟨0, 1⟩]⟩ :=
  ⟨floodFill_clears_reachable 4 1 wandGrid 5 0 0 "#FF0000" ⟨rfl, by decide⟩ (by decide)
    (by decide), by decide⟩

/-- C28: on every grid of `gridHeight` rows of `gridWidth` cells and for every
start position, when `replacementColor` is `transparent` or fails the test of the
loop against `targetColor` (its distance exceeds `magicWandThreshold`),
`floodFill` returns within `4 * gridWidth * gridHeight + 1` iterations: no cell is
written twice and `stack.push` is called at most
`4 * gridWidth * gridHeight + 1` times. -/
theorem floodFill_terminates (W H : Nat) (g : List (List String)) (T : Int) (sr sc : Int)
    (target repl : String) (hg : Rectangular W H g)
    (hdead : repl = "transparent" ∨ colorDistanceExceeds repl target T = true) :
    ∃ s, (∀ fuel, 4 * W * H + 1 ≤ fuel →
        floodFill W H g T fuel sr sc target repl = FloodOutcome.finished s) ∧
      s.stack = [] ∧ s.writes.Nodup ∧ s.pushes ≤ 4 * W * H + 1 := by
  obtain ⟨s, h1, h2, _, h4, h5, _⟩ := floodFill_spec W H g T sr sc target repl hg hdead
  exact ⟨s, h1, h2, h4, h5⟩

theorem floodFill_terminates_witness :
    (∃ s, (∀ fuel, 4 * 4 * 1 + 1 ≤ fuel →
        floodFill 4 1 wandGrid 5 fuel 0 3 "#FF0000" "#00FF00" = FloodOutcome.finished s) ∧
      s.stack = [] ∧ s.writes.Nodup ∧ s.pushes ≤ 4 * 4 * 1 + 1) ∧
    floodFill 4 1 wandGrid 5 17 0 3 "#FF0000" "#00FF00"
      = FloodOutcome.finished
          ⟨[["#FF0000", "#fc0300", "#0000FF", "#00FF00"]], [], 5, [⟨0, 3⟩]⟩ :=
  ⟨floodFill_terminates 4 1 wandGrid 5 0 3 "#FF0000" "#00FF00" ⟨rfl, by decide⟩
    (Or.inr (by decide)), by decide⟩

/-! ## The rectangles in rounded arithmetic -/

theorem rounding_id : Rounding id 0 :=
  ⟨fun _ _ h => h, fun _ => rfl, fun x => by simp⟩

theorem cellRectFl_id (imageDims : ImageDims) (o : Options) (j i : Nat) :
    cellRectFl id imageDims o j i = cellRect imageDims o j i := rfl

theorem Rounding.zero {fl : ℚ → ℚ} {u : ℚ} (h : Rounding fl u) : fl 0 = 0 := by
  have := h.err 0
  simp only [sub_zero, abs_zero, mul_zero] at this
  exact abs_eq_zero.mp (le_antisymm this (abs_nonneg _))

theorem Rounding.nonneg {fl : ℚ → ℚ} {u : ℚ} (h : Rounding fl u) {x : ℚ} (hx : 0 ≤ x) :
    0 ≤ fl x := by
  have := h.mono 0 x hx
  rwa [h.zero] at this

theorem Rounding.le_of_nonneg {fl : ℚ → ℚ} {u : ℚ} (h : Rounding fl u) {x : ℚ} (hx : 0 ≤ x) :
    fl x ≤ x + u * x ∧ x - u * x ≤ fl x := by
  have := h.err x
  rw [abs_of_nonneg hx, abs_le] at this
  constructor <;> linarith

theorem rounded_low_edge {fl : ℚ → ℚ} {u : ℚ} (h : Rounding fl u) (k c : ℚ) (hc : 0 ≤ c) :
    fl (fl (k * fl c) - fl (fl c * 0.25)) ≤ fl (k * fl c) := by
  have hm : 0 ≤ fl (fl c * 0.25) := h.nonneg (mul_nonneg (h.nonneg hc) (by norm_num))
  have := h.mono (fl (k * fl c) - fl (fl c * 0.25)) (fl (k * fl c)) (by linarith)
  rwa [h.idem] at this

theorem rounded_high_edge {fl : ℚ → ℚ} {u : ℚ} (h : Rounding fl u) (k : Nat) (c : ℚ)
    (hc : 0 ≤ c) (hu : (8 * (k : ℚ) + 5) * u ≤ 1) :
    fl (fl ((k : ℚ) * fl c) + fl c) ≤ fl (fl (((k : ℚ) + 1) * fl c) + fl (fl c * 0.25)) := by
  have hw : 0 ≤ fl c := h.nonneg hc
  have hk : (0 : ℚ) ≤ (k : ℚ) := Nat.cast_nonneg k
  have h1 := (h.le_of_nonneg (mul_nonneg hk hw)).1
  have h2 := (h.le_of_nonneg (mul_nonneg (by linarith : (0 : ℚ) ≤ (k : ℚ) + 1) hw)).2
  have h3 := (h.le_of_nonneg (mul_nonneg hw (by norm_num : (0 : ℚ) ≤ 0.25))).2
  apply h.mono
  have key : 0 ≤ fl c * (1 - (8 * (k : ℚ) + 5) * u) := mul_nonneg hw (by linarith)
  norm_num at h3 ⊢
  nlinarith

theorem cellRectFl_contains (fl : ℚ → ℚ) (u : ℚ) (hfl : Rounding fl u)
    (imageDims : ImageDims) (o : Options) (j i : Nat)
    (hui : (8 * (i : ℚ) + 5) * u ≤ 1) (huj : (8 * (j : ℚ) + 5) * u ≤ 1)
    (hscale : 0 < o.imageScale) (hcw : 0 ≤ o.canvasWidth) (hch : 0 ≤ o.canvasHeight) :
    (cellRectFl fl imageDims { o with method := Method.neighbor } j i).x0
        ≤ (cellRectFl fl imageDims { o with method := Method.average } j i).x0 ∧
      (cellRectFl fl imageDims { o with method := Method.neighbor } j i).y0
        ≤ (cellRectFl fl imageDims { o with method := Method.average } j i).y0 ∧
      (cellRectFl fl imageDims { o with method := Method.average } j i).x1
        ≤ (cellRectFl fl imageDims { o with method := Method.neighbor } j i).x1 ∧
      (cellRectFl fl imageDims { o with method := Method.average } j i).y1
        ≤ (cellRectFl fl imageDims { o with method := Method.neighbor } j i).y1 := by
  have hw : 0 ≤ o.canvasWidth / (o.gridWidth : ℚ) := div_nonneg hcw (Nat.cast_nonneg _)
  have hh : 0 ≤ o.canvasHeight / (o.gridHeight : ℚ) := div_nonneg hch (Nat.cast_nonneg _)
  have hna : ¬ (Method.average = Method.neighbor) := by decide
  simp only [cellRectFl, if_true, hna, if_false]
  refine ⟨max_le_max le_rfl (Int.floor_le_floor ?_),
    max_le_max le_rfl (Int.floor_le_floor ?_),
    min_le_min le_rfl (Int.ceil_le_ceil ?_), min_le_min le_rfl (Int.ceil_le_ceil ?_)⟩
  · exact hfl.mono _ _ (div_le_div_of_nonneg_right
      (hfl.mono _ _ (sub_le_sub_right (rounded_low_edge hfl _ _ hw) _)) hscale.le)
  · exact hfl.mono _ _ (div_le_div_of_nonneg_right
      (hfl.mono _ _ (sub_le_sub_right (rounded_low_edge hfl _ _ hh) _)) hscale.le)
  · exact hfl.mono _ _ (div_le_div_of_nonneg_right
      (hfl.mono _ _ (sub_le_sub_right (rounded_high_edge hfl i _ hw hui) _)) hscale.le)
  · exact hfl.mono _ _ (div_le_div_of_nonneg_right
      (hfl.mono _ _ (sub_le_sub_right (rounded_high_edge hfl j _ hh huj) _)) hscale.le)

theorem cellRectFl_neighbor (fl : ℚ → ℚ) (imageDims : ImageDims) (o : Options) (j i : Nat) :
    cellRectFl fl imageDims { o with method := Method.neighbor } j i =
      sampledRect fl imageDims o
        (fl (fl ((i : ℚ) * fl (o.canvasWidth / (o.gridWidth : ℚ)))
          - fl (fl (o.canvasWidth / (o.gridWidth : ℚ)) * 0.25)))
        (fl (fl ((j : ℚ) * fl (o.canvasHeight / (o.gridHeight : ℚ)))
          - fl (fl (o.canvasHeight / (o.gridHeight : ℚ)) * 0.25)))
        (fl (fl (((i : ℚ) + 1) * fl (o.canvasWidth / (o.gridWidth : ℚ)))
          + fl (fl (o.canvasWidth / (o.gridWidth : ℚ)) * 0.25)))
        (fl (fl (((j : ℚ) + 1) * fl (o.canvasHeight / (o.gridHeight : ℚ)))
          + fl (fl (o.canvasHeight / (o.gridHeight : ℚ)) * 0.25))) := by
  simp only [cellRectFl, if_true, sampledRect]

theorem cellRectFl_average (fl : ℚ → ℚ) (imageDims : ImageDims) (o : Options) (j i : Nat) :
    cellRectFl fl imageDims { o with method := Method.average } j i =
      sampledRect fl imageDims o
        (fl ((i : ℚ) * fl (o.canvasWidth / (o.gridWidth : ℚ))))
        (fl ((j : ℚ) * fl (o.canvasHeight / (o.gridHeight : ℚ))))
        (fl (fl ((i : ℚ) * fl (o.canvasWidth / (o.gridWidth : ℚ)))
          + fl (o.canvasWidth / (o.gridWidth : ℚ))))
        (fl (fl ((j : ℚ) * fl (o.canvasHeight / (o.gridHeight : ℚ)))
          + fl (o.canvasHeight / (o.gridHeight : ℚ)))) := by
  have hna : ¬ (Method.average = Method.neighbor) := by decide
  simp only [cellRectFl, hna, if_false, sampledRect]

/-- C19, as the code has it: for every cell, a positive `imageScale`, canvas
dimensions that are not negative, and an arithmetic that rounds every result
with relative error at most `u` (exact arithmetic has `u = 0`), where
`(8 * i + 5) * u ≤ 1` and `(8 * j + 5) * u ≤ 1`: the rectangle of the cell under
`neighbor` is the floor, ceiling and clamp of the cell's canvas rectangle widened
by a quarter of the cell width on the left and right and a quarter of the cell
height above and below, as that arithmetic computes them, and it contains the
rectangle of the same cell under `average`. -/
theorem neighbor_rect_contains_average (fl : ℚ → ℚ) (u : ℚ) (hfl : Rounding fl u)
    (imageDims : ImageDims) (o : Options) (j i : Nat)
    (_hi : i < o.gridWidth) (_hj : j < o.gridHeight)
    (hui : (8 * (i : ℚ) + 5) * u ≤ 1) (huj : (8 * (j : ℚ) + 5) * u ≤ 1)
    (hscale : 0 < o.imageScale) (hcw : 0 ≤ o.canvasWidth) (hch : 0 ≤ o.canvasHeight) :
    cellRectFl fl imageDims { o with method := Method.neighbor } j i =
      sampledRect fl imageDims o
        (fl (fl ((i : ℚ) * fl (o.canvasWidth / (o.gridWidth : ℚ)))
          - fl (fl (o.canvasWidth / (o.gridWidth : ℚ)) * 0.25)))
        (fl (fl ((j : ℚ) * fl (o.canvasHeight / (o.gridHeight : ℚ)))
          - fl (fl (o.canvasHeight / (o.gridHeight : ℚ)) * 0.25)))
        (fl (fl (((i : ℚ) + 1) * fl (o.canvasWidth / (o.gridWidth : ℚ)))
          + fl (fl (o.canvasWidth / (o.gridWidth : ℚ)) * 0.25)))
        (fl (fl (((j : ℚ) + 1) * fl (o.canvasHeight / (o.gridHeight : ℚ)))
          + fl (fl (o.canvasHeight / (o.gridHeight : ℚ)) * 0.25))) ∧
    cellRectFl fl imageDims { o with method := Method.average } j i =
      sampledRect fl imageDims o
        (fl ((i : ℚ) * fl (o.canvasWidth / (o.gridWidth : ℚ))))
        (fl ((j : ℚ) * fl (o.canvasHeight / (o.gridHeight : ℚ))))
        (fl (fl ((i : ℚ) * fl (o.canvasWidth / (o.gridWidth : ℚ)))
          + fl (o.canvasWidth / (o.gridWidth : ℚ))))
        (fl (fl ((j : ℚ) * fl (o.canvasHeight / (o.gridHeight : ℚ)))
          + fl (o.canvasHeight / (o.gridHeight : ℚ)))) ∧
    ((cellRectFl fl imageDims { o with method := Method.neighbor } j i).x0
        ≤ (cellRectFl fl imageDims { o with method := Method.average } j i).x0 ∧
      (cellRectFl fl imageDims { o with method := Method.neighbor } j i).y0
        ≤ (cellRectFl fl imageDims { o with method := Method.average } j i).y0 ∧
      (cellRectFl fl imageDims { o with method := Method.average } j i).x1
        ≤ (cellRectFl fl imageDims { o with method := Method.neighbor } j i).x1 ∧
      (cellRectFl fl imageDims { o with method := Method.average } j i).y1
        ≤ (cellRectFl fl imageDims { o with method := Method.neighbor } j i).y1) :=
  ⟨cellRectFl_neighbor fl imageDims o j i, cellRectFl_average fl imageDims o j i,
    cellRectFl_contains fl u hfl imageDims o j i hui huj hscale hcw hch⟩

theorem neighbor_rect_contains_average_witness :
    (cellRectFl id ⟨8, 8⟩ { (⟨2, 2, Method.most, 0, 0, 1, 8, 8⟩ : Options) with
        method := Method.neighbor } 1 1).x0
        ≤ (cellRectFl id ⟨8, 8⟩ { (⟨2, 2, Method.most, 0, 0, 1, 8, 8⟩ : Options) with
            method := Method.average } 1 1).x0 ∧
      (cellRectFl id ⟨8, 8⟩ { (⟨2, 2, Method.most, 0, 0, 1, 8, 8⟩ : Options) with
        method := Method.neighbor } 1 1).y0
        ≤ (cellRectFl id ⟨8, 8⟩ { (⟨2, 2, Method.most, 0, 0, 1, 8, 8⟩ : Options) with
            method := Method.average } 1 1).y0 ∧
      (cellRectFl id ⟨8, 8⟩ { (⟨2, 2, Method.most, 0, 0, 1, 8, 8⟩ : Options) with
        method := Method.average } 1 1).x1
        ≤ (cellRectFl id ⟨8, 8⟩ { (⟨2, 2, Method.most, 0, 0, 1, 8, 8⟩ : Options) with
            method := Method.neighbor } 1 1).x1 ∧
      (cellRectFl id ⟨8, 8⟩ { (⟨2, 2, Method.most, 0, 0, 1, 8, 8⟩ : Options) with
        method := Method.average } 1 1).y1
        ≤ (cellRectFl id ⟨8, 8⟩ { (⟨2, 2, Method.most, 0, 0, 1, 8, 8⟩ : Options) with
            method := Method.neighbor } 1 1).y1 :=
  (neighbor_rect_contains_average id 0 rounding_id ⟨8, 8⟩ ⟨2, 2, Method.most, 0, 0, 1, 8, 8⟩
    1 1 (by decide) (by decide) (by simp) (by simp) (by decide!) (by decide!)
    (by decide!)).2.2


/-! ## The weighted representative in rounded arithmetic -/

theorem totalWeightFl_append (fl : ℚ → ℚ) (ms : List WeightedPixel) (px : WeightedPixel)
    (hne : ms ≠ []) :
    totalWeightFl fl (ms ++ [px]) = fl (totalWeightFl fl ms + px.weight) := by
  cases ms with
  | nil => exact absurd rfl hne
  | cons m rest => simp [totalWeightFl, List.foldl_append]

theorem repColorFl_append (fl : ℚ → ℚ) (ms : List WeightedPixel) (px : WeightedPixel)
    (hne : ms ≠ []) :
    repColorFl fl (ms ++ [px]) =
      ⟨jsRound (fl ((weightedSumsFl fl (ms ++ [px])).1 / totalWeightFl fl (ms ++ [px]))),
       jsRound (fl ((weightedSumsFl fl (ms ++ [px])).2.1 / totalWeightFl fl (ms ++ [px]))),
       jsRound (fl ((weightedSumsFl fl (ms ++ [px])).2.2 / totalWeightFl fl (ms ++ [px])))⟩ := by
  cases ms with
  | nil => exact absurd rfl hne
  | cons m rest =>
    cases rest with
    | nil => rfl
    | cons m2 rest2 => rfl

theorem mergeWeightedFl_clusterOfFl (fl : ℚ → ℚ) (ms : List WeightedPixel) (px : WeightedPixel)
    (hne : ms ≠ []) :
    mergeWeightedFl fl (clusterOfFl fl ms) px = clusterOfFl fl (ms ++ [px]) := by
  unfold mergeWeightedFl clusterOfFl
  simp only [repColorFl_append fl ms px hne, totalWeightFl_append fl ms px hne]

theorem addToWeightedClustersFl_clusterOfFl (fl : ℚ → ℚ) (t : Int)
    (clusters : List WeightedCluster) (px : WeightedPixel)
    (h : ∀ cl ∈ clusters, cl.members ≠ [] ∧ cl = clusterOfFl fl cl.members) :
    ∀ cl ∈ addToWeightedClustersFl fl t clusters px,
      cl.members ≠ [] ∧ cl = clusterOfFl fl cl.members := by
  induction clusters with
  | nil =>
    intro cl hcl
    simp only [addToWeightedClustersFl, List.mem_singleton] at hcl
    subst hcl
    exact ⟨by simp, rfl⟩
  | cons c rest ih =>
    intro cl hcl
    unfold addToWeightedClustersFl at hcl
    split at hcl
    · rcases List.mem_cons.mp hcl with rfl | hcl
      · obtain ⟨h1, h2⟩ := h c (List.mem_cons_self _ _)
        rw [h2, mergeWeightedFl_clusterOfFl fl c.members px h1]
        exact ⟨by simp [clusterOfFl], rfl⟩
      · exact h cl (List.mem_cons_of_mem _ hcl)
    · rcases List.mem_cons.mp hcl with rfl | hcl
      · exact h _ (List.mem_cons_self _ _)
      · exact ih (fun cl hcl => h cl (List.mem_cons_of_mem _ hcl)) cl hcl

theorem foldl_addToWeightedClustersFl (fl : ℚ → ℚ) (method : Method) (t : Int)
    (l : List Pixel) (init : List WeightedCluster)
    (h : ∀ cl ∈ init, cl.members ≠ [] ∧ cl = clusterOfFl fl cl.members) :
    ∀ cl ∈ l.foldl
        (fun clusters p => addToWeightedClustersFl fl t clusters (weighFl fl method p)) init,
      cl.members ≠ [] ∧ cl = clusterOfFl fl cl.members := by
  induction l generalizing init with
  | nil => exact h
  | cons p rest ih =>
    simp only [List.foldl_cons]
    exact ih _ (addToWeightedClustersFl_clusterOfFl fl t init _ h)

theorem buildWeightedClustersFl_clusterOfFl (fl : ℚ → ℚ) (method : Method) (t : Int)
    (l : List Pixel) :
    ∀ cl ∈ buildWeightedClustersFl fl method t l,
      cl.members ≠ [] ∧ cl = clusterOfFl fl cl.members :=
  foldl_addToWeightedClustersFl fl method t l [] (by simp)

theorem weighFl_id (method : Method) (p : Pixel) : weighFl id method p = weigh method p := by
  simp only [weighFl, weigh, pixelWeightFl, pixelWeight, rawWeightFl, rawWeight, brightnessFl,
    brightness, id]

theorem mergeWeightedFl_id (cl : WeightedCluster) (px : WeightedPixel) :
    mergeWeightedFl id cl px = mergeWeighted cl px := rfl

theorem addToWeightedClustersFl_id (t : Int) (clusters : List WeightedCluster)
    (px : WeightedPixel) :
    addToWeightedClustersFl id t clusters px = addToWeightedClusters t clusters px := by
  induction clusters with
  | nil => rfl
  | cons c rest ih =>
    simp only [addToWeightedClustersFl, addToWeightedClusters, ih, mergeWeightedFl_id]

theorem buildWeightedClustersFl_id (method : Method) (t : Int) (l : List Pixel) :
    buildWeightedClustersFl id method t l = buildWeightedClusters method t l := by
  unfold buildWeightedClustersFl buildWeightedClusters
  congr 1
  funext clusters p
  rw [addToWeightedClustersFl_id, weighFl_id]

theorem totalWeightFl_id (ms : List WeightedPixel) : totalWeightFl id ms = totalWeightOf ms := by
  cases ms with
  | nil => rfl
  | cons m rest =>
    have key : ∀ (l : List WeightedPixel) (a : ℚ),
        l.foldl (fun total member => id (total + member.weight)) a
          = a + (l.map fun m => m.weight).sum := by
      intro l
      induction l with
      | nil => intro a; simp
      | cons x xs ih =>
        intro a
        rw [List.foldl_cons, ih]
        simp only [id, List.map_cons, List.sum_cons]
        ring
    simp only [totalWeightFl, key, totalWeightOf, List.map_cons, List.sum_cons]

theorem weightedSumsFl_id (ms : List WeightedPixel) :
    weightedSumsFl id ms =
      (weightedChannelSum WeightedPixel.r ms, weightedChannelSum WeightedPixel.g ms,
        weightedChannelSum WeightedPixel.b ms) := by
  rw [← weightedSums_eq]
  rfl

theorem repColorFl_id_append (ms : List WeightedPixel) (px : WeightedPixel) (hne : ms ≠ [])
    (h0 : totalWeightOf ms ≠ 0) :
    repColorFl id (ms ++ [px]) =
      ⟨jsRound (unroundedIncremental WeightedPixel.r ms px),
       jsRound (unroundedIncremental WeightedPixel.g ms px),
       jsRound (unroundedIncremental WeightedPixel.b ms px)⟩ := by
  rw [repColorFl_append id ms px hne, weightedSumsFl_id, totalWeightFl_id]
  simp only [id, unroundedIncremental, weighted_unrounded_incremental _ ms px h0]

/-- C23 (amended): in `getRepresentativeColorWeighted`, with every arithmetic
result rounded as the number type of the program rounds it (whatever the
rounding `fl`), every cluster is the cluster determined by its members: its
total weight is the running sum of their weights and, after every merge, its
representative is recomputed from all its members as the rounded quotient of the
sums by the total weight. In exact arithmetic (`fl = id`) the representative after
a merge is, per channel, the rounding of the incremental update applied to the
unrounded previous average. -/
theorem weighted_rep_is_rounded_mean (fl : ℚ → ℚ) (method : Method) (t : Int)
    (l : List Pixel) (ms : List WeightedPixel) (px : WeightedPixel) (hne : ms ≠ [])
    (hpos : ∀ m ∈ ms, 0 < m.weight) :
    (∀ cl ∈ buildWeightedClustersFl fl method t l,
      cl.members ≠ [] ∧ cl = clusterOfFl fl cl.members) ∧
    mergeWeightedFl fl (clusterOfFl fl ms) px = clusterOfFl fl (ms ++ [px]) ∧
    (clusterOfFl fl (ms ++ [px])).totalWeight = fl (totalWeightFl fl ms + px.weight) ∧
    (clusterOfFl fl (ms ++ [px])).repColor =
      ⟨jsRound (fl ((weightedSumsFl fl (ms ++ [px])).1 / totalWeightFl fl (ms ++ [px]))),
       jsRound (fl ((weightedSumsFl fl (ms ++ [px])).2.1 / totalWeightFl fl (ms ++ [px]))),
       jsRound (fl ((weightedSumsFl fl (ms ++ [px])).2.2 / totalWeightFl fl (ms ++ [px])))⟩ ∧
    (clusterOfFl id (ms ++ [px])).repColor =
      ⟨jsRound (unroundedIncremental WeightedPixel.r ms px),
       jsRound (unroundedIncremental WeightedPixel.g ms px),
       jsRound (unroundedIncremental WeightedPixel.b ms px)⟩ :=
  ⟨buildWeightedClustersFl_clusterOfFl fl method t l,
    mergeWeightedFl_clusterOfFl fl ms px hne,
    totalWeightFl_append fl ms px hne,
    repColorFl_append fl ms px hne,
    repColorFl_id_append ms px hne (ne_of_gt (totalWeightOf_pos hne hpos))⟩

theorem weighted_rep_is_rounded_mean_witness :
    (∀ cl ∈ buildWeightedClustersFl id Method.most_light 30 [⟨0, 0, 0⟩, ⟨1, 0, 0⟩, ⟨0, 0, 0⟩],
      cl.members ≠ [] ∧ cl = clusterOfFl id cl.members) ∧
    mergeWeightedFl id
        (clusterOfFl id ([(⟨0, 0, 0⟩ : Pixel), ⟨1, 0, 0⟩].map (weigh Method.most_light)))
        (weigh Method.most_light ⟨0, 0, 0⟩)
      = clusterOfFl id ([(⟨0, 0, 0⟩ : Pixel), ⟨1, 0, 0⟩].map (weigh Method.most_light)
          ++ [weigh Method.most_light ⟨0, 0, 0⟩]) ∧
    (clusterOfFl id ([(⟨0, 0, 0⟩ : Pixel), ⟨1, 0, 0⟩].map (weigh Method.most_light)
        ++ [weigh Method.most_light ⟨0, 0, 0⟩])).repColor = ⟨0, 0, 0⟩ :=
  have h := weighted_rep_is_rounded_mean id Method.most_light 30
    [⟨0, 0, 0⟩, ⟨1, 0, 0⟩, ⟨0, 0, 0⟩]
    ([(⟨0, 0, 0⟩ : Pixel), ⟨1, 0, 0⟩].map (weigh Method.most_light))
    (weigh Method.most_light ⟨0, 0, 0⟩) (by simp) (by decide!)
  ⟨h.1, h.2.1, by decide!⟩

end PixelArt
